import Mathlib

/-! # Rollin: one-time-password core

A shallow embedding of the code-generation pipeline of the Rollin authenticator
(`src/otpimpl/base32coder.cpp`, `src/otpimpl/hmac.cpp`, `src/otpimpl/hotp.cpp`,
`src/otpimpl/totp.cpp`) together with theorems about it.  The classes `ByteArray`, `HashTypeBase` and
`Sha1Hash`, whose sources are not at hand, are modelled from the specification.

Conventions of the embedding.

* An `unsigned char` is a `Nat`; a byte sequence is a `List Nat` whose elements
  are below 256 (`Bytes`).  Where the C++ narrows a wider value to
  `unsigned char` the embedding writes `% 256`.
* A `std::string` is a `List Char`.
* A C pointer result that may be `nullptr` is an `Option`.
* A `for` loop is a structural recursion on the number of iterations left, or a
  fold over `List.range`.
-/

set_option autoImplicit false

namespace Rollin

/-- Well-formedness of a byte sequence: every element fits in an `unsigned char`. -/
def Bytes (b : List Nat) : Prop := ∀ x ∈ b, x < 256

instance (b : List Nat) : Decidable (Bytes b) := by
  unfold Bytes; exact inferInstance

/-! ## Base32Coder (`src/otpimpl/base32coder.cpp`) -/

namespace Base32Coder

/-- The table `base32chars` (line 7). -/
def base32chars : List Char := "ABCDEFGHIJKLMNOPQRSTUVWXYZ234567".toList

/-- The read `base32chars[i]`; index 32 is the terminating NUL of the C string. -/
def base32char (i : Nat) : Char := base32chars.getD i (Char.ofNat 0)

/-- The read `toEncode[i]` of the input buffer. -/
def byteAt (toEncode : List Nat) (i : Nat) : Nat := toEncode.getD i 0

/-- The body of the `for` loop of `Base32Coder::encode` (lines 49-108): the
characters appended to `result` for the block that starts at `offset`. -/
def encodeBlock (toEncode : List Nat) (toEncodeSize offset : Nat) : List Char :=
  let r0 := [base32char (byteAt toEncode offset >>> 3)]
  let b := (byteAt toEncode offset &&& 0x07) <<< 2
  let b := if offset + 1 < toEncodeSize then b ||| (byteAt toEncode (offset + 1) >>> 6) else b
  let r1 := r0 ++ [base32char b]
  if offset + 1 ≥ toEncodeSize then
    r1 ++ "======".toList
  else
    let r2 := r1 ++ [base32char ((byteAt toEncode (offset + 1) &&& 0x3f) >>> 1)]
    let b := (byteAt toEncode (offset + 1) &&& 0x01) <<< 4
    let b := if offset + 2 < toEncodeSize then b ||| (byteAt toEncode (offset + 2) >>> 4) else b
    let r3 := r2 ++ [base32char b]
    if offset + 2 ≥ toEncodeSize then
      r3 ++ "====".toList
    else
      let b := (byteAt toEncode (offset + 2) &&& 0x0f) <<< 1
      let b := if offset + 3 < toEncodeSize then b ||| (byteAt toEncode (offset + 3) >>> 7) else b
      let r4 := r3 ++ [base32char b]
      if offset + 3 ≥ toEncodeSize then
        r4 ++ "===".toList
      else
        let r5 := r4 ++ [base32char ((byteAt toEncode (offset + 3) &&& 0x7f) >>> 2)]
        let b := (byteAt toEncode (offset + 3) &&& 0x03) <<< 3
        let b := if offset + 4 < toEncodeSize then b ||| (byteAt toEncode (offset + 4) >>> 5) else b
        let r6 := r5 ++ [base32char b]
        if offset + 4 ≥ toEncodeSize then
          r6 ++ "=".toList
        else
          r6 ++ [base32char (byteAt toEncode (offset + 4) &&& 0x1f)]

/-- The number of loop iterations computed at lines 38-46. -/
def encodeBlocks (toEncodeSize : Nat) : Nat :=
  let blocks := toEncodeSize / 5
  if blocks = 0 then 1
  else if toEncodeSize % 5 ≠ 0 then blocks + 1 else blocks

/-- The function `Base32Coder::encode` (lines 24-112); `toEncodeSize` is the length of the list. -/
def encode (toEncode : List Nat) : List Char :=
  let toEncodeSize := toEncode.length
  if toEncodeSize = 0 then []
  else
    (List.range (encodeBlocks toEncodeSize)).foldl
      (fun result i => result ++ encodeBlock toEncode toEncodeSize (i * 5)) []

/-- The search loop of `Base32Coder::decodeChar` from index `i` on, over the rest
of the table; `0xff` when the character is not found. -/
def decodeCharFrom (toDecode : Char) : List Char → Nat → Nat
  | [], _ => 0xff
  | c :: rest, i => if toDecode = c then i else decodeCharFrom toDecode rest (i + 1)

/-- The function `Base32Coder::decodeChar` (lines 212-222). -/
def decodeChar (toDecode : Char) : Nat := decodeCharFrom toDecode base32chars 0

/-- The read `data[i]` of the NUL-terminated copy `bytesToDecode` of the input
string; the input is taken to hold no NUL character, so that the copy made by
`strdup` holds all of it. -/
def charAt (data : List Char) (i : Nat) : Char := data.getD i (Char.ofNat 0)

/-- The function `Base32Coder::decode8Chars` (lines 175-203) for non-null `data` and `target`:
the success flag, the target buffer after the writes and the new `decodedSize`.
Each `static_cast<unsigned char>` is a `% 256`. -/
def decode8Chars (data : List Char) (dataOffset : Nat) (target : List Nat) (decodedSize : Nat) :
    Bool × List Nat × Nat :=
  let d := fun k => decodeChar (charAt data (dataOffset + k))
  let target := target.set decodedSize (((d 0 <<< 3) ||| (d 1 >>> 2)) % 256)
  let decodedSize := decodedSize + 1
  let (target, decodedSize) :=
    if charAt data (dataOffset + 2) ≠ '=' then
      (target.set decodedSize (((d 1 <<< 6) ||| ((d 2 <<< 1) ||| (d 3 >>> 4))) % 256),
        decodedSize + 1)
    else (target, decodedSize)
  let (target, decodedSize) :=
    if charAt data (dataOffset + 4) ≠ '=' then
      (target.set decodedSize (((d 3 <<< 4) ||| (d 4 >>> 1)) % 256), decodedSize + 1)
    else (target, decodedSize)
  let (target, decodedSize) :=
    if charAt data (dataOffset + 5) ≠ '=' then
      (target.set decodedSize (((d 4 <<< 7) ||| ((d 5 <<< 2) ||| (d 6 >>> 3))) % 256),
        decodedSize + 1)
    else (target, decodedSize)
  let (target, decodedSize) :=
    if charAt data (dataOffset + 7) ≠ '=' then
      (target.set decodedSize (((d 6 <<< 5) ||| d 7) % 256), decodedSize + 1)
    else (target, decodedSize)
  (true, target, decodedSize)

/-- The block loop of `Base32Coder::decode` (lines 156-166) with `n` iterations
left, at block index `i`. -/
def decodeLoop (data : List Char) : Nat → Nat → List Nat → Nat → Option (List Nat) × Nat
  | 0, _, target, decodedSize => (some target, decodedSize)
  | n + 1, i, target, decodedSize =>
    match decode8Chars data (i * 8) target decodedSize with
    | (false, _, decodedSize) => (none, decodedSize)
    | (true, target, decodedSize) => decodeLoop data n (i + 1) target decodedSize

/-- The function `Base32Coder::decode` (lines 122-173): the returned pointer (`none` is
`nullptr`, `some buf` the whole allocated buffer) and the out-parameter
`decodedSize`.  Allocation is taken to succeed. -/
def decode (toDecode : List Char) : Option (List Nat) × Nat :=
  if toDecode.isEmpty then (some [0], 0)
  else if toDecode.length % 8 ≠ 0 then (none, 0)
  else
    let result := List.replicate toDecode.length 0
    let blocks := toDecode.length / 8
    decodeLoop toDecode blocks 0 result 0

/-- The decoded bytes: the first `decodedSize` bytes of the returned buffer. -/
def decoded (r : Option (List Nat) × Nat) : Option (List Nat) :=
  r.1.map (fun buf => buf.take r.2)

/-- The bytes that one call of `decode8Chars` at `dataOffset` writes, in order:
the first byte always, the others under the four `!= '='` tests of lines 185-200. -/
def blockBytes (data : List Char) (dataOffset : Nat) : List Nat :=
  let d := fun k => decodeChar (charAt data (dataOffset + k))
  [((d 0 <<< 3) ||| (d 1 >>> 2)) % 256]
    ++ (if charAt data (dataOffset + 2) ≠ '=' then
          [((d 1 <<< 6) ||| ((d 2 <<< 1) ||| (d 3 >>> 4))) % 256] else [])
    ++ (if charAt data (dataOffset + 4) ≠ '=' then
          [((d 3 <<< 4) ||| (d 4 >>> 1)) % 256] else [])
    ++ (if charAt data (dataOffset + 5) ≠ '=' then
          [((d 4 <<< 7) ||| ((d 5 <<< 2) ||| (d 6 >>> 3))) % 256] else [])
    ++ (if charAt data (dataOffset + 7) ≠ '=' then
          [((d 6 <<< 5) ||| d 7) % 256] else [])

/-- The bytes written by `n` consecutive blocks starting at block index `i`. -/
def decodedFrom (data : List Char) : Nat → Nat → List Nat
  | 0, _ => []
  | n + 1, i => blockBytes data (i * 8) ++ decodedFrom data n (i + 1)

/-! ### The RFC 4648 reference encoding, following the specification's words -/

/-- Reference: the RFC 4648 base32 alphabet. -/
def rfcAlphabet : List Char := "ABCDEFGHIJKLMNOPQRSTUVWXYZ234567".toList

/-- Reference: bit `i` of the byte sequence `b`, numbered big-endian from the most
significant bit of the first byte; bits beyond the end of `b` are 0. -/
def rfcBit (b : List Nat) (i : Nat) : Nat := (b.getD (i / 8) 0 / 2 ^ (7 - i % 8)) % 2

/-- Reference: the 5-bit big-endian value of bits `5j .. 5j+4` of `b`. -/
def rfcValue (b : List Nat) (j : Nat) : Nat :=
  rfcBit b (5 * j) * 16 + rfcBit b (5 * j + 1) * 8 + rfcBit b (5 * j + 2) * 4 +
    rfcBit b (5 * j + 3) * 2 + rfcBit b (5 * j + 4)

/-- Reference: the number `ceil(8n/5)` of data characters for `n` bytes. -/
def rfcDataChars (n : Nat) : Nat := (8 * n + 4) / 5

/-- Reference: output character `j`: the alphabet character of the 5-bit value
for `j < ceil(8n/5)`, the pad character after that. -/
def rfcChar (b : List Nat) (j : Nat) : Char :=
  if j < rfcDataChars b.length then rfcAlphabet.getD (rfcValue b j) (Char.ofNat 0) else '='

/-- Reference: the whole padded encoding, `8 * ceil(n/5)` characters. -/
def rfcEncode (b : List Nat) : List Char :=
  (List.range (8 * ((b.length + 4) / 5))).map (rfcChar b)

/-- The RFC 4648 pad count for a final group of `r = n mod 5` bytes. -/
def padCount (r : Nat) : Nat :=
  match r with
  | 0 => 0
  | 1 => 6
  | 2 => 4
  | 3 => 3
  | _ => 1

/-- The body of the `for` loop of `Base32Coder::encode` (lines 49-108) with each
read `toEncode[k]` checked against the `toEncodeSize` bytes of the buffer and each
read `base32chars[k]` checked against the 32 characters of the alphabet. -/
def encodeBlockChecked (toEncode : List Nat) (toEncodeSize offset : Nat) :
    Option (List Char) :=
  match toEncode[offset]? with
  | none => none
  | some t0 =>
  match base32chars[t0 >>> 3]? with
  | none => none
  | some c0 =>
  let b := (t0 &&& 0x07) <<< 2
  match (if offset + 1 < toEncodeSize then
      (toEncode[offset + 1]?).map (fun t1 => b ||| (t1 >>> 6)) else some b) with
  | none => none
  | some b =>
  match base32chars[b]? with
  | none => none
  | some c1 =>
  if offset + 1 ≥ toEncodeSize then
    some ([c0, c1] ++ "======".toList)
  else
    match toEncode[offset + 1]? with
    | none => none
    | some t1 =>
    match base32chars[(t1 &&& 0x3f) >>> 1]? with
    | none => none
    | some c2 =>
    let b := (t1 &&& 0x01) <<< 4
    match (if offset + 2 < toEncodeSize then
        (toEncode[offset + 2]?).map (fun t2 => b ||| (t2 >>> 4)) else some b) with
    | none => none
    | some b =>
    match base32chars[b]? with
    | none => none
    | some c3 =>
    if offset + 2 ≥ toEncodeSize then
      some ([c0, c1, c2, c3] ++ "====".toList)
    else
      match toEncode[offset + 2]? with
      | none => none
      | some t2 =>
      let b := (t2 &&& 0x0f) <<< 1
      match (if offset + 3 < toEncodeSize then
          (toEncode[offset + 3]?).map (fun t3 => b ||| (t3 >>> 7)) else some b) with
      | none => none
      | some b =>
      match base32chars[b]? with
      | none => none
      | some c4 =>
      if offset + 3 ≥ toEncodeSize then
        some ([c0, c1, c2, c3, c4] ++ "===".toList)
      else
        match toEncode[offset + 3]? with
        | none => none
        | some t3 =>
        match base32chars[(t3 &&& 0x7f) >>> 2]? with
        | none => none
        | some c5 =>
        let b := (t3 &&& 0x03) <<< 3
        match (if offset + 4 < toEncodeSize then
            (toEncode[offset + 4]?).map (fun t4 => b ||| (t4 >>> 5)) else some b) with
        | none => none
        | some b =>
        match base32chars[b]? with
        | none => none
        | some c6 =>
        if offset + 4 ≥ toEncodeSize then
          some ([c0, c1, c2, c3, c4, c5, c6] ++ "=".toList)
        else
          match toEncode[offset + 4]? with
          | none => none
          | some t4 =>
          match base32chars[t4 &&& 0x1f]? with
          | none => none
          | some c7 => some [c0, c1, c2, c3, c4, c5, c6, c7]

/-- The loop of `Base32Coder::encode` (lines 48-109) over the block indices still
to do, with checked accesses. -/
def encodeLoopChecked (toEncode : List Nat) (toEncodeSize : Nat) :
    List Nat → List Char → Option (List Char)
  | [], result => some result
  | i :: rest, result =>
    match encodeBlockChecked toEncode toEncodeSize (i * 5) with
    | none => none
    | some block => encodeLoopChecked toEncode toEncodeSize rest (result ++ block)

/-- The function `Base32Coder::encode` (lines 24-112) with checked accesses. -/
def encodeChecked (toEncode : List Nat) : Option (List Char) :=
  let toEncodeSize := toEncode.length
  if toEncodeSize = 0 then some []
  else encodeLoopChecked toEncode toEncodeSize (List.range (encodeBlocks toEncodeSize)) []

/-- The buffer returned by `strdup(toDecode.c_str())` (line 152): the characters
of the string before its first NUL character, followed by the terminating NUL. -/
def strdup (s : List Char) : List Char :=
  s.takeWhile (fun c => c ≠ Char.ofNat 0) ++ [Char.ofNat 0]

/-- The write `target[i] = v` into a buffer of `target.length` bytes, checked. -/
def store (target : List Nat) (i v : Nat) : Option (List Nat) :=
  if i < target.length then some (target.set i v) else none

/-- The function `Base32Coder::decode8Chars` (lines 175-203) for non-null `data` and `target`,
with each read `data[k]` checked against the length of the buffer `data` and each
write `target[decodedSize++]` checked against the length of `target`. -/
def decode8CharsChecked (data : List Char) (dataOffset : Nat) (target : List Nat)
    (decodedSize : Nat) : Option (Bool × List Nat × Nat) :=
  (data[dataOffset]?).bind fun c0 =>
  (data[dataOffset + 1]?).bind fun c1 =>
  (store target decodedSize (((decodeChar c0 <<< 3) ||| (decodeChar c1 >>> 2)) % 256)).bind
    fun target =>
  let decodedSize := decodedSize + 1
  (data[dataOffset + 2]?).bind fun t2 =>
  (if t2 ≠ '=' then
      (data[dataOffset + 1]?).bind fun c1 =>
      (data[dataOffset + 2]?).bind fun c2 =>
      (data[dataOffset + 3]?).bind fun c3 =>
      (store target decodedSize
        (((decodeChar c1 <<< 6) ||| ((decodeChar c2 <<< 1) ||| (decodeChar c3 >>> 4))) % 256)).bind
        fun target => some (target, decodedSize + 1)
    else some (target, decodedSize)).bind fun p =>
  (data[dataOffset + 4]?).bind fun t4 =>
  (if t4 ≠ '=' then
      (data[dataOffset + 3]?).bind fun c3 =>
      (data[dataOffset + 4]?).bind fun c4 =>
      (store p.1 p.2 (((decodeChar c3 <<< 4) ||| (decodeChar c4 >>> 1)) % 256)).bind
        fun target => some (target, p.2 + 1)
    else some p).bind fun p =>
  (data[dataOffset + 5]?).bind fun t5 =>
  (if t5 ≠ '=' then
      (data[dataOffset + 4]?).bind fun c4 =>
      (data[dataOffset + 5]?).bind fun c5 =>
      (data[dataOffset + 6]?).bind fun c6 =>
      (store p.1 p.2
        (((decodeChar c4 <<< 7) ||| ((decodeChar c5 <<< 2) ||| (decodeChar c6 >>> 3))) % 256)).bind
        fun target => some (target, p.2 + 1)
    else some p).bind fun p =>
  (data[dataOffset + 7]?).bind fun t7 =>
  (if t7 ≠ '=' then
      (data[dataOffset + 6]?).bind fun c6 =>
      (data[dataOffset + 7]?).bind fun c7 =>
      (store p.1 p.2 (((decodeChar c6 <<< 5) ||| decodeChar c7) % 256)).bind
        fun target => some (target, p.2 + 1)
    else some p).bind fun p =>
  some (true, p.1, p.2)

/-- The block loop of `Base32Coder::decode` (lines 156-166) with `n` iterations
left, at block index `i`, with checked accesses. -/
def decodeLoopChecked (data : List Char) :
    Nat → Nat → List Nat → Nat → Option (Option (List Nat) × Nat)
  | 0, _, target, decodedSize => some (some target, decodedSize)
  | n + 1, i, target, decodedSize =>
    match decode8CharsChecked data (i * 8) target decodedSize with
    | none => none
    | some (false, _, decodedSize) => some (none, decodedSize)
    | some (true, target, decodedSize) => decodeLoopChecked data n (i + 1) target decodedSize

/-- The function `Base32Coder::decode` (lines 122-173) with checked accesses: the loop runs
`toDecode.length() / 8` times over the buffer `strdup(toDecode.c_str())` and
writes into the `toDecode.length()` bytes obtained from `calloc`; `none` is an
access out of range. -/
def decodeChecked (toDecode : List Char) : Option (Option (List Nat) × Nat) :=
  if toDecode.isEmpty then some (some [0], 0)
  else if toDecode.length % 8 ≠ 0 then some (none, 0)
  else
    let result := List.replicate toDecode.length 0
    let blocks := toDecode.length / 8
    let bytesToDecode := strdup toDecode
    decodeLoopChecked bytesToDecode blocks 0 result 0

end Base32Coder

/-! ## ByteArray (`container/bytearray.h`, not part of the sources at hand) -/

namespace ByteArray

/-- Modelled from the spec: `ByteArray::at(index)` of the absent `container/bytearray`
class; a bounds-checked read that returns the sentinel `0x00` for an index
beyond the end (section 4.1 and `ByteArrayTests::atTests`). -/
def atIdx (ba : List Nat) (index : Nat) : Nat := ba.getD index 0

/-- Modelled from the spec: `ByteArray::setAt(index, byte)` of the absent
`container/bytearray` class; it overwrites an existing byte and reports failure
(`none`) for an index beyond the end. -/
def setAt (ba : List Nat) (index : Nat) (byte : Nat) : Option (List Nat) :=
  if index < ba.length then some (ba.set index byte) else none

end ByteArray

/-- Modelled from the spec: the interface `HashTypeBase` of the absent
`otpimpl/hashtypebase.h` (section 4.3): `hash(bytes) -> digest` and
`hashBlockLength() -> size`. -/
structure HashTypeBase where
  hash : List Nat → List Nat
  hashBlockLength : Nat

/-! ## Hmac (`src/otpimpl/hmac.cpp`) -/

/-- The class `Hmac`: its member `mHashType`, `none` being `nullptr`. -/
structure Hmac where
  mHashType : Option HashTypeBase

namespace Hmac

/-- The padding loops of lines 90-102: `n` iterations of `append(0x00)`. -/
def padLoop : Nat → List Nat → List Nat
  | 0, ba => ba
  | n + 1, ba => padLoop n (ba ++ [0x00])

/-- The loop of lines 106-116 with `n` iterations left at index `i`; `none` when a
`setAt` fails.  The `int` result of `^` is narrowed to a byte at the call. -/
def xorLoop : Nat → Nat → List Nat → List Nat → Option (List Nat × List Nat)
  | 0, _, keyIpad, keyOpad => some (keyIpad, keyOpad)
  | n + 1, i, keyIpad, keyOpad =>
    match ByteArray.setAt keyIpad i ((ByteArray.atIdx keyIpad i ^^^ 0x36) % 256) with
    | none => none
    | some keyIpad =>
      match ByteArray.setAt keyOpad i ((ByteArray.atIdx keyOpad i ^^^ 0x5c) % 256) with
      | none => none
      | some keyOpad => xorLoop n (i + 1) keyIpad keyOpad

/-- The function `Hmac::calculate` (lines 47-132).  The first component is the returned pointer
(`none` is `nullptr`); the second lists, in order, the arguments of the calls of
`mHashType->hash` made on the way.  Allocation is taken to succeed. -/
def calculateLog (self : Hmac) (key data : List Nat) : Option (List Nat) × List (List Nat) :=
  if key.isEmpty || data.isEmpty then (none, [])
  else
    match self.mHashType with
    | none => (none, [])
    | some h =>
      let keyToUse := key
      let (keyToUse, log) :=
        if keyToUse.length > h.hashBlockLength then (h.hash keyToUse, [keyToUse])
        else (keyToUse, [])
      let keyIpad := keyToUse
      let keyOpad := keyToUse
      let keyIpad := padLoop (h.hashBlockLength - keyIpad.length) keyIpad
      let keyOpad := padLoop (h.hashBlockLength - keyOpad.length) keyOpad
      match xorLoop h.hashBlockLength 0 keyIpad keyOpad with
      | none => (none, log)
      | some (keyIpad, keyOpad) =>
        let keyIpad := keyIpad ++ data
        let iPadHashed := h.hash keyIpad
        let keyOpad := keyOpad ++ iPadHashed
        (some (h.hash keyOpad), log ++ [keyIpad, keyOpad])

/-- The function `Hmac::calculate`: the returned pointer. -/
def calculate (self : Hmac) (key data : List Nat) : Option (List Nat) :=
  (calculateLog self key data).1

/-! ### The HMAC reference definition, following the specification's words -/

/-- Reference: `K'`, the key itself when `len(key) <= B` and `H(key)` otherwise,
zero-padded on the right to `B` bytes. -/
def refKey (H : List Nat → List Nat) (B : Nat) (key : List Nat) : List Nat :=
  let k := if key.length ≤ B then key else H key
  k ++ List.replicate (B - k.length) 0

/-- Reference: bytewise exclusive or of two byte sequences. -/
def refXor (x y : List Nat) : List Nat := List.zipWith (fun a b => a ^^^ b) x y

/-- Reference: `H((K' xor opad) || H((K' xor ipad) || message))` with `ipad` being
`B` bytes `0x36` and `opad` being `B` bytes `0x5c`. -/
def refHmac (H : List Nat → List Nat) (B : Nat) (key message : List Nat) : List Nat :=
  let ipad := List.replicate B 0x36
  let opad := List.replicate B 0x5c
  H (refXor (refKey H B key) opad ++ H (refXor (refKey H B key) ipad ++ message))

end Hmac

/-! ## Sha1Hash (`otpimpl/sha1hash.h`, not part of the sources at hand) -/

namespace Sha1Hash

/-- Modelled from the spec: part of the absent `otpimpl/sha1hash` (SHA-1 of
FIPS 180); rotate a 32-bit word left by `n` bits. -/
def rotl32 (x n : Nat) : Nat := ((x <<< n) ||| (x >>> (32 - n))) % 2 ^ 32

/-- Modelled from the spec: part of the absent `otpimpl/sha1hash`; the big-endian
32-bit words of the first `4n` bytes of a block, last word first. -/
def words : Nat → List Nat → List Nat → List Nat
  | 0, _, acc => acc
  | n + 1, b0 :: b1 :: b2 :: b3 :: rest, acc =>
    words n rest ((b0 * 2 ^ 24 + b1 * 2 ^ 16 + b2 * 2 ^ 8 + b3) :: acc)
  | _ + 1, _, acc => acc

/-- Modelled from the spec: part of the absent `otpimpl/sha1hash`; extend the
message schedule, kept last word first, by `n` words:
`W_t = ROTL^1 (W_(t-3) xor W_(t-8) xor W_(t-14) xor W_(t-16))`. -/
def extend : Nat → List Nat → List Nat
  | 0, w => w
  | n + 1, w =>
    extend n (rotl32 (w.getD 2 0 ^^^ w.getD 7 0 ^^^ w.getD 13 0 ^^^ w.getD 15 0) 1 :: w)

/-- Modelled from the spec: part of the absent `otpimpl/sha1hash`; the 80-word
message schedule of a 64-byte block. -/
def schedule (block : List Nat) : List Nat :=
  (extend 64 (words 16 block [])).reverse

/-- Modelled from the spec: part of the absent `otpimpl/sha1hash`; the round
function `f_t`. -/
def f (t b c d : Nat) : Nat :=
  if t < 20 then (b &&& c) ||| ((2 ^ 32 - 1 - b) &&& d)
  else if t < 40 then b ^^^ c ^^^ d
  else if t < 60 then (b &&& c) ||| (b &&& d) ||| (c &&& d)
  else b ^^^ c ^^^ d

/-- Modelled from the spec: part of the absent `otpimpl/sha1hash`; the round
constant `K_t`. -/
def k (t : Nat) : Nat :=
  if t < 20 then 0x5a827999 else if t < 40 then 0x6ed9eba1
  else if t < 60 then 0x8f1bbcdc else 0xca62c1d6

/-- Modelled from the spec: part of the absent `otpimpl/sha1hash`; the five
working words. -/
structure State where
  a : Nat
  b : Nat
  c : Nat
  d : Nat
  e : Nat

/-- Modelled from the spec: part of the absent `otpimpl/sha1hash`; the rounds over
the remaining schedule words, starting at round `t`. -/
def rounds : List Nat → Nat → State → State
  | [], _, s => s
  | w :: ws, t, s =>
    let temp := (rotl32 s.a 5 + f t s.b s.c s.d + s.e + k t + w) % 2 ^ 32
    rounds ws (t + 1) ⟨temp, s.a, rotl32 s.b 30, s.c, s.d⟩

/-- Modelled from the spec: part of the absent `otpimpl/sha1hash`; the compression
of one 64-byte block into the chaining value. -/
def compress (h : State) (block : List Nat) : State :=
  let s := rounds (schedule block) 0 h
  ⟨(h.a + s.a) % 2 ^ 32, (h.b + s.b) % 2 ^ 32, (h.c + s.c) % 2 ^ 32, (h.d + s.d) % 2 ^ 32,
    (h.e + s.e) % 2 ^ 32⟩

/-- Modelled from the spec: part of the absent `otpimpl/sha1hash`; the compression
of `n` consecutive blocks of the padded message. -/
def blocks : Nat → List Nat → State → State
  | 0, _, h => h
  | n + 1, msg, h => blocks n (msg.drop 64) (compress h (msg.take 64))

/-- Modelled from the spec: part of the absent `otpimpl/sha1hash`; the big-endian
bytes of `x`, `width` of them. -/
def be (width : Nat) (x : Nat) : List Nat :=
  (List.range width).map (fun i => (x >>> (8 * (width - 1 - i))) % 256)

/-- Modelled from the spec: part of the absent `otpimpl/sha1hash`; the padded
message: a `1` bit, zeros, and the 64-bit length in bits. -/
def pad (msg : List Nat) : List Nat :=
  let l := msg.length
  msg ++ [0x80] ++ List.replicate ((119 - l % 64) % 64) 0 ++ be 8 (8 * l)

/-- Modelled from the spec: `Sha1Hash::hash` of the absent `otpimpl/sha1hash`
class, the SHA-1 hash primitive of section 2 (FIPS 180 SHA-1, 20-byte digest),
which `Sha1Tests1` and `Sha1Tests2` pin to the published test vectors. -/
def hash (msg : List Nat) : List Nat :=
  let p := pad msg
  let s := blocks (p.length / 64) p ⟨0x67452301, 0xefcdab89, 0x98badcfe, 0x10325476, 0xc3d2e1f0⟩
  be 4 s.a ++ be 4 s.b ++ be 4 s.c ++ be 4 s.d ++ be 4 s.e

/-- Modelled from the spec: the absent class `Sha1Hash` as a `HashTypeBase`, with
`hashBlockLength() = 64`. -/
def sha1HashType : HashTypeBase := ⟨hash, 64⟩

end Sha1Hash

/-! ## Hotp (`src/otpimpl/hotp.cpp`) -/

/-- The class `Hotp`: its member `mHmacToUse`, `none` being `nullptr`. -/
structure Hotp where
  mHmacToUse : Option Hmac

namespace Hotp

/-- The table `DIGITS_POWER` (line 103). -/
def DIGITS_POWER : List Nat := [1, 10, 100, 1000, 10000, 100000, 1000000, 10000000, 100000000]

/-- The table `doubleDigits` (line 163). -/
def doubleDigits : List Nat := [0, 2, 4, 6, 8, 1, 3, 5, 7, 9]

/-- The `while (0 < digits--)` loop of `Hotp::calcChecksum` (lines 169-180) with
`n` iterations left; the result is `total`. -/
def calcChecksumLoop : Nat → Nat → Bool → Nat → Nat
  | 0, _, _, total => total
  | n + 1, otp, doubleDigit, total =>
    let digit := otp % 10
    let otp := otp / 10
    let digit := if doubleDigit then doubleDigits.getD digit 0 else digit
    calcChecksumLoop n otp (!doubleDigit) (total + digit)

/-- The function `Hotp::calcChecksum` (lines 161-188) on a non-negative `otp`. -/
def calcChecksum (otp digits : Nat) : Nat :=
  let total := calcChecksumLoop digits otp true 0
  let result := total % 10
  if result > 0 then 10 - result else result

/-- The function `Hotp::dynamicTruncate` (lines 200-227); `truncateOffset` is a `size_t`, and the
`size_t` arithmetic of `hmac.size() - 4` and `offset + i` is taken modulo `2^64`. -/
def dynamicTruncate (hmac : List Nat) (truncateOffset : Nat) : List Nat :=
  if hmac.isEmpty then []
  else
    let offset :=
      if truncateOffset < (hmac.length + 2 ^ 64 - 4) % 2 ^ 64 then truncateOffset
      else ByteArray.atIdx hmac (hmac.length - 1) &&& 0x0f
    (List.range 4).foldl
      (fun result i => result ++ [ByteArray.atIdx hmac ((offset + i) % 2 ^ 64)]) []

/-- The loop `while (result.length() < digits) result = "0" + result` (lines 146-148)
with `n` iterations allowed. -/
def zeroPadLoop : Nat → List Char → Nat → List Char
  | 0, result, _ => result
  | n + 1, result, digits =>
    if result.length < digits then zeroPadLoop n ('0' :: result) digits else result

/-- The function `Hotp::calculateHotpFromHmac` (lines 101-151).  `none` stands for a read of
`DIGITS_POWER` beyond its nine entries (undefined behaviour); `some s` is the
returned string.  The `int` argument `truncationOffset` becomes a `size_t`
modulo `2^64` in the call of `dynamicTruncate`; `std::to_string` of the
non-negative `otp` is `Nat.toDigits 10`. -/
def calculateHotpFromHmac (hmac : List Nat) (digits : Nat) (addChecksum : Bool)
    (truncationOffset : Int) : Option (List Char) :=
  if hmac.isEmpty then some []
  else if digits < 6 || digits > 8 then some []
  else
    let calcDigits := if addChecksum then digits + 1 else digits
    let truncValue := dynamicTruncate hmac (truncationOffset % 2 ^ 64).toNat
    if truncValue.isEmpty then some []
    else
      let truncData :=
        ((ByteArray.atIdx truncValue 0 &&& 0x7f) <<< 24) |||
          ((ByteArray.atIdx truncValue 1 &&& 0xff) <<< 16) |||
          ((ByteArray.atIdx truncValue 2 &&& 0xff) <<< 8) |||
          (ByteArray.atIdx truncValue 3 &&& 0xff)
      match DIGITS_POWER[calcDigits]? with
      | none => none
      | some power =>
        let otp := truncData % power
        let otp := if addChecksum then otp * 10 + calcChecksum otp calcDigits else otp
        let result := Nat.toDigits 10 otp
        some (zeroPadLoop digits result digits)

/-- The loop of lines 71-75 with `n` iterations left: the bytes of `number` so far;
`inverse` is an `unsigned char`, decremented modulo 256. -/
def numberLoop (counter : Nat) : Nat → Nat → List Nat → List Nat
  | 0, _, number => number
  | n + 1, inverse, number =>
    numberLoop counter n ((inverse + 255) % 256)
      (number ++ [(counter >>> (inverse * 8)) &&& 0xff])

/-- The function `Hotp::calculate` (lines 45-87) for a `uint64_t` counter.  `none` stands for
undefined behaviour (the call `calcResult->toCharArrayPtr()` on a null
`calcResult`, or such a result of `calculateHotpFromHmac`); `some s` is the
returned string.  `toCharArrayPtr()` of the absent `ByteArray` class is null
exactly for an empty array (`ByteArrayTests::assignmentTests`). -/
def calculate (self : Hotp) (key : List Nat) (counter : Nat) (digits : Nat)
    (addChecksum : Bool) (truncationOffset : Int) : Option (List Char) :=
  if key.isEmpty then some []
  else
    match self.mHmacToUse with
    | none => some []
    | some hmac =>
      if digits < 6 || digits > 8 then some []
      else
        let number := numberLoop counter 8 7 []
        match hmac.calculate key number with
        | none => none
        | some calcResult =>
          if calcResult.isEmpty then some []
          else calculateHotpFromHmac calcResult digits addChecksum truncationOffset

/-- The start offset chosen at lines 210-216 of `Hotp::dynamicTruncate`: the given
`truncateOffset` when it is below `hmac.size() - 4` (in `size_t` arithmetic),
otherwise the low four bits of the last byte of the digest. -/
def startOffset (hmac : List Nat) (truncateOffset : Nat) : Nat :=
  if truncateOffset < (hmac.length + 2 ^ 64 - 4) % 2 ^ 64 then truncateOffset
  else ByteArray.atIdx hmac (hmac.length - 1) &&& 0x0f

/-- The value `truncData` of line 132, computed from the four truncated bytes. -/
def truncData (truncValue : List Nat) : Nat :=
  ((ByteArray.atIdx truncValue 0 &&& 0x7f) <<< 24) |||
    ((ByteArray.atIdx truncValue 1 &&& 0xff) <<< 16) |||
    ((ByteArray.atIdx truncValue 2 &&& 0xff) <<< 8) |||
    (ByteArray.atIdx truncValue 3 &&& 0xff)

/-- Modelled from the spec: the default value of the parameter `addChecksum` of
`Hotp::calculate`, declared in the absent `otpimpl/hotp.h`; the three-argument
call of `Totp::calculate` requests no checksum digit (section 8, TOTP vector). -/
def defaultAddChecksum : Bool := false

/-- Modelled from the spec: the default value of the parameter `truncationOffset`
of `Hotp::calculate`, declared in the absent `otpimpl/hotp.h`; the
three-argument call of `Totp::calculate` requests dynamic truncation. -/
def defaultTruncationOffset : Int := -1

/-! ### Reference notions for the HOTP value, following the specification's words -/

/-- Reference: the 31-bit big-endian integer formed from four bytes, the top bit
of the first byte cleared. -/
def refBinaryCode (b0 b1 b2 b3 : Nat) : Nat :=
  (b0 % 128) * 2 ^ 24 + b1 * 2 ^ 16 + b2 * 2 ^ 8 + b3

/-- Reference: the decimal representation of `v` written with exactly `width`
characters, zero-padded on the left: character `i` is the digit of weight
`10 ^ (width - 1 - i)`. -/
def refPaddedDecimal (width v : Nat) : List Char :=
  (List.range width).map (fun i => Nat.digitChar (v / 10 ^ (width - 1 - i) % 10))

/-- Reference: the digit-sum of a number below 100. -/
def refDigitSum (x : Nat) : Nat := x / 10 + x % 10

/-- Reference: the Luhn sum over the `d` low decimal digits of `v`, counted from
the right: the digit itself at even positions (2nd, 4th, ...) and the digit-sum
of twice the digit at odd positions (1st, 3rd, ...).  Index `j` is position
`j + 1`. -/
def refLuhnSum (v d : Nat) : Nat :=
  ((List.range d).map (fun j =>
    if j % 2 = 0 then refDigitSum (2 * (v / 10 ^ j % 10)) else v / 10 ^ j % 10)).sum

/-- Reference: the Luhn-style check digit `(10 - s mod 10) mod 10`. -/
def refCheckDigit (v d : Nat) : Nat := (10 - refLuhnSum v d % 10) % 10

/-- Reference: the 8-byte big-endian encoding of a counter: byte `i` is
`(counter >> (8 * (7 - i))) & 0xff`. -/
def refCounterBytes (counter : Nat) : List Nat :=
  (List.range 8).map (fun i => (counter >>> (8 * (7 - i))) &&& 0xff)

end Hotp

/-! ## Totp (`src/otpimpl/totp.cpp`) -/

/-- The class `Totp`: its member `mHmacToUse`, `none` being `nullptr`. -/
structure Totp where
  mHmacToUse : Option Hmac

namespace Totp

/-- The value `calcTime` of line 51: `utcTime` (a `time_t`) is converted to
`uint64_t`, `initialCounter` is subtracted in `uint64_t` arithmetic (modulo
`2^64`) and the difference is divided by `timeStep`. -/
def calcTime (utcTime : Int) (timeStep initialCounter : Nat) : Nat :=
  ((utcTime - (initialCounter : Int)) % 2 ^ 64).toNat / timeStep

/-- The function `Totp::calculate` (lines 40-55).  `none` stands for undefined
behaviour (the division by a zero `timeStep`, or such a result of
`Hotp::calculate`); `some s` is the returned string. -/
def calculate (self : Totp) (decodedSecret : List Nat) (utcTime : Int) (timeStep digits : Nat)
    (initialCounter : Nat) : Option (List Char) :=
  let hotp : Hotp := ⟨self.mHmacToUse⟩
  match self.mHmacToUse with
  | none => some []
  | some _ =>
    if timeStep = 0 then none
    else
      hotp.calculate decodedSecret (calcTime utcTime timeStep initialCounter) digits
        Hotp.defaultAddChecksum Hotp.defaultTruncationOffset

end Totp

/-! ## KeyEntry (`src/keystorage/keyentry.cpp`) -/

/-- The data members of the class `KeyEntry`; a `QString` is a `List Char`, an `int`
an `Int`.  The member `mValid` is the one printed by `KeyEntry::toString`. -/
structure KeyEntry where
  mIdentifier : List Char
  mSecret : List Char
  mKeyType : Int
  mOtpType : Int
  mOutNumberCount : Int
  mTimeStep : Int
  mTimeOffset : Int
  mAlgorithm : Int
  mHotpCounter : Int
  mIssuer : List Char
  mInvalidReason : List Char
  mCurrentCode : List Char
  mStartTime : Int
  mCodeValid : Bool
  mValid : Bool
  deriving DecidableEq

namespace KeyEntry

/-- The function `KeyEntry::clear` (lines 31-48).  The constant `KEYENTRY_ALG_SHA1` is
declared in the absent `keyentry.h` and is a parameter here. -/
def clear (KEYENTRY_ALG_SHA1 : Int) (self : KeyEntry) : KeyEntry :=
  { self with
    mIdentifier := []
    mSecret := []
    mKeyType := -1
    mOtpType := -1
    mOutNumberCount := -1
    mTimeStep := 30
    mTimeOffset := 0
    mAlgorithm := KEYENTRY_ALG_SHA1
    mHotpCounter := -1
    mIssuer := []
    mInvalidReason := []
    mCurrentCode := []
    mStartTime := -1
    mCodeValid := false }

/-- The constructor `KeyEntry::KeyEntry()` (lines 6-10): `clear()` on the object
`raw` whose members are not yet initialised. -/
def construct (KEYENTRY_ALG_SHA1 : Int) (raw : KeyEntry) : KeyEntry :=
  clear KEYENTRY_ALG_SHA1 raw

/-- The function `KeyEntry::valid` (lines 56-90). -/
def valid (self : KeyEntry) : Bool :=
  if !self.mInvalidReason.isEmpty then false
  else if self.mIdentifier.isEmpty || self.mSecret.isEmpty then false
  else if self.mKeyType < 0 || self.mKeyType > 1 then false
  else if self.mOtpType < 0 || self.mOtpType > 1 then false
  else if self.mOutNumberCount < 6 || self.mOutNumberCount > 8 then false
  else true

/-- The call `entry.valid()` as a step on the object: the member function is
declared `const` and assigns no member, so the object after the call is the
object before it. -/
def validStep (self : KeyEntry) : Bool × KeyEntry := (self.valid, self)

end KeyEntry

/-! ## ByteArray copies (`container/bytearray.h`, not part of the sources at hand) -/

namespace ByteArray

/-- Modelled from the spec: the memory in which the absent `container/bytearray`
class keeps its backing storage, as the list of the buffers allocated so far;
the address of a buffer is its index. -/
structure Memory where
  buffers : List (List Nat)

/-- Modelled from the spec: a `ByteArray` object of the absent `container/bytearray`
class, as the address of its backing buffer; `none` is the null buffer of an
empty array (`ByteArrayTests::assignmentTests`). -/
structure Handle where
  data : Option Nat

/-- Modelled from the spec: the content of a `ByteArray` object (section 4.1). -/
def bytes (m : Memory) (b : Handle) : List Nat :=
  match b.data with
  | none => []
  | some a => m.buffers.getD a []

/-- Modelled from the spec: copy construction and assignment of the absent
`container/bytearray` class; "copy produces an independent buffer (no aliasing
of backing storage)" (section 4.1): a new buffer is allocated and filled with
the bytes of the source. -/
def copy (m : Memory) (src : Handle) : Memory × Handle :=
  match src.data with
  | none => (m, ⟨none⟩)
  | some _ => (⟨m.buffers ++ [bytes m src]⟩, ⟨some m.buffers.length⟩)

/-- Modelled from the spec: `ByteArray::clear()` of the absent `container/bytearray`
class with zero-on-free (sections 3 and 4.1): the bytes of the backing buffer
are overwritten with zeros and the object is left empty. -/
def clearMem (m : Memory) (b : Handle) : Memory × Handle :=
  match b.data with
  | none => (m, ⟨none⟩)
  | some a => (⟨m.buffers.set a (List.replicate (m.buffers.getD a []).length 0)⟩, ⟨none⟩)

/-- Modelled from the spec: `ByteArray::setAt(index, byte)` of the absent
`container/bytearray` class acting on the memory; `none` when the index is
beyond the end. -/
def setAtMem (m : Memory) (b : Handle) (index byte : Nat) : Option Memory :=
  match b.data with
  | none => none
  | some a =>
    match setAt (m.buffers.getD a []) index byte with
    | none => none
    | some buf => some ⟨m.buffers.set a buf⟩

/-- Modelled from the spec: a `ByteArray` object is well formed in a memory when
its backing buffer has been allocated there. -/
def Allocated (m : Memory) (b : Handle) : Prop :=
  ∀ a, b.data = some a → a < m.buffers.length

instance instDecidableAllocated (m : Memory) (b : Handle) : Decidable (Allocated m b) :=
  match h : b.data with
  | none => isTrue (fun a e => by rw [h] at e; cases e)
  | some a =>
    if hlt : a < m.buffers.length then
      isTrue (fun a2 e => by rw [h] at e; cases e; exact hlt)
    else isFalse (fun hall => hlt (hall a h))

end ByteArray

/-! ## SecretDatabase (`src/keystorage/database/secretdatabase.h`, bodies not part of
the sources at hand) -/

/-- Modelled from the spec: the state of the credential store `SecretDatabase`
(section 4.7), whose member functions are only declared in `secretdatabase.h`:
whether it is open, and its rows, one per credential. -/
structure SecretDatabase where
  mOpen : Bool
  rows : List KeyEntry

namespace SecretDatabase

/-- Modelled from the spec: the persisted columns of a credential (section 6); the
derived state is not stored and reads back as in `KeyStorageTests::e2eTests`
(no current code, code not valid, start time 0). -/
def persisted (entry : KeyEntry) : KeyEntry :=
  { entry with mCurrentCode := [], mStartTime := 0, mCodeValid := false }

/-- Modelled from the spec: `SecretDatabase::isOpen` (section 4.7). -/
def isOpen (self : SecretDatabase) : Bool := self.mOpen

/-- Modelled from the spec: `SecretDatabase::add`; "fails if identifier exists or
store closed", a duplicate "does not overwrite" (section 4.7). -/
def add (self : SecretDatabase) (entry : KeyEntry) : Bool × SecretDatabase :=
  if !self.mOpen then (false, self)
  else if self.rows.any (fun r => r.mIdentifier = entry.mIdentifier) then (false, self)
  else (true, { self with rows := self.rows ++ [persisted entry] })

/-- Modelled from the spec: `SecretDatabase::getByIdentifier` (section 4.7); `none`
is the `false` result (store closed or identifier not found). -/
def getByIdentifier (self : SecretDatabase) (identifier : List Char) : Option KeyEntry :=
  if !self.mOpen then none
  else self.rows.find? (fun r => r.mIdentifier = identifier)

/-- Modelled from the spec: `SecretDatabase::getAll` (section 4.7); `none` is the
`false` result of a closed store. -/
def getAll (self : SecretDatabase) : Option (List KeyEntry) :=
  if !self.mOpen then none else some self.rows

/-- Modelled from the spec: `SecretDatabase::deleteByIdentifier` (section 4.7); it
fails on a closed store and on an identifier that is not stored (section 7,
"not-found on update/delete"). -/
def deleteByIdentifier (self : SecretDatabase) (identifier : List Char) :
    Bool × SecretDatabase :=
  if !self.mOpen then (false, self)
  else if !self.rows.any (fun r => r.mIdentifier = identifier) then (false, self)
  else (true, { self with rows := self.rows.filter (fun r => r.mIdentifier ≠ identifier) })

/-- Modelled from the spec: the invariant of the store, "identifier is unique
across the store" (section 3). -/
def UniqueIdentifiers (self : SecretDatabase) : Prop :=
  (self.rows.map (fun r => r.mIdentifier)).Nodup

instance instDecidableUniqueIdentifiers (self : SecretDatabase) :
    Decidable self.UniqueIdentifiers :=
  List.nodupDecidable (self.rows.map (fun r : KeyEntry => r.mIdentifier))

end SecretDatabase

/-! ## KeyEntriesSingleton (`src/keyentriessingleton.h`, bodies not part of the sources
at hand) -/

namespace KeyEntriesSingleton

/-- Modelled from the spec: `KeyEntriesSingleton::shortestUpdatePeriod`, declared at
line 63 of `keyentriessingleton.h`: "the minimum time step across all TOTP
credentials currently cached" (section 4.8), `none` when no TOTP credential is
cached.  The constant `KEYENTRY_OTPTYPE_TOTP` is declared in the absent
`keyentry.h` and is a parameter here. -/
def shortestUpdatePeriod (KEYENTRY_OTPTYPE_TOTP : Int) (mEntryList : List KeyEntry) :
    Option Int :=
  match (mEntryList.filter (fun e => e.mOtpType = KEYENTRY_OTPTYPE_TOTP)).map
      (fun e => e.mTimeStep) with
  | [] => none
  | p :: ps => some (ps.foldl min p)

end KeyEntriesSingleton

end Rollin

/-! # Theorems -/

namespace Rollin

/-! ## Bit-arithmetic helpers -/

theorem shl_or (a b k : Nat) (h : b < 2 ^ k) : a <<< k ||| b = a * 2 ^ k + b := by
  rw [Nat.shiftLeft_eq, Nat.mul_comm, ← Nat.mul_add_lt_is_or h]

theorem and_mask (x k : Nat) : x &&& (2 ^ k - 1) = x % 2 ^ k :=
  Nat.and_pow_two_sub_one_eq_mod x k

/-! ## List helpers for loops that append to an accumulator -/

theorem foldl_append_init {α β : Type} (f : β → List α) (l : List β) (acc : List α) :
    l.foldl (fun r i => r ++ f i) acc = acc ++ l.foldl (fun r i => r ++ f i) [] := by
  induction l generalizing acc with
  | nil => simp
  | cons x xs ih =>
    simp only [List.foldl_cons, List.nil_append]
    rw [ih (acc ++ f x), ih (f x), List.append_assoc]

theorem foldl_append_range_succ {α : Type} (f : Nat → List α) (k : Nat) :
    (List.range (k + 1)).foldl (fun r i => r ++ f i) [] =
      f 0 ++ (List.range k).foldl (fun r i => r ++ f (i + 1)) [] := by
  rw [List.range_succ_eq_map, List.foldl_cons, List.nil_append, foldl_append_init,
    List.foldl_map]

namespace Base32Coder

theorem encodeBlocks_add_five (n : Nat) (h : 0 < n) : encodeBlocks (n + 5) = encodeBlocks n + 1 := by
  unfold encodeBlocks
  simp only []
  split_ifs <;> omega

theorem encodeBlock_shift (x0 x1 x2 x3 x4 : Nat) (rest : List Nat) (n i : Nat) :
    encodeBlock (x0 :: x1 :: x2 :: x3 :: x4 :: rest) (n + 5) ((i + 1) * 5) =
      encodeBlock rest n (i * 5) := by
  have e : (i + 1) * 5 = i * 5 + 5 := by ring
  have hb : ∀ k, byteAt (x0 :: x1 :: x2 :: x3 :: x4 :: rest) (i * 5 + 5 + k) =
      byteAt rest (i * 5 + k) := by
    intro k
    have : i * 5 + 5 + k = (i * 5 + k) + 1 + 1 + 1 + 1 + 1 := by ring
    rw [this]
    simp [byteAt]
  have hb0 := hb 0
  simp only [Nat.add_zero] at hb0
  have hc : ∀ k, (i * 5 + 5 + k < n + 5) = (i * 5 + k < n) := by
    intro k; simp only [eq_iff_iff]; omega
  have hd : ∀ k, (i * 5 + 5 + k ≥ n + 5) = (i * 5 + k ≥ n) := by
    intro k; simp only [eq_iff_iff]; omega
  unfold encodeBlock
  simp only [e, hb, hb0, hc, hd]

theorem encode_nil : encode [] = [] := rfl

theorem encode_cons5 (x0 x1 x2 x3 x4 : Nat) (rest : List Nat) :
    encode (x0 :: x1 :: x2 :: x3 :: x4 :: rest) =
      encodeBlock [x0, x1, x2, x3, x4] 5 0 ++ encode rest := by
  have hblk : encodeBlock (x0 :: x1 :: x2 :: x3 :: x4 :: rest) (rest.length + 5) (0 * 5) =
      encodeBlock [x0, x1, x2, x3, x4] 5 0 := by
    simp [encodeBlock, byteAt]
  rcases Nat.eq_zero_or_pos rest.length with h0 | hpos
  · have : rest = [] := List.length_eq_zero.mp h0
    subst this
    simp [encode, encodeBlocks, List.range_succ]
  · have hne : rest.length ≠ 0 := by omega
    unfold encode
    simp only [List.length_cons, hne, if_false]
    rw [if_neg (by omega)]
    have : rest.length + 1 + 1 + 1 + 1 + 1 = rest.length + 5 := by ring
    rw [this, encodeBlocks_add_five _ hpos, foldl_append_range_succ, hblk]
    simp only [encodeBlock_shift]

end Base32Coder

theorem take_set_succ (t : List Nat) (k v : Nat) (hk : k < t.length) :
    (t.set k v).take (k + 1) = t.take k ++ [v] := by
  induction t generalizing k with
  | nil => simp at hk
  | cons x xs ih =>
    cases k with
    | zero => simp
    | succ k =>
      simp only [List.length_cons, Nat.add_lt_add_iff_right] at hk
      simp [ih k hk]

namespace Base32Coder

theorem blockBytes_length_le (data : List Char) (off : Nat) :
    (blockBytes data off).length ≤ 5 := by
  unfold blockBytes
  simp only []
  split_ifs <;> simp

theorem blockBytes_length_pos (data : List Char) (off : Nat) :
    1 ≤ (blockBytes data off).length := by
  unfold blockBytes
  simp only []
  split_ifs <;> simp

theorem decode8Chars_spec (data : List Char) (off : Nat) (target : List Nat) (ds : Nat)
    (h : ds + 5 ≤ target.length) :
    (decode8Chars data off target ds).1 = true ∧
    (decode8Chars data off target ds).2.2 = ds + (blockBytes data off).length ∧
    (decode8Chars data off target ds).2.1.length = target.length ∧
    (decode8Chars data off target ds).2.1.take (ds + (blockBytes data off).length) =
      target.take ds ++ blockBytes data off := by
  unfold decode8Chars blockBytes
  simp only []
  split_ifs <;>
    simp (disch := first | omega | (simp only [List.length_set]; omega)) [← Nat.add_assoc, take_set_succ]

theorem decodeLoop_spec (data : List Char) :
    ∀ (n i : Nat) (target : List Nat) (ds : Nat), ds + 5 * n ≤ target.length →
      ∃ t, decodeLoop data n i target ds = (some t, ds + (decodedFrom data n i).length) ∧
        t.length = target.length ∧
        t.take (ds + (decodedFrom data n i).length) = target.take ds ++ decodedFrom data n i := by
  intro n
  induction n with
  | zero =>
    intro i target ds _
    exact ⟨target, by simp [decodeLoop, decodedFrom]⟩
  | succ n ih =>
    intro i target ds h
    obtain ⟨h1, h2, h3, h4⟩ := decode8Chars_spec data (i * 8) target ds (by omega)
    have hle := blockBytes_length_le data (i * 8)
    rcases hd : decode8Chars data (i * 8) target ds with ⟨ok, t1, ds1⟩
    rw [hd] at h1 h2 h3 h4
    simp only at h1 h2 h3 h4
    subst h1
    obtain ⟨t, e1, e2, e3⟩ := ih (i + 1) t1 ds1 (by omega)
    rw [← h2] at h4
    have hlen : ds + (decodedFrom data (n + 1) i).length =
        ds1 + (decodedFrom data n (i + 1)).length := by
      simp only [decodedFrom, List.length_append]; omega
    refine ⟨t, ?_, by omega, ?_⟩
    · rw [hlen]
      simp only [decodeLoop, hd, e1]
    · rw [hlen, e3, h4]
      simp only [decodedFrom, List.append_assoc]

theorem decode_spec (toDecode : List Char) (hne : toDecode ≠ []) (h8 : toDecode.length % 8 = 0) :
    ∃ t, decode toDecode = (some t, (decodedFrom toDecode (toDecode.length / 8) 0).length) ∧
      t.length = toDecode.length ∧
      t.take (decodedFrom toDecode (toDecode.length / 8) 0).length =
        decodedFrom toDecode (toDecode.length / 8) 0 := by
  obtain ⟨t, e1, e2, e3⟩ := decodeLoop_spec toDecode (toDecode.length / 8) 0
    (List.replicate toDecode.length 0) 0 (by simp; omega)
  refine ⟨t, ?_, by simpa using e2, by simpa using e3⟩
  unfold decode
  have : toDecode.isEmpty = false := by
    cases toDecode with
    | nil => exact absurd rfl hne
    | cons _ _ => rfl
  simp only [this, h8]
  simpa using e1

theorem decoded_decode (toDecode : List Char) (hne : toDecode ≠ [])
    (h8 : toDecode.length % 8 = 0) :
    decoded (decode toDecode) = some (decodedFrom toDecode (toDecode.length / 8) 0) ∧
      (decode toDecode).2 = (decodedFrom toDecode (toDecode.length / 8) 0).length := by
  obtain ⟨t, e1, _, e3⟩ := decode_spec toDecode hne h8
  simp [decoded, e1, e3]

theorem decodeChar_base32char : ∀ v, v < 32 → decodeChar (base32char v) = v := by
  decide

theorem base32char_ne_pad : ∀ v, v < 32 → base32char v ≠ '=' := by
  decide

theorem and_07 (x : Nat) : x &&& 0x07 = x % 8 := and_mask x 3
theorem and_3f (x : Nat) : x &&& 0x3f = x % 64 := and_mask x 6
theorem and_01 (x : Nat) : x &&& 0x01 = x % 2 := and_mask x 1
theorem and_0f (x : Nat) : x &&& 0x0f = x % 16 := and_mask x 4
theorem and_7f (x : Nat) : x &&& 0x7f = x % 128 := and_mask x 7
theorem and_03 (x : Nat) : x &&& 0x03 = x % 4 := and_mask x 2
theorem and_1f (x : Nat) : x &&& 0x1f = x % 32 := and_mask x 5

/-- The eight 5-bit symbols of a full group, in arithmetic form. -/
theorem encodeBlock_five (x0 x1 x2 x3 x4 : Nat)
    (h1 : x1 < 256) (h2 : x2 < 256) (h3 : x3 < 256) (h4 : x4 < 256) :
    encodeBlock [x0, x1, x2, x3, x4] 5 0 =
      [base32char (x0 / 8), base32char (x0 % 8 * 4 + x1 / 64), base32char (x1 % 64 / 2),
       base32char (x1 % 2 * 16 + x2 / 16), base32char (x2 % 16 * 2 + x3 / 128),
       base32char (x3 % 128 / 4), base32char (x3 % 4 * 8 + x4 / 32), base32char (x4 % 32)] := by
  simp only [encodeBlock, byteAt, and_07, and_3f, and_01, and_0f, and_7f, and_03, and_1f]
  simp only [Nat.zero_add, Nat.reduceLT, if_true, ge_iff_le, Nat.reduceLeDiff, if_false,
    List.getD_cons_zero, List.getD_cons_succ]
  rw [shl_or _ _ 2 (by omega), shl_or _ _ 4 (by omega), shl_or _ _ 1 (by omega),
    shl_or _ _ 3 (by omega)]
  simp [Nat.shiftRight_eq_div_pow]

theorem encodeBlock_one (x0 : Nat) :
    encodeBlock [x0] 1 0 =
      [base32char (x0 / 8), base32char (x0 % 8 * 4), '=', '=', '=', '=', '=', '='] := by
  simp only [encodeBlock, byteAt, and_07]
  simp [Nat.shiftRight_eq_div_pow, Nat.shiftLeft_eq]

theorem encodeBlock_two (x0 x1 : Nat) (h1 : x1 < 256) :
    encodeBlock [x0, x1] 2 0 =
      [base32char (x0 / 8), base32char (x0 % 8 * 4 + x1 / 64), base32char (x1 % 64 / 2),
       base32char (x1 % 2 * 16), '=', '=', '=', '='] := by
  simp only [encodeBlock, byteAt, and_07, and_3f, and_01]
  simp only [Nat.zero_add, Nat.reduceLT, if_true, ge_iff_le, Nat.reduceLeDiff, if_false,
    List.getD_cons_zero, List.getD_cons_succ, Nat.lt_irrefl, Nat.le_refl]
  rw [shl_or _ _ 2 (by omega)]
  simp [Nat.shiftRight_eq_div_pow, Nat.shiftLeft_eq]

theorem encodeBlock_three (x0 x1 x2 : Nat) (h1 : x1 < 256) (h2 : x2 < 256) :
    encodeBlock [x0, x1, x2] 3 0 =
      [base32char (x0 / 8), base32char (x0 % 8 * 4 + x1 / 64), base32char (x1 % 64 / 2),
       base32char (x1 % 2 * 16 + x2 / 16), base32char (x2 % 16 * 2), '=', '=', '='] := by
  simp only [encodeBlock, byteAt, and_07, and_3f, and_01, and_0f]
  simp only [Nat.zero_add, Nat.reduceLT, if_true, ge_iff_le, Nat.reduceLeDiff, if_false,
    List.getD_cons_zero, List.getD_cons_succ, Nat.lt_irrefl, Nat.le_refl]
  rw [shl_or _ _ 2 (by omega), shl_or _ _ 4 (by omega)]
  simp [Nat.shiftRight_eq_div_pow, Nat.shiftLeft_eq]

theorem encodeBlock_four (x0 x1 x2 x3 : Nat) (h1 : x1 < 256) (h2 : x2 < 256) (h3 : x3 < 256) :
    encodeBlock [x0, x1, x2, x3] 4 0 =
      [base32char (x0 / 8), base32char (x0 % 8 * 4 + x1 / 64), base32char (x1 % 64 / 2),
       base32char (x1 % 2 * 16 + x2 / 16), base32char (x2 % 16 * 2 + x3 / 128),
       base32char (x3 % 128 / 4), base32char (x3 % 4 * 8), '='] := by
  simp only [encodeBlock, byteAt, and_07, and_3f, and_01, and_0f, and_7f, and_03]
  simp only [Nat.zero_add, Nat.reduceLT, if_true, ge_iff_le, Nat.reduceLeDiff, if_false,
    List.getD_cons_zero, List.getD_cons_succ, Nat.lt_irrefl, Nat.le_refl]
  rw [shl_or _ _ 2 (by omega), shl_or _ _ 4 (by omega), shl_or _ _ 1 (by omega)]
  simp [Nat.shiftRight_eq_div_pow, Nat.shiftLeft_eq]

/-- The bytes of the block made of eight given characters at the head of the input. -/
theorem blockBytes_cons8 (c0 c1 c2 c3 c4 c5 c6 c7 : Char) (s : List Char) :
    blockBytes (c0 :: c1 :: c2 :: c3 :: c4 :: c5 :: c6 :: c7 :: s) 0 =
      [((decodeChar c0 <<< 3) ||| (decodeChar c1 >>> 2)) % 256]
      ++ (if c2 ≠ '=' then
            [((decodeChar c1 <<< 6) ||| ((decodeChar c2 <<< 1) ||| (decodeChar c3 >>> 4))) % 256]
          else [])
      ++ (if c4 ≠ '=' then [((decodeChar c3 <<< 4) ||| (decodeChar c4 >>> 1)) % 256] else [])
      ++ (if c5 ≠ '=' then
            [((decodeChar c4 <<< 7) ||| ((decodeChar c5 <<< 2) ||| (decodeChar c6 >>> 3))) % 256]
          else [])
      ++ (if c7 ≠ '=' then [((decodeChar c6 <<< 5) ||| decodeChar c7) % 256] else []) := by
  simp [blockBytes, charAt]

theorem dec_byte0 (v0 v1 : Nat) (h1 : v1 < 32) :
    ((v0 <<< 3) ||| (v1 >>> 2)) % 256 = (v0 * 8 + v1 / 4) % 256 := by
  rw [shl_or _ _ 3 (by omega)]; simp [Nat.shiftRight_eq_div_pow]

theorem dec_byte1 (v1 v2 v3 : Nat) (h2 : v2 < 32) (h3 : v3 < 32) :
    ((v1 <<< 6) ||| ((v2 <<< 1) ||| (v3 >>> 4))) % 256 = (v1 * 64 + v2 * 2 + v3 / 16) % 256 := by
  rw [shl_or v2 _ 1 (by omega), shl_or _ _ 6 (by omega)]
  simp [Nat.shiftRight_eq_div_pow, Nat.add_assoc]

theorem dec_byte2 (v3 v4 : Nat) (h4 : v4 < 32) :
    ((v3 <<< 4) ||| (v4 >>> 1)) % 256 = (v3 * 16 + v4 / 2) % 256 := by
  rw [shl_or _ _ 4 (by omega)]; simp [Nat.shiftRight_eq_div_pow]

theorem dec_byte3 (v4 v5 v6 : Nat) (h5 : v5 < 32) (h6 : v6 < 32) :
    ((v4 <<< 7) ||| ((v5 <<< 2) ||| (v6 >>> 3))) % 256 = (v4 * 128 + v5 * 4 + v6 / 8) % 256 := by
  rw [shl_or v5 _ 2 (by omega), shl_or _ _ 7 (by omega)]
  simp [Nat.shiftRight_eq_div_pow, Nat.add_assoc]

theorem dec_byte4 (v6 v7 : Nat) (h7 : v7 < 32) :
    ((v6 <<< 5) ||| v7) % 256 = (v6 * 32 + v7) % 256 := by
  rw [shl_or _ _ 5 (by omega)]; simp

/-- Decoding the characters of one encoded group gives back the group. -/
theorem blockBytes_encodeBlock (b : List Nat) (hb : Bytes b) (h1 : 1 ≤ b.length)
    (h5 : b.length ≤ 5) (s : List Char) :
    blockBytes (encodeBlock b b.length 0 ++ s) 0 = b := by
  match b, hb, h1, h5 with
  | [x0], hb, _, _ =>
    have b0 : x0 < 256 := hb x0 (by simp)
    simp (disch := omega) only [List.length_singleton, encodeBlock_one, List.cons_append,
      List.nil_append, blockBytes_cons8, decodeChar_base32char, dec_byte0, ne_eq,
      not_true_eq_false, if_false, List.append_nil, List.cons.injEq, and_true]
    omega
  | [x0, x1], hb, _, _ =>
    have b0 : x0 < 256 := hb x0 (by simp)
    have b1 : x1 < 256 := hb x1 (by simp)
    simp (disch := omega) only [List.length_cons, List.length_nil, Nat.zero_add, Nat.reduceAdd, encodeBlock_two,
      List.cons_append, List.nil_append, blockBytes_cons8, decodeChar_base32char,
      base32char_ne_pad, dec_byte0, dec_byte1, ne_eq, not_true_eq_false, not_false_eq_true,
      if_true, if_false, List.append_nil, List.cons.injEq, and_true]
    omega
  | [x0, x1, x2], hb, _, _ =>
    have b0 : x0 < 256 := hb x0 (by simp)
    have b1 : x1 < 256 := hb x1 (by simp)
    have b2 : x2 < 256 := hb x2 (by simp)
    simp (disch := omega) only [List.length_cons, List.length_nil, Nat.zero_add, Nat.reduceAdd, encodeBlock_three,
      List.cons_append, List.nil_append, blockBytes_cons8, decodeChar_base32char,
      base32char_ne_pad, dec_byte0, dec_byte1, dec_byte2, ne_eq, not_true_eq_false,
      not_false_eq_true, if_true, if_false, List.append_nil, List.cons.injEq, and_true]
    omega
  | [x0, x1, x2, x3], hb, _, _ =>
    have b0 : x0 < 256 := hb x0 (by simp)
    have b1 : x1 < 256 := hb x1 (by simp)
    have b2 : x2 < 256 := hb x2 (by simp)
    have b3 : x3 < 256 := hb x3 (by simp)
    simp (disch := omega) only [List.length_cons, List.length_nil, Nat.zero_add, Nat.reduceAdd, encodeBlock_four,
      List.cons_append, List.nil_append, blockBytes_cons8, decodeChar_base32char,
      base32char_ne_pad, dec_byte0, dec_byte1, dec_byte2, dec_byte3, ne_eq, not_true_eq_false,
      not_false_eq_true, if_true, if_false, List.append_nil, List.cons.injEq, and_true]
    omega
  | [x0, x1, x2, x3, x4], hb, _, _ =>
    have b0 : x0 < 256 := hb x0 (by simp)
    have b1 : x1 < 256 := hb x1 (by simp)
    have b2 : x2 < 256 := hb x2 (by simp)
    have b3 : x3 < 256 := hb x3 (by simp)
    have b4 : x4 < 256 := hb x4 (by simp)
    simp (disch := omega) only [List.length_cons, List.length_nil, Nat.zero_add, Nat.reduceAdd, encodeBlock_five,
      List.cons_append, List.nil_append, blockBytes_cons8, decodeChar_base32char,
      base32char_ne_pad, dec_byte0, dec_byte1, dec_byte2, dec_byte3, dec_byte4, ne_eq,
      not_true_eq_false, not_false_eq_true, if_true, if_false, List.append_nil,
      List.cons.injEq, and_true]
    omega

theorem encodeBlock_length (b : List Nat) (n off : Nat) : (encodeBlock b n off).length = 8 := by
  unfold encodeBlock
  simp only []
  split_ifs <;> simp

theorem encode_small (b : List Nat) (h1 : 1 ≤ b.length) (h5 : b.length ≤ 5) :
    encode b = encodeBlock b b.length 0 := by
  have hb : encodeBlocks b.length = 1 := by
    unfold encodeBlocks
    simp only []
    split_ifs <;> omega
  have hne : b.length ≠ 0 := by omega
  simp [encode, hb, hne, List.range_succ]

theorem charAt_append_shift (e s : List Char) (he : e.length = 8) (i k : Nat) :
    charAt (e ++ s) ((i + 1) * 8 + k) = charAt s (i * 8 + k) := by
  unfold charAt
  rw [List.getD_append_right _ _ _ _ (by omega)]
  congr 1
  omega

theorem blockBytes_shift (e s : List Char) (he : e.length = 8) (i : Nat) :
    blockBytes (e ++ s) ((i + 1) * 8) = blockBytes s (i * 8) := by
  have h0 := charAt_append_shift e s he i 0
  simp only [Nat.add_zero] at h0
  unfold blockBytes
  simp only [charAt_append_shift e s he, h0]

theorem decodedFrom_shift (e s : List Char) (he : e.length = 8) :
    ∀ n i, decodedFrom (e ++ s) n (i + 1) = decodedFrom s n i := by
  intro n
  induction n with
  | zero => intro i; rfl
  | succ n ih =>
    intro i
    simp only [decodedFrom, blockBytes_shift e s he, ih]

theorem decodedFrom_encode_small (b : List Nat) (hb : Bytes b) (h1 : 1 ≤ b.length)
    (h5 : b.length ≤ 5) :
    decodedFrom (encode b) ((encode b).length / 8) 0 = b ∧ (encode b).length % 8 = 0 := by
  rw [encode_small b h1 h5]
  have := blockBytes_encodeBlock b hb h1 h5 []
  simp only [List.append_nil] at this
  simp [encodeBlock_length, decodedFrom, this]

theorem decodedFrom_encode : ∀ b : List Nat, Bytes b →
    decodedFrom (encode b) ((encode b).length / 8) 0 = b ∧ (encode b).length % 8 = 0
  | [], _ => by simp [encode_nil, decodedFrom]
  | [x0], hb => decodedFrom_encode_small _ hb (by simp) (by simp)
  | [x0, x1], hb => decodedFrom_encode_small _ hb (by simp) (by simp)
  | [x0, x1, x2], hb => decodedFrom_encode_small _ hb (by simp) (by simp)
  | [x0, x1, x2, x3], hb => decodedFrom_encode_small _ hb (by simp) (by simp)
  | x0 :: x1 :: x2 :: x3 :: x4 :: rest, hb => by
    have hrest : Bytes rest := fun x hx => hb x (by simp [hx])
    have hhead : Bytes [x0, x1, x2, x3, x4] := fun x hx => hb x (by
      simp only [List.mem_cons, List.mem_singleton, List.not_mem_nil, or_false] at hx
      simp only [List.mem_cons]
      tauto)
    obtain ⟨ih1, ih2⟩ := decodedFrom_encode rest hrest
    have hE := encodeBlock_length [x0, x1, x2, x3, x4] 5 0
    have hB := blockBytes_encodeBlock [x0, x1, x2, x3, x4] hhead (by simp) (by simp) (encode rest)
    simp only [List.length_cons, List.length_nil, Nat.zero_add, Nat.reduceAdd] at hB
    rw [encode_cons5]
    have hlen : (encodeBlock [x0, x1, x2, x3, x4] 5 0 ++ encode rest).length / 8 =
        (encode rest).length / 8 + 1 := by
      rw [List.length_append, hE]; omega
    refine ⟨?_, by rw [List.length_append, hE]; omega⟩
    rw [hlen]
    simp only [decodedFrom, Nat.zero_mul, hB]
    rw [decodedFrom_shift _ _ hE, ih1]
    rfl

theorem rfcBit_shift (x0 x1 x2 x3 x4 : Nat) (rest : List Nat) (i : Nat) :
    rfcBit (x0 :: x1 :: x2 :: x3 :: x4 :: rest) (40 + i) = rfcBit rest i := by
  unfold rfcBit
  have h1 : (40 + i) / 8 = i / 8 + 1 + 1 + 1 + 1 + 1 := by omega
  have h2 : (40 + i) % 8 = i % 8 := by omega
  rw [h1, h2]
  simp only [List.getD_cons_succ]

theorem rfcChar_shift (x0 x1 x2 x3 x4 : Nat) (rest : List Nat) (j : Nat) :
    rfcChar (x0 :: x1 :: x2 :: x3 :: x4 :: rest) (8 + j) = rfcChar rest j := by
  unfold rfcChar rfcValue rfcDataChars
  have e0 : 5 * (8 + j) = 40 + 5 * j := by omega
  have hc : (8 + j < (8 * (x0 :: x1 :: x2 :: x3 :: x4 :: rest).length + 4) / 5) =
      (j < (8 * rest.length + 4) / 5) := by
    simp only [List.length_cons, eq_iff_iff]; omega
  simp only [e0, Nat.add_assoc, rfcBit_shift, hc]

theorem rfcEncode_cons5 (x0 x1 x2 x3 x4 : Nat) (rest : List Nat) :
    rfcEncode (x0 :: x1 :: x2 :: x3 :: x4 :: rest) =
      (List.range 8).map (rfcChar (x0 :: x1 :: x2 :: x3 :: x4 :: rest)) ++ rfcEncode rest := by
  unfold rfcEncode
  have : 8 * (((x0 :: x1 :: x2 :: x3 :: x4 :: rest).length + 4) / 5) =
      8 + 8 * ((rest.length + 4) / 5) := by
    simp only [List.length_cons]; omega
  rw [this, List.range_add, List.map_append, List.map_map]
  congr 1
  apply List.map_congr_left
  intro j _
  exact rfcChar_shift x0 x1 x2 x3 x4 rest j

theorem range8 : List.range 8 = [0, 1, 2, 3, 4, 5, 6, 7] := by decide

theorem rfcChar_of_lt (b : List Nat) (j : Nat) (h : j < rfcDataChars b.length) :
    rfcChar b j = base32char (rfcValue b j) := by
  unfold rfcChar
  rw [if_pos h]
  rfl

theorem rfcChar_of_ge (b : List Nat) (j : Nat) (h : rfcDataChars b.length ≤ j) :
    rfcChar b j = '=' := by
  unfold rfcChar
  rw [if_neg (by omega)]

theorem rfc_one (x0 : Nat) (h0 : x0 < 256) : rfcEncode [x0] = encodeBlock [x0] 1 0 := by
  rw [encodeBlock_one x0]
  have hd : rfcDataChars [x0].length = 2 := by simp [rfcDataChars]
  have h8 : 8 * (([x0].length + 4) / 5) = 8 := by simp
  unfold rfcEncode
  rw [h8, range8]
  simp only [List.map_cons, List.map_nil]
  rw [rfcChar_of_lt _ 0 (by omega), rfcChar_of_lt _ 1 (by omega), rfcChar_of_ge _ 2 (by omega),
    rfcChar_of_ge _ 3 (by omega), rfcChar_of_ge _ 4 (by omega), rfcChar_of_ge _ 5 (by omega),
    rfcChar_of_ge _ 6 (by omega), rfcChar_of_ge _ 7 (by omega)]
  simp only [rfcValue, rfcBit, List.cons.injEq, and_true]
  simp
  refine ⟨?_, ?_⟩ <;> (congr 1; omega)

theorem rfc_two (x0 x1 : Nat) (h0 : x0 < 256) (h1 : x1 < 256) :
    rfcEncode [x0, x1] = encodeBlock [x0, x1] 2 0 := by
  rw [encodeBlock_two x0 x1 h1]
  have hd : rfcDataChars [x0, x1].length = 4 := by simp [rfcDataChars]
  have h8 : 8 * (([x0, x1].length + 4) / 5) = 8 := by simp
  unfold rfcEncode
  rw [h8, range8]
  simp only [List.map_cons, List.map_nil]
  rw [rfcChar_of_lt _ 0 (by omega), rfcChar_of_lt _ 1 (by omega), rfcChar_of_lt _ 2 (by omega),
    rfcChar_of_lt _ 3 (by omega), rfcChar_of_ge _ 4 (by omega), rfcChar_of_ge _ 5 (by omega),
    rfcChar_of_ge _ 6 (by omega), rfcChar_of_ge _ 7 (by omega)]
  simp only [rfcValue, rfcBit, List.cons.injEq, and_true]
  simp
  refine ⟨?_, ?_, ?_⟩ <;> (congr 1; omega)

theorem rfc_three (x0 x1 x2 : Nat) (h0 : x0 < 256) (h1 : x1 < 256) (h2 : x2 < 256) :
    rfcEncode [x0, x1, x2] = encodeBlock [x0, x1, x2] 3 0 := by
  rw [encodeBlock_three x0 x1 x2 h1 h2]
  have hd : rfcDataChars [x0, x1, x2].length = 5 := by simp [rfcDataChars]
  have h8 : 8 * (([x0, x1, x2].length + 4) / 5) = 8 := by simp
  unfold rfcEncode
  rw [h8, range8]
  simp only [List.map_cons, List.map_nil]
  rw [rfcChar_of_lt _ 0 (by omega), rfcChar_of_lt _ 1 (by omega), rfcChar_of_lt _ 2 (by omega),
    rfcChar_of_lt _ 3 (by omega), rfcChar_of_lt _ 4 (by omega), rfcChar_of_ge _ 5 (by omega),
    rfcChar_of_ge _ 6 (by omega), rfcChar_of_ge _ 7 (by omega)]
  simp only [rfcValue, rfcBit, List.cons.injEq, and_true]
  simp
  refine ⟨?_, ?_, ?_, ?_, ?_⟩ <;> (congr 1; omega)

theorem rfc_four (x0 x1 x2 x3 : Nat) (h0 : x0 < 256) (h1 : x1 < 256) (h2 : x2 < 256)
    (h3 : x3 < 256) :
    rfcEncode [x0, x1, x2, x3] = encodeBlock [x0, x1, x2, x3] 4 0 := by
  rw [encodeBlock_four x0 x1 x2 x3 h1 h2 h3]
  have hd : rfcDataChars [x0, x1, x2, x3].length = 7 := by simp [rfcDataChars]
  have h8 : 8 * (([x0, x1, x2, x3].length + 4) / 5) = 8 := by simp
  unfold rfcEncode
  rw [h8, range8]
  simp only [List.map_cons, List.map_nil]
  rw [rfcChar_of_lt _ 0 (by omega), rfcChar_of_lt _ 1 (by omega), rfcChar_of_lt _ 2 (by omega),
    rfcChar_of_lt _ 3 (by omega), rfcChar_of_lt _ 4 (by omega), rfcChar_of_lt _ 5 (by omega),
    rfcChar_of_lt _ 6 (by omega), rfcChar_of_ge _ 7 (by omega)]
  simp only [rfcValue, rfcBit, List.cons.injEq, and_true]
  simp
  refine ⟨?_, ?_, ?_, ?_, ?_, ?_, ?_⟩ <;> (congr 1; omega)

theorem rfc_five (x0 x1 x2 x3 x4 : Nat) (rest : List Nat) (h0 : x0 < 256) (h1 : x1 < 256)
    (h2 : x2 < 256) (h3 : x3 < 256) (h4 : x4 < 256) :
    (List.range 8).map (rfcChar (x0 :: x1 :: x2 :: x3 :: x4 :: rest)) =
      encodeBlock [x0, x1, x2, x3, x4] 5 0 := by
  rw [encodeBlock_five x0 x1 x2 x3 x4 h1 h2 h3 h4]
  have hd : 8 ≤ rfcDataChars (x0 :: x1 :: x2 :: x3 :: x4 :: rest).length := by
    unfold rfcDataChars
    simp only [List.length_cons]
    omega
  rw [range8]
  simp only [List.map_cons, List.map_nil]
  rw [rfcChar_of_lt _ 0 (by omega), rfcChar_of_lt _ 1 (by omega), rfcChar_of_lt _ 2 (by omega),
    rfcChar_of_lt _ 3 (by omega), rfcChar_of_lt _ 4 (by omega), rfcChar_of_lt _ 5 (by omega),
    rfcChar_of_lt _ 6 (by omega), rfcChar_of_lt _ 7 (by omega)]
  simp only [rfcValue, rfcBit, List.cons.injEq, and_true]
  simp
  refine ⟨?_, ?_, ?_, ?_, ?_, ?_, ?_, ?_⟩ <;> (congr 1; omega)

/-- The embedding of `Base32Coder::encode` coincides with the reference encoding. -/
theorem encode_eq_rfcEncode : ∀ b : List Nat, Bytes b → encode b = rfcEncode b
  | [], _ => rfl
  | [x0], hb => by
    rw [encode_small _ (by simp) (by simp)]
    exact (rfc_one x0 (hb x0 (by simp))).symm
  | [x0, x1], hb => by
    rw [encode_small _ (by simp) (by simp)]
    exact (rfc_two x0 x1 (hb x0 (by simp)) (hb x1 (by simp))).symm
  | [x0, x1, x2], hb => by
    rw [encode_small _ (by simp) (by simp)]
    exact (rfc_three x0 x1 x2 (hb x0 (by simp)) (hb x1 (by simp)) (hb x2 (by simp))).symm
  | [x0, x1, x2, x3], hb => by
    rw [encode_small _ (by simp) (by simp)]
    exact (rfc_four x0 x1 x2 x3 (hb x0 (by simp)) (hb x1 (by simp)) (hb x2 (by simp))
      (hb x3 (by simp))).symm
  | x0 :: x1 :: x2 :: x3 :: x4 :: rest, hb => by
    have hrest : Bytes rest := fun x hx => hb x (by simp [hx])
    rw [encode_cons5, rfcEncode_cons5, encode_eq_rfcEncode rest hrest,
      rfc_five x0 x1 x2 x3 x4 rest (hb x0 (by simp)) (hb x1 (by simp)) (hb x2 (by simp))
        (hb x3 (by simp)) (hb x4 (by simp))]

theorem encode_ne_nil (b : List Nat) (hne : b ≠ []) : encode b ≠ [] := by
  cases b with
  | nil => exact absurd rfl hne
  | cons x xs =>
    unfold encode
    simp only [List.length_cons, Nat.add_one_ne_zero, if_false]
    have hpos : 0 < encodeBlocks (xs.length + 1) := by
      unfold encodeBlocks
      simp only []
      split_ifs <;> omega
    obtain ⟨k, hk⟩ := Nat.exists_eq_succ_of_ne_zero (by omega : encodeBlocks (xs.length + 1) ≠ 0)
    rw [hk, foldl_append_range_succ]
    intro h
    have := congrArg List.length h
    simp [encodeBlock_length] at this

/-- C1. Base32 round trip: for every byte sequence `b` (every element below 256),
`decode (encode b)` succeeds (the returned pointer is not null), the first
`decodedSize` bytes of the returned buffer are exactly `b`, and `decodedSize` is
the length of `b`. -/
theorem base32_round_trip (b : List Nat) (hb : Bytes b) :
    (decode (encode b)).1.isSome = true ∧
      decoded (decode (encode b)) = some b ∧
      (decode (encode b)).2 = b.length := by
  by_cases hne : b = []
  · subst hne
    decide
  · obtain ⟨h1, h2⟩ := decodedFrom_encode b hb
    obtain ⟨e1, e2⟩ := decoded_decode (encode b) (encode_ne_nil b hne) h2
    rw [h1] at e1 e2
    refine ⟨?_, e1, e2⟩
    unfold decoded at e1
    cases h : (decode (encode b)).1 with
    | none => rw [h] at e1; simp at e1
    | some _ => rfl

/-- Witness of C1 at the seven-byte input "foobar!". -/
theorem base32_round_trip_witness :
    Bytes [102, 111, 111, 98, 97, 114, 33] ∧
      decoded (decode (encode [102, 111, 111, 98, 97, 114, 33])) =
        some [102, 111, 111, 98, 97, 114, 33] :=
  ⟨by decide, (base32_round_trip [102, 111, 111, 98, 97, 114, 33] (by decide)).2.1⟩

/-- C2. `decode` returns the null result with `decodedSize = 0` for every input
whose length is not a multiple of 8; the empty string is accepted (non-null
result) and decodes to zero bytes. -/
theorem decode_rejects_bad_length (toDecode : List Char) (h : toDecode.length % 8 ≠ 0) :
    decode toDecode = (none, 0) ∧
      (decode []).1.isSome = true ∧ decoded (decode []) = some [] ∧ (decode []).2 = 0 := by
  refine ⟨?_, by decide, by decide, by decide⟩
  unfold decode
  have hne : toDecode.isEmpty = false := by
    cases toDecode with
    | nil => simp at h
    | cons _ _ => rfl
  simp [hne, h]

/-- Witness of C2 at the seven-character string "MZXW6YT". -/
theorem decode_rejects_bad_length_witness :
    "MZXW6YT".toList.length % 8 ≠ 0 ∧ decode "MZXW6YT".toList = (none, 0) :=
  ⟨by decide, (decode_rejects_bad_length "MZXW6YT".toList (by decide)).1⟩

/-- C3 (evaluation of the code). The eight-character string "aaaaaaaa" has a
length that is a multiple of 8 and consists only of characters outside the
alphabet and different from the pad, yet `decode` returns a non-null buffer
and reports five decoded bytes, each built from the not-found value `0xff`. -/
theorem decode_unrecognized_char_not_rejected :
    (∀ c ∈ "aaaaaaaa".toList, c ∉ base32chars ∧ c ≠ '=') ∧
      "aaaaaaaa".toList.length % 8 = 0 ∧
      decode "aaaaaaaa".toList = (some [255, 255, 255, 255, 255, 0, 0, 0], 5) := by
  decide

theorem rfcBit_le (b : List Nat) (i : Nat) : rfcBit b i ≤ 1 := by
  unfold rfcBit; omega

theorem rfcValue_lt (b : List Nat) (j : Nat) : rfcValue b j < 32 := by
  unfold rfcValue
  have h0 := rfcBit_le b (5 * j)
  have h1 := rfcBit_le b (5 * j + 1)
  have h2 := rfcBit_le b (5 * j + 2)
  have h3 := rfcBit_le b (5 * j + 3)
  have h4 := rfcBit_le b (5 * j + 4)
  omega

theorem rfcEncode_split (b : List Nat) :
    rfcEncode b =
      (List.range (rfcDataChars b.length)).map (fun j => base32char (rfcValue b j)) ++
        List.replicate (8 * ((b.length + 4) / 5) - rfcDataChars b.length) '=' := by
  have hle : rfcDataChars b.length ≤ 8 * ((b.length + 4) / 5) := by
    unfold rfcDataChars; omega
  unfold rfcEncode
  obtain ⟨p, hp⟩ := Nat.exists_eq_add_of_le hle
  rw [hp, List.range_add, List.map_append, Nat.add_sub_cancel_left]
  congr 1
  · apply List.map_congr_left
    intro j hj
    exact rfcChar_of_lt b j (List.mem_range.mp hj)
  · rw [List.map_map, List.eq_replicate_iff]
    refine ⟨by simp, ?_⟩
    intro c hc
    obtain ⟨i, _, rfl⟩ := List.mem_map.mp hc
    exact rfcChar_of_ge b _ (Nat.le_add_right _ _)

theorem padCount_eq (n : Nat) :
    8 * ((n + 4) / 5) - rfcDataChars n = padCount (n % 5) := by
  unfold rfcDataChars
  have h : n % 5 = 0 ∨ n % 5 = 1 ∨ n % 5 = 2 ∨ n % 5 = 3 ∨ n % 5 = 4 := by omega
  rcases h with h | h | h | h | h <;> rw [h] <;> simp only [padCount] <;> omega

/-- C4. `encode` equals the RFC 4648 reference encoding: for every byte sequence
`b` of length `n`, output character `j` is the alphabet character of the 5-bit
big-endian value of bits `5j..5j+4` of `b` (zero beyond the end) for every
`j < ceil(8n/5)`, every remaining output character is `'='`, and "foobar"
encodes to "MZXW6YTBOI======". -/
theorem encode_matches_rfc4648 (b : List Nat) (hb : Bytes b) :
    (∀ j, j < rfcDataChars b.length →
        (encode b)[j]? = some (rfcAlphabet.getD (rfcValue b j) (Char.ofNat 0))) ∧
      (∀ j, rfcDataChars b.length ≤ j → j < (encode b).length → (encode b)[j]? = some '=') ∧
      encode b = rfcEncode b ∧
      encode [102, 111, 111, 98, 97, 114] = "MZXW6YTBOI======".toList := by
  have he := encode_eq_rfcEncode b hb
  have hN : rfcDataChars b.length ≤ 8 * ((b.length + 4) / 5) := by
    unfold rfcDataChars; omega
  refine ⟨?_, ?_, he, by decide⟩
  · intro j hj
    rw [he]
    unfold rfcEncode
    rw [List.getElem?_map, List.getElem?_range (by omega)]
    simp [rfcChar, hj]
  · intro j hj hlen
    rw [he] at hlen ⊢
    unfold rfcEncode at hlen ⊢
    simp only [List.length_map, List.length_range] at hlen
    rw [List.getElem?_map, List.getElem?_range hlen]
    simp [rfcChar, Nat.not_lt.mpr hj]

/-- Witness of C4 at the input "foobar". -/
theorem encode_matches_rfc4648_witness :
    Bytes [102, 111, 111, 98, 97, 114] ∧
      encode [102, 111, 111, 98, 97, 114] = rfcEncode [102, 111, 111, 98, 97, 114] :=
  ⟨by decide, (encode_matches_rfc4648 [102, 111, 111, 98, 97, 114] (by decide)).2.2.1⟩

/-- C5. For every byte sequence of length `n`, `encode` returns exactly
`8 * ceil(n/5)` characters (the empty input gives the empty string); the output
is a pad-free prefix followed by `padCount (n mod 5)` pad characters, that is
0, 6, 4, 3, 1 of them for `n mod 5 = 0, 1, 2, 3, 4`, and this is the number of
`'='` characters of the whole output. -/
theorem encode_length_and_padding (b : List Nat) (hb : Bytes b) :
    (encode b).length = 8 * ((b.length + 4) / 5) ∧
      encode [] = [] ∧
      (encode b).count '=' = padCount (b.length % 5) ∧
      (∃ pre, encode b = pre ++ List.replicate (padCount (b.length % 5)) '=' ∧ '=' ∉ pre) := by
  have he := encode_eq_rfcEncode b hb
  have hs := rfcEncode_split b
  rw [padCount_eq] at hs
  have hpre : '=' ∉ (List.range (rfcDataChars b.length)).map
      (fun j => base32char (rfcValue b j)) := by
    intro hc
    obtain ⟨j, _, hj⟩ := List.mem_map.mp hc
    exact base32char_ne_pad _ (rfcValue_lt b j) hj
  refine ⟨?_, rfl, ?_, ⟨_, he.trans hs, hpre⟩⟩
  · rw [he]; simp [rfcEncode]
  · rw [he, hs, List.count_append, List.count_eq_zero_of_not_mem hpre]
    simp

/-- Witness of C5 at the input "foobar" (one trailing byte, six pad characters). -/
theorem encode_length_and_padding_witness :
    Bytes [102, 111, 111, 98, 97, 114] ∧
      (encode [102, 111, 111, 98, 97, 114]).length = 16 ∧
      (encode [102, 111, 111, 98, 97, 114]).count '=' = 6 :=
  ⟨by decide, (encode_length_and_padding [102, 111, 111, 98, 97, 114] (by decide)).1,
    (encode_length_and_padding [102, 111, 111, 98, 97, 114] (by decide)).2.2.1⟩

end Base32Coder

namespace Hmac

theorem padLoop_eq (n : Nat) (ba : List Nat) : padLoop n ba = ba ++ List.replicate n 0 := by
  induction n generalizing ba with
  | zero => simp [padLoop]
  | succ n ih =>
    rw [padLoop, ih, List.replicate_succ, List.append_assoc]
    rfl

theorem atIdx_append_cons (pre : List Nat) (x : Nat) (xs : List Nat) :
    ByteArray.atIdx (pre ++ x :: xs) pre.length = x := by
  unfold ByteArray.atIdx
  rw [List.getD_append_right _ _ _ _ (Nat.le_refl _)]
  simp

theorem xorLoop_spec (n : Nat) :
    ∀ (pre post pre2 post2 : List Nat), pre.length = pre2.length → n ≤ post.length →
      n ≤ post2.length →
      xorLoop n pre.length (pre ++ post) (pre2 ++ post2) =
        some (pre ++ (post.take n).map (fun x => (x ^^^ 0x36) % 256) ++ post.drop n,
          pre2 ++ (post2.take n).map (fun x => (x ^^^ 0x5c) % 256) ++ post2.drop n) := by
  induction n with
  | zero => intro pre post pre2 post2 _ _ _; simp [xorLoop]
  | succ n ih =>
    intro pre post pre2 post2 hl h1 h2
    cases post with
    | nil => simp at h1
    | cons x xs =>
      cases post2 with
      | nil => simp at h2
      | cons y ys =>
        simp only [List.length_cons, Nat.add_le_add_iff_right] at h1 h2
        have e1 : ByteArray.setAt (pre ++ x :: xs) pre.length
            ((ByteArray.atIdx (pre ++ x :: xs) pre.length ^^^ 0x36) % 256) =
            some ((pre ++ [(x ^^^ 0x36) % 256]) ++ xs) := by
          rw [atIdx_append_cons]
          simp [ByteArray.setAt]
        have e2 : ByteArray.setAt (pre2 ++ y :: ys) pre.length
            ((ByteArray.atIdx (pre2 ++ y :: ys) pre.length ^^^ 0x5c) % 256) =
            some ((pre2 ++ [(y ^^^ 0x5c) % 256]) ++ ys) := by
          rw [hl, atIdx_append_cons]
          simp [ByteArray.setAt]
        have hlen : (pre ++ [(x ^^^ 0x36) % 256]).length = pre.length + 1 := by simp
        have hlen2 : (pre ++ [(x ^^^ 0x36) % 256]).length =
            (pre2 ++ [(y ^^^ 0x5c) % 256]).length := by simp [hl]
        rw [xorLoop, e1]
        simp only [e2]
        rw [← hlen, ih _ xs _ ys hlen2 h1 h2]
        simp

theorem xorLoop_full (k : List Nat) :
    xorLoop k.length 0 k k =
      some (k.map (fun x => (x ^^^ 0x36) % 256), k.map (fun x => (x ^^^ 0x5c) % 256)) := by
  have hx := xorLoop_spec k.length [] k [] k rfl (Nat.le_refl _) (Nat.le_refl _)
  simpa using hx

theorem xor_byte (x c : Nat) (hx : x < 256) (hc : c < 256) : (x ^^^ c) % 256 = x ^^^ c :=
  Nat.mod_eq_of_lt (Nat.xor_lt_two_pow (n := 8) hx hc)

theorem map_xor_eq_refXor (k : List Nat) (c : Nat) (hc : c < 256) (hk : Bytes k) :
    k.map (fun x => (x ^^^ c) % 256) = refXor k (List.replicate k.length c) := by
  induction k with
  | nil => simp [refXor]
  | cons x xs ih =>
    have hx : x < 256 := hk x (by simp)
    have hxs : Bytes xs := fun y hy => hk y (by simp [hy])
    simp only [List.map_cons, List.length_cons, List.replicate_succ, refXor, List.zipWith_cons_cons,
      xor_byte x c hx hc]
    rw [ih hxs]
    rfl

theorem refKey_length (H : List Nat → List Nat) (B : Nat) (key : List Nat)
    (hlen : (H key).length ≤ B) : (refKey H B key).length = B := by
  unfold refKey
  simp only []
  split_ifs with h
  · simp; omega
  · simp; omega

theorem refKey_bytes (H : List Nat → List Nat) (B : Nat) (key : List Nat) (hk : Bytes key)
    (hH : Bytes (H key)) : Bytes (refKey H B key) := by
  unfold refKey
  simp only []
  intro x hx
  rw [List.mem_append] at hx
  rcases hx with hx | hx
  · split_ifs at hx
    · exact hk x hx
    · exact hH x hx
  · rw [List.mem_replicate] at hx
    omega

/-- The embedding of `Hmac::calculate` in terms of the reference key: the result
and the log of hash calls. -/
theorem calculateLog_eq (h : HashTypeBase) (key message : List Nat) (hkey : key ≠ [])
    (hmsg : message ≠ []) (hkb : Bytes key) (hhb : Bytes (h.hash key))
    (hlen : (h.hash key).length ≤ h.hashBlockLength) :
    (calculateLog ⟨some h⟩ key message).1 =
      some (refHmac h.hash h.hashBlockLength key message) := by
  have hK := refKey_length h.hash h.hashBlockLength key hlen
  have hB := refKey_bytes h.hash h.hashBlockLength key hkb hhb
  have hne : (key.isEmpty || message.isEmpty) = false := by
    cases key with
    | nil => exact absurd rfl hkey
    | cons _ _ =>
      cases message with
      | nil => exact absurd rfl hmsg
      | cons _ _ => rfl
  have hx := xorLoop_full (refKey h.hash h.hashBlockLength key)
  rw [map_xor_eq_refXor _ 0x36 (by omega) hB, map_xor_eq_refXor _ 0x5c (by omega) hB, hK] at hx
  unfold calculateLog
  simp only [hne, Bool.false_eq_true, if_false]
  by_cases hgt : key.length > h.hashBlockLength
  · have hk' : refKey h.hash h.hashBlockLength key =
        padLoop (h.hashBlockLength - (h.hash key).length) (h.hash key) := by
      rw [padLoop_eq]; unfold refKey; simp [Nat.not_le.mpr hgt]
    simp only [hgt, if_true, ← hk', hx]
    rfl
  · have hk' : refKey h.hash h.hashBlockLength key =
        padLoop (h.hashBlockLength - key.length) key := by
      rw [padLoop_eq]; unfold refKey; simp [Nat.not_lt.mp hgt]
    simp only [hgt, if_false, ← hk', hx]
    rfl

end Hmac

namespace Sha1Hash

theorem be_length (w x : Nat) : (be w x).length = w := by simp [be]

theorem be_bytes (w x : Nat) : Bytes (be w x) := by
  intro y hy
  unfold be at hy
  obtain ⟨i, _, rfl⟩ := List.mem_map.mp hy
  exact Nat.mod_lt _ (by decide)

theorem hash_length (msg : List Nat) : (hash msg).length = 20 := by
  simp [hash, be_length]

theorem hash_bytes (msg : List Nat) : Bytes (hash msg) := by
  intro y hy
  simp only [hash, List.mem_append] at hy
  rcases hy with (((hy | hy) | hy) | hy) | hy <;> exact be_bytes _ _ y hy

/-- The SHA-1 model reproduces the two digests that `Sha1Tests1` and `Sha1Tests2`
(`src/tests/otpimpl/sha1tests.cpp`) expect of `Sha1Hash::hash`. -/
theorem hash_test_vectors :
    hash [] = [0xda, 0x39, 0xa3, 0xee, 0x5e, 0x6b, 0x4b, 0x0d, 0x32, 0x55, 0xbf, 0xef, 0x95,
        0x60, 0x18, 0x90, 0xaf, 0xd8, 0x07, 0x09] ∧
      hash (("abcdefghbcdefghicdefghijdefghijkefghijklfghijklmghijklmnhijklmnoijklmnopjklmnopq" ++
          "klmnopqrlmnopqrsmnopqrstnopqrstu").toList.map Char.toNat) =
        [0xa4, 0x9b, 0x24, 0x46, 0xa0, 0x2c, 0x64, 0x5b, 0xf4, 0x19, 0xf9, 0x95, 0xb6, 0x70,
          0x91, 0x25, 0x3a, 0x04, 0xa2, 0x59] := by
  decide!

end Sha1Hash

namespace Hmac

/-- C7. `Hmac::calculate` equals the HMAC reference definition for every hash
primitive `h` with block length `B` whose digests are byte sequences of length at
most `B`: for every non-empty key (a byte sequence) and every non-empty message
the result is `H((K' xor opad) || H((K' xor ipad) || message))`. -/
theorem calculate_eq_reference (h : HashTypeBase) (key message : List Nat)
    (hkey : key ≠ []) (hmsg : message ≠ []) (hkb : Bytes key)
    (hhb : ∀ x, Bytes (h.hash x)) (hlen : ∀ x, (h.hash x).length ≤ h.hashBlockLength) :
    calculate ⟨some h⟩ key message = some (refHmac h.hash h.hashBlockLength key message) :=
  calculateLog_eq h key message hkey hmsg hkb (hhb key) (hlen key)

/-- Witness of C7 with the SHA-1 primitive, the key "Jefe" and the message "what". -/
theorem calculate_eq_reference_witness :
    calculate ⟨some Sha1Hash.sha1HashType⟩ [74, 101, 102, 101] [119, 104, 97, 116] =
      some (refHmac Sha1Hash.hash 64 [74, 101, 102, 101] [119, 104, 97, 116]) :=
  calculate_eq_reference Sha1Hash.sha1HashType [74, 101, 102, 101] [119, 104, 97, 116]
    (by decide) (by decide) (by decide) Sha1Hash.hash_bytes
    (fun x => by
      show (Sha1Hash.hash x).length ≤ 64
      rw [Sha1Hash.hash_length]
      decide)

/-- C8. `Hmac::calculate` returns the null result whenever the key is empty, or
the message is empty, or no hash primitive is configured, and in each of these
cases the hash primitive is not invoked (the log of hash calls is empty). -/
theorem calculate_fails_without_hashing (self : Hmac) (key data : List Nat)
    (h : key = [] ∨ data = [] ∨ self.mHashType = none) :
    calculate self key data = none ∧ (calculateLog self key data).2 = [] := by
  unfold calculate calculateLog
  rcases h with h | h | h
  · subst h; simp
  · subst h; simp
  · rw [h]
    split_ifs <;> simp

/-- Witness of C8: an empty key with the SHA-1 primitive configured. -/
theorem calculate_fails_without_hashing_witness :
    calculate ⟨some Sha1Hash.sha1HashType⟩ [] [1, 2, 3] = none ∧
      (calculateLog ⟨some Sha1Hash.sha1HashType⟩ [] [1, 2, 3]).2 = [] :=
  calculate_fails_without_hashing ⟨some Sha1Hash.sha1HashType⟩ [] [1, 2, 3] (Or.inl rfl)

/-- C9 as stated fails: for the key "Jefe" and the message "what do ya want for
nothing?" `Hmac::calculate` does not return the digest `effcdf6a...259a7ce8` of the
claim; its last two bytes are `7c 79`, as in RFC 2202, not `7c e8`. -/
theorem calculate_rfc2202_jefe_not_as_claimed :
    calculate ⟨some Sha1Hash.sha1HashType⟩ ("Jefe".toList.map Char.toNat)
        ("what do ya want for nothing?".toList.map Char.toNat) ≠
      some [0xef, 0xfc, 0xdf, 0x6a, 0xe5, 0xeb, 0x2f, 0xa2, 0xd2, 0x74, 0x16, 0xd5, 0xf1,
        0x84, 0xdf, 0x9c, 0x25, 0x9a, 0x7c, 0xe8] := by
  decide!

/-- C9 as amended. With the SHA-1 primitive (block length 64, 20-byte digest)
`Hmac::calculate` gives the RFC 2202 HMAC-SHA1 values: key twenty bytes `0x0b` with
"Hi There" gives `b617318655057264e28bc0b6fb378c8ef146be00`, and key "Jefe" with
"what do ya want for nothing?" gives `effcdf6ae5eb2fa2d27416d5f184df9c259a7c79`. -/
theorem calculate_rfc2202 :
    Sha1Hash.sha1HashType.hashBlockLength = 64 ∧
      calculate ⟨some Sha1Hash.sha1HashType⟩ (List.replicate 20 0x0b)
          ("Hi There".toList.map Char.toNat) =
        some [0xb6, 0x17, 0x31, 0x86, 0x55, 0x05, 0x72, 0x64, 0xe2, 0x8b, 0xc0, 0xb6, 0xfb,
          0x37, 0x8c, 0x8e, 0xf1, 0x46, 0xbe, 0x00] ∧
      calculate ⟨some Sha1Hash.sha1HashType⟩ ("Jefe".toList.map Char.toNat)
          ("what do ya want for nothing?".toList.map Char.toNat) =
        some [0xef, 0xfc, 0xdf, 0x6a, 0xe5, 0xeb, 0x2f, 0xa2, 0xd2, 0x74, 0x16, 0xd5, 0xf1,
          0x84, 0xdf, 0x9c, 0x25, 0x9a, 0x7c, 0x79] := by
  decide!

end Hmac

namespace Hotp

/-- C10. With an HMAC-SHA1 engine, the ASCII key "12345678901234567890", 6 digits,
no checksum and dynamic truncation (offset `-1`), `Hotp::calculate` returns the
RFC 4226 Appendix D values for the counters 0 to 9: "755224", "287082", ...,
"520489". -/
theorem calculate_rfc4226 :
    (List.range 10).map (fun counter =>
        calculate ⟨some ⟨some Sha1Hash.sha1HashType⟩⟩
          ("12345678901234567890".toList.map Char.toNat) counter 6 false (-1)) =
      ["755224", "287082", "359152", "969429", "338314", "254676", "287922", "162583",
        "399871", "520489"].map (fun s => some s.toList) := by
  decide!

end Hotp

namespace Hmac

theorem padLoop_length (n : Nat) (ba : List Nat) : (padLoop n ba).length = ba.length + n := by
  rw [padLoop_eq]; simp

/-- With a hash primitive configured, a non-empty key and a non-empty message,
`Hmac::calculate` returns a digest of the primitive. -/
theorem calculate_some (h : HashTypeBase) (key data : List Nat) (hkey : key ≠ [])
    (hdata : data ≠ []) : ∃ x, calculate ⟨some h⟩ key data = some (h.hash x) := by
  have hne : (key.isEmpty || data.isEmpty) = false := by
    cases key with
    | nil => exact absurd rfl hkey
    | cons _ _ =>
      cases data with
      | nil => exact absurd rfl hdata
      | cons _ _ => rfl
  have hx : ∀ k : List Nat, ∃ p q,
      xorLoop h.hashBlockLength 0 (padLoop (h.hashBlockLength - k.length) k)
        (padLoop (h.hashBlockLength - k.length) k) = some (p, q) := by
    intro k
    have hl : h.hashBlockLength ≤ (padLoop (h.hashBlockLength - k.length) k).length := by
      rw [padLoop_length]; omega
    have := xorLoop_spec h.hashBlockLength [] (padLoop (h.hashBlockLength - k.length) k) []
      (padLoop (h.hashBlockLength - k.length) k) rfl hl hl
    simp only [List.length_nil, List.nil_append] at this
    exact ⟨_, _, this⟩
  unfold calculate calculateLog
  simp only [hne, Bool.false_eq_true, if_false]
  by_cases hgt : key.length > h.hashBlockLength
  · obtain ⟨p, q, e⟩ := hx (h.hash key)
    simp only [hgt, if_true, e]
    exact ⟨_, rfl⟩
  · obtain ⟨p, q, e⟩ := hx key
    simp only [hgt, if_false, e]
    exact ⟨_, rfl⟩

end Hmac

namespace Hotp

theorem toDigits_ne_nil (n : Nat) : Nat.toDigits 10 n ≠ [] := by
  unfold Nat.toDigits
  rw [Nat.toDigitsCore]
  split_ifs
  · exact List.cons_ne_nil _ _
  · intro hnil
    have h1 := Nat.toDigitsCore_lens_eq 10 n (n / 10) (Nat.digitChar (n % 10)) []
    rw [hnil] at h1
    simp at h1

theorem zeroPadLoop_ne_nil (n : Nat) (result : List Char) (digits : Nat) (h : result ≠ []) :
    zeroPadLoop n result digits ≠ [] := by
  induction n generalizing result with
  | zero => exact h
  | succ n ih =>
    rw [zeroPadLoop]
    split_ifs
    · exact ih _ (List.cons_ne_nil _ _)
    · exact h

theorem dynamicTruncate_eq (hmac : List Nat) (t : Nat) (hne : hmac ≠ []) :
    dynamicTruncate hmac t =
      [ByteArray.atIdx hmac ((startOffset hmac t + 0) % 2 ^ 64),
       ByteArray.atIdx hmac ((startOffset hmac t + 1) % 2 ^ 64),
       ByteArray.atIdx hmac ((startOffset hmac t + 2) % 2 ^ 64),
       ByteArray.atIdx hmac ((startOffset hmac t + 3) % 2 ^ 64)] := by
  have : hmac.isEmpty = false := by
    cases hmac with
    | nil => exact absurd rfl hne
    | cons _ _ => rfl
  unfold dynamicTruncate startOffset
  simp [this, List.range_succ]

/-- The shape of the result of `calculateHotpFromHmac` once its checks pass and the
read of `DIGITS_POWER` is in range. -/
theorem calculateHotpFromHmac_eq (hmac : List Nat) (digits : Nat) (addChecksum : Bool)
    (off : Int) (power : Nat) (hne : hmac ≠ []) (h6 : 6 ≤ digits) (h8 : digits ≤ 8)
    (hp : DIGITS_POWER[if addChecksum then digits + 1 else digits]? = some power) :
    calculateHotpFromHmac hmac digits addChecksum off =
      some (zeroPadLoop digits
        (Nat.toDigits 10
          (let truncValue := dynamicTruncate hmac (off % 2 ^ 64).toNat
           let truncData :=
            ((ByteArray.atIdx truncValue 0 &&& 0x7f) <<< 24) |||
              ((ByteArray.atIdx truncValue 1 &&& 0xff) <<< 16) |||
              ((ByteArray.atIdx truncValue 2 &&& 0xff) <<< 8) |||
              (ByteArray.atIdx truncValue 3 &&& 0xff)
           let otp := truncData % power
           if addChecksum then
             otp * 10 + calcChecksum otp (if addChecksum then digits + 1 else digits)
           else otp)) digits) := by
  have h1 : hmac.isEmpty = false := by
    cases hmac with
    | nil => exact absurd rfl hne
    | cons _ _ => rfl
  have h2 : (decide (digits < 6) || decide (digits > 8)) = false := by
    simp; omega
  have h3 : (dynamicTruncate hmac (off % 2 ^ 64).toNat).isEmpty = false := by
    rw [dynamicTruncate_eq hmac _ hne]; rfl
  unfold calculateHotpFromHmac
  simp only [h1, h2, h3, Bool.false_eq_true, if_false, hp]

theorem DIGITS_POWER_lookup (digits : Nat) (h6 : 6 ≤ digits) (h8 : digits ≤ 8) :
    DIGITS_POWER[digits]? = some (10 ^ digits) := by
  have h : digits = 6 ∨ digits = 7 ∨ digits = 8 := by omega
  rcases h with h | h | h <;> subst h <;> rfl

theorem refPaddedDecimal_length (k v : Nat) : (refPaddedDecimal k v).length = k := by
  simp [refPaddedDecimal]

theorem refPaddedDecimal_succ (k v : Nat) :
    refPaddedDecimal (k + 1) v = refPaddedDecimal k (v / 10) ++ [Nat.digitChar (v % 10)] := by
  unfold refPaddedDecimal
  rw [List.range_succ, List.map_append]
  congr 1
  · apply List.map_congr_left
    intro i hi
    have hi' : i < k := List.mem_range.mp hi
    have e : k + 1 - 1 - i = (k - 1 - i) + 1 := by omega
    rw [e, Nat.pow_succ, Nat.mul_comm, Nat.div_div_eq_div_mul]
  · simp

theorem refPaddedDecimal_zero_cons (k v : Nat) (h : v < 10 ^ k) :
    refPaddedDecimal (k + 1) v = '0' :: refPaddedDecimal k v := by
  unfold refPaddedDecimal
  rw [List.range_succ_eq_map, List.map_cons, List.map_map]
  have e : v / 10 ^ (k + 1 - 1 - 0) = 0 := by
    simp only [Nat.add_sub_cancel, Nat.sub_zero]
    exact Nat.div_eq_of_lt h
  rw [e]
  congr 1
  apply List.map_congr_left
  intro i _
  simp only [Function.comp, Nat.succ_eq_add_one]
  rw [show k + 1 - 1 - (i + 1) = k - 1 - i by omega]

theorem refPaddedDecimal_pad (j k v : Nat) (h : v < 10 ^ k) :
    refPaddedDecimal (j + k) v = List.replicate j '0' ++ refPaddedDecimal k v := by
  induction j with
  | zero => simp
  | succ j ih =>
    have h' : v < 10 ^ (j + k) :=
      Nat.lt_of_lt_of_le h (Nat.pow_le_pow_right (by decide) (Nat.le_add_left _ _))
    rw [show j + 1 + k = (j + k) + 1 by omega, refPaddedDecimal_zero_cons _ _ h', ih,
      List.replicate_succ, List.cons_append]

/-- The digits produced by `Nat.toDigitsCore` are the positional decimal digits. -/
theorem toDigitsCore_eq (fuel : Nat) :
    ∀ (n : Nat) (ds : List Char) (k : Nat), n < fuel → n < 10 ^ k → 0 < k →
      ∃ m, 0 < m ∧ m ≤ k ∧ n < 10 ^ m ∧
        Nat.toDigitsCore 10 fuel n ds = refPaddedDecimal m n ++ ds := by
  induction fuel with
  | zero => intro n ds k h; omega
  | succ fuel ih =>
    intro n ds k hf hk hpos
    rw [Nat.toDigitsCore]
    by_cases h0 : n / 10 = 0
    · refine ⟨1, by omega, by omega, by omega, ?_⟩
      simp [h0, refPaddedDecimal]
    · obtain ⟨k', rfl⟩ : ∃ k', k = k' + 1 := ⟨k - 1, by omega⟩
      have hk' : 0 < k' := by
        rcases Nat.eq_zero_or_pos k' with hz | hz
        · subst hz; simp at hk; omega
        · exact hz
      have hn' : n / 10 < 10 ^ k' := by
        rw [Nat.pow_succ] at hk
        exact Nat.div_lt_of_lt_mul (by omega)
      obtain ⟨m, hm0, hmk, hlt, e⟩ := ih (n / 10) (Nat.digitChar (n % 10) :: ds) k'
        (by omega) hn' hk'
      refine ⟨m + 1, by omega, by omega, ?_, ?_⟩
      · rw [Nat.pow_succ]; omega
      · simp only [h0, if_false, e, refPaddedDecimal_succ, List.append_assoc,
          List.singleton_append]

theorem toDigits_eq (n k : Nat) (hk : n < 10 ^ k) (hpos : 0 < k) :
    ∃ m, 0 < m ∧ m ≤ k ∧ n < 10 ^ m ∧ Nat.toDigits 10 n = refPaddedDecimal m n := by
  obtain ⟨m, h1, h2, h3, e⟩ := toDigitsCore_eq (n + 1) n [] k (by omega) hk hpos
  exact ⟨m, h1, h2, h3, by simpa [Nat.toDigits] using e⟩

theorem zeroPadLoop_eq (fuel : Nat) :
    ∀ (result : List Char) (digits : Nat), digits - result.length ≤ fuel →
      zeroPadLoop fuel result digits =
        List.replicate (digits - result.length) '0' ++ result := by
  induction fuel with
  | zero =>
    intro result digits h
    have : digits - result.length = 0 := by omega
    simp [zeroPadLoop, this]
  | succ fuel ih =>
    intro result digits h
    rw [zeroPadLoop]
    split_ifs with hlt
    · rw [ih _ _ (by simp only [List.length_cons]; omega)]
      have e : digits - result.length = (digits - ('0' :: result).length) + 1 := by
        simp only [List.length_cons]; omega
      rw [e, List.replicate_succ']
      simp
    · have : digits - result.length = 0 := by omega
      simp [this]

/-- The string built at lines 143-148 for a value below `10 ^ digits`. -/
theorem zeroPadLoop_toDigits (digits v : Nat) (hpos : 0 < digits) (hv : v < 10 ^ digits) :
    zeroPadLoop digits (Nat.toDigits 10 v) digits = refPaddedDecimal digits v := by
  obtain ⟨m, h1, h2, h3, e⟩ := toDigits_eq v digits hv hpos
  rw [zeroPadLoop_eq _ _ _ (by omega), e, refPaddedDecimal_length]
  obtain ⟨j, rfl⟩ : ∃ j, digits = j + m := ⟨digits - m, by omega⟩
  rw [Nat.add_sub_cancel, refPaddedDecimal_pad j m v h3]

theorem digitChar_decimal : ∀ d, d < 10 → '0' ≤ Nat.digitChar d ∧ Nat.digitChar d ≤ '9' := by
  decide

theorem refPaddedDecimal_chars (k v : Nat) :
    ∀ c ∈ refPaddedDecimal k v, '0' ≤ c ∧ c ≤ '9' := by
  intro c hc
  unfold refPaddedDecimal at hc
  obtain ⟨i, _, rfl⟩ := List.mem_map.mp hc
  exact digitChar_decimal _ (Nat.mod_lt _ (by decide))

/-- The value `truncData` of line 132 in arithmetic form. -/
theorem truncData_eq (b0 b1 b2 b3 : Nat) :
    ((b0 &&& 0x7f) <<< 24) ||| ((b1 &&& 0xff) <<< 16) ||| ((b2 &&& 0xff) <<< 8) |||
        (b3 &&& 0xff) =
      refBinaryCode b0 (b1 % 256) (b2 % 256) (b3 % 256) := by
  have e0 : b0 &&& 0x7f = b0 % 128 := and_mask b0 7
  have e1 : b1 &&& 0xff = b1 % 256 := and_mask b1 8
  have e2 : b2 &&& 0xff = b2 % 256 := and_mask b2 8
  have e3 : b3 &&& 0xff = b3 % 256 := and_mask b3 8
  rw [e0, e1, e2, e3]
  simp only [Nat.shiftLeft_eq]
  have h1 : b1 % 256 < 256 := Nat.mod_lt _ (by decide)
  have h2 : b2 % 256 < 256 := Nat.mod_lt _ (by decide)
  have h3 : b3 % 256 < 256 := Nat.mod_lt _ (by decide)
  have s1 : b0 % 128 * 2 ^ 24 ||| b1 % 256 * 2 ^ 16 = b0 % 128 * 2 ^ 24 + b1 % 256 * 2 ^ 16 := by
    have := Nat.mul_add_lt_is_or (i := 24) (b := b1 % 256 * 2 ^ 16) (by omega) (b0 % 128)
    rw [Nat.mul_comm (2 ^ 24)] at this
    exact this.symm
  have s2 : (b0 % 128 * 2 ^ 24 + b1 % 256 * 2 ^ 16) ||| b2 % 256 * 2 ^ 8 =
      b0 % 128 * 2 ^ 24 + b1 % 256 * 2 ^ 16 + b2 % 256 * 2 ^ 8 := by
    have := Nat.mul_add_lt_is_or (i := 16) (b := b2 % 256 * 2 ^ 8) (by omega)
      (b0 % 128 * 2 ^ 8 + b1 % 256)
    have e : 2 ^ 16 * (b0 % 128 * 2 ^ 8 + b1 % 256) =
        b0 % 128 * 2 ^ 24 + b1 % 256 * 2 ^ 16 := by ring
    rw [e] at this
    exact this.symm
  have s3 : (b0 % 128 * 2 ^ 24 + b1 % 256 * 2 ^ 16 + b2 % 256 * 2 ^ 8) ||| b3 % 256 =
      b0 % 128 * 2 ^ 24 + b1 % 256 * 2 ^ 16 + b2 % 256 * 2 ^ 8 + b3 % 256 := by
    have := Nat.mul_add_lt_is_or (i := 8) (b := b3 % 256) (by omega)
      (b0 % 128 * 2 ^ 16 + b1 % 256 * 2 ^ 8 + b2 % 256)
    have e : 2 ^ 8 * (b0 % 128 * 2 ^ 16 + b1 % 256 * 2 ^ 8 + b2 % 256) =
        b0 % 128 * 2 ^ 24 + b1 % 256 * 2 ^ 16 + b2 % 256 * 2 ^ 8 := by ring
    rw [e] at this
    exact this.symm
  rw [s1, s2, s3]
  simp [refBinaryCode]

theorem refBinaryCode_lt (b0 b1 b2 b3 : Nat) (h1 : b1 < 256) (h2 : b2 < 256) (h3 : b3 < 256) :
    refBinaryCode b0 b1 b2 b3 < 2 ^ 31 := by
  unfold refBinaryCode
  omega

theorem size_sub_four (n : Nat) (h4 : 4 ≤ n) (hn : n < 2 ^ 64) :
    (n + 2 ^ 64 - 4) % 2 ^ 64 = n - 4 := by
  omega

theorem low_nibble_le (x : Nat) : x &&& 0x0f ≤ 15 := by
  have : x &&& 0x0f = x % 16 := and_mask x 4
  omega

/-- For a digest of at least 19 bytes the four bytes read by `dynamicTruncate` lie
inside the digest. -/
theorem startOffset_in_range (hmac : List Nat) (t : Nat) (h19 : 19 ≤ hmac.length)
    (hn : hmac.length < 2 ^ 64) : startOffset hmac t + 3 < hmac.length := by
  unfold startOffset
  rw [size_sub_four _ (by omega) hn]
  split_ifs with h
  · omega
  · have := low_nibble_le (ByteArray.atIdx hmac (hmac.length - 1))
    omega

theorem doubleDigits_getD : ∀ d, d < 10 → doubleDigits.getD d 0 = refDigitSum (2 * d) := by
  decide

/-- The loop of `calcChecksum` adds, to `total`, the Luhn terms of the `n` low
digits; `doubleDigit` tells whether the first of them is doubled. -/
theorem calcChecksumLoop_eq (n : Nat) :
    ∀ (otp : Nat) (doubleDigit : Bool) (total : Nat),
      calcChecksumLoop n otp doubleDigit total =
        total + ((List.range n).map (fun j =>
          if decide (j % 2 = 0) = doubleDigit then refDigitSum (2 * (otp / 10 ^ j % 10))
          else otp / 10 ^ j % 10)).sum := by
  induction n with
  | zero => intro otp dd total; simp [calcChecksumLoop]
  | succ n ih =>
    intro otp dd total
    rw [calcChecksumLoop, ih, List.range_succ_eq_map, List.map_cons, List.sum_cons, List.map_map]
    have hshift : ∀ j, (fun j =>
        if decide (j % 2 = 0) = dd then refDigitSum (2 * (otp / 10 ^ j % 10))
        else otp / 10 ^ j % 10) (j + 1) =
        (fun j => if decide (j % 2 = 0) = !dd then refDigitSum (2 * (otp / 10 / 10 ^ j % 10))
          else otp / 10 / 10 ^ j % 10) j := by
      intro j
      have e : otp / 10 ^ (j + 1) = otp / 10 / 10 ^ j := by
        rw [Nat.pow_succ, Nat.mul_comm, Nat.div_div_eq_div_mul]
      have c : (decide ((j + 1) % 2 = 0) = dd) ↔ (decide (j % 2 = 0) = !dd) := by
        rcases Nat.mod_two_eq_zero_or_one j with h | h <;> cases dd <;>
          simp [h, Nat.add_mod]
      simp only [e]
      by_cases hc : decide ((j + 1) % 2 = 0) = dd
      · rw [if_pos hc, if_pos (c.mp hc)]
      · rw [if_neg hc, if_neg (fun h => hc (c.mpr h))]
    have hmap : (List.range n).map ((fun j =>
        if decide (j % 2 = 0) = dd then refDigitSum (2 * (otp / 10 ^ j % 10))
        else otp / 10 ^ j % 10) ∘ Nat.succ) =
        (List.range n).map (fun j =>
          if decide (j % 2 = 0) = !dd then refDigitSum (2 * (otp / 10 / 10 ^ j % 10))
          else otp / 10 / 10 ^ j % 10) := by
      apply List.map_congr_left
      intro j _
      exact hshift j
    rw [hmap]
    have h0 : (if dd = true then doubleDigits.getD (otp % 10) 0 else otp % 10) =
        (if decide (0 % 2 = 0) = dd then refDigitSum (2 * (otp / 10 ^ 0 % 10))
          else otp / 10 ^ 0 % 10) := by
      cases dd
      · simp
      · rw [if_pos rfl, doubleDigits_getD (otp % 10) (Nat.mod_lt _ (by decide))]
        simp
    simp only [h0]
    omega

theorem calcChecksum_eq (v d : Nat) : calcChecksum v d = refCheckDigit v d := by
  unfold calcChecksum refCheckDigit refLuhnSum
  rw [calcChecksumLoop_eq]
  simp only [Nat.zero_add, decide_eq_true_eq]
  split_ifs <;> omega

theorem refCheckDigit_lt (v d : Nat) : refCheckDigit v d < 10 := by
  unfold refCheckDigit
  exact Nat.mod_lt _ (by decide)

/-- The string of lines 143-148 for any value: a decimal representation of the
value, of the width of the string, ending in the last decimal digit. -/
theorem zeroPadLoop_toDigits_any (digits n : Nat) :
    zeroPadLoop digits (Nat.toDigits 10 n) digits =
        refPaddedDecimal (zeroPadLoop digits (Nat.toDigits 10 n) digits).length n ∧
      n < 10 ^ (zeroPadLoop digits (Nat.toDigits 10 n) digits).length ∧
      (zeroPadLoop digits (Nat.toDigits 10 n) digits).getLast? =
        some (Nat.digitChar (n % 10)) ∧
      digits ≤ (zeroPadLoop digits (Nat.toDigits 10 n) digits).length := by
  obtain ⟨m, h1, _, h3, e⟩ := toDigits_eq n (n + 1)
    (Nat.lt_of_lt_of_le (Nat.lt_pow_self (by decide) n)
      (Nat.pow_le_pow_right (by decide) (Nat.le_succ n))) (by omega)
  have hz := zeroPadLoop_eq digits (Nat.toDigits 10 n) digits (by omega)
  rw [e, refPaddedDecimal_length] at hz
  rw [e, hz, ← refPaddedDecimal_pad _ m n h3, refPaddedDecimal_length]
  refine ⟨rfl, ?_, ?_, by omega⟩
  · exact Nat.lt_of_lt_of_le h3 (Nat.pow_le_pow_right (by decide) (Nat.le_add_left _ _))
  · obtain ⟨m', rfl⟩ : ∃ m', m = m' + 1 := ⟨m - 1, by omega⟩
    rw [← Nat.add_assoc, refPaddedDecimal_succ]
    simp

theorem truncData_unfold (hmac : List Nat) (t : Nat) :
    ((ByteArray.atIdx (dynamicTruncate hmac t) 0 &&& 0x7f) <<< 24) |||
        ((ByteArray.atIdx (dynamicTruncate hmac t) 1 &&& 0xff) <<< 16) |||
        ((ByteArray.atIdx (dynamicTruncate hmac t) 2 &&& 0xff) <<< 8) |||
        (ByteArray.atIdx (dynamicTruncate hmac t) 3 &&& 0xff) =
      truncData (dynamicTruncate hmac t) := rfl

/-- C11. `Hotp::calculate` returns the empty string whenever the key is empty, or
no `Hmac` object is set, or `digits` is outside `[6, 8]`, for every counter,
checksum flag and truncation offset; conversely, with a non-empty key, `digits`
in `[6, 8]`, no checksum and an HMAC engine whose hash primitive has non-empty
digests (as the SHA-1 primitive has) the result is a non-empty string. -/
theorem calculate_empty_on_invalid_input :
    (∀ (self : Hotp) (key : List Nat) (counter digits : Nat) (addChecksum : Bool) (off : Int),
        key = [] ∨ self.mHmacToUse = none ∨ digits < 6 ∨ 8 < digits →
        calculate self key counter digits addChecksum off = some []) ∧
      (∀ (h : HashTypeBase) (key : List Nat) (counter digits : Nat) (off : Int),
        (∀ x, h.hash x ≠ []) → key ≠ [] → 6 ≤ digits → digits ≤ 8 →
        ∃ s, calculate ⟨some ⟨some h⟩⟩ key counter digits false off = some s ∧ s ≠ []) ∧
      (∀ x, Sha1Hash.sha1HashType.hash x ≠ []) := by
  refine ⟨?_, ?_, ?_⟩
  · intro self key counter digits addChecksum off h
    unfold calculate
    by_cases hk : key = []
    · subst hk; rfl
    · have hk' : key.isEmpty = false := by
        cases key with
        | nil => exact absurd rfl hk
        | cons _ _ => rfl
      simp only [hk', Bool.false_eq_true, if_false]
      cases hm : self.mHmacToUse with
      | none => rfl
      | some hmac =>
        have hd : (decide (digits < 6) || decide (digits > 8)) = true := by
          rcases h with h | h | h | h
          · exact absurd h hk
          · rw [hm] at h; cases h
          · simp [h]
          · simp [h]
        simp only [hd, if_true]
  · intro h key counter digits off hh hk h6 h8
    have hk' : key.isEmpty = false := by
      cases key with
      | nil => exact absurd rfl hk
      | cons _ _ => rfl
    have hd : (decide (digits < 6) || decide (digits > 8)) = false := by
      simp; omega
    have hnum : numberLoop counter 8 7 [] ≠ [] := by simp [numberLoop]
    obtain ⟨x, hx⟩ := Hmac.calculate_some h key (numberLoop counter 8 7 []) hk hnum
    have hne : (h.hash x).isEmpty = false := by
      cases hc : h.hash x with
      | nil => exact absurd hc (hh x)
      | cons _ _ => rfl
    unfold calculate
    simp only [hk', Bool.false_eq_true, if_false, hd, hx, hne]
    rw [calculateHotpFromHmac_eq _ _ false _ _ (hh x) h6 h8
      (by simpa using DIGITS_POWER_lookup digits h6 h8)]
    exact ⟨_, rfl, zeroPadLoop_ne_nil _ _ _ (toDigits_ne_nil _)⟩
  · intro x h
    have := Sha1Hash.hash_length x
    rw [show Sha1Hash.sha1HashType.hash x = Sha1Hash.hash x from rfl] at h
    rw [h] at this
    simp at this

/-- Witness of C11: an empty key, and the key "1" with the SHA-1 engine. -/
theorem calculate_empty_on_invalid_input_witness :
    calculate ⟨some ⟨some Sha1Hash.sha1HashType⟩⟩ [] 0 6 false (-1) = some [] ∧
      ∃ s, calculate ⟨some ⟨some Sha1Hash.sha1HashType⟩⟩ [49] 0 6 false (-1) = some s ∧
        s ≠ [] :=
  ⟨calculate_empty_on_invalid_input.1 ⟨some ⟨some Sha1Hash.sha1HashType⟩⟩ [] 0 6 false (-1)
      (Or.inl rfl),
    calculate_empty_on_invalid_input.2.1 Sha1Hash.sha1HashType [49] 0 6 (-1)
      calculate_empty_on_invalid_input.2.2 (by decide) (by decide) (by decide)⟩

/-- C12 (evaluation of the code). With an `Hmac` that has no hash primitive
configured, the key "1", counter 0 and 6 digits, `Hmac::calculate` returns its
null result and `Hotp::calculate` goes on to call `toCharArrayPtr()` through
that null pointer: the outcome is undefined behaviour (`none`), not the empty
string. -/
theorem calculate_dereferences_null_hmac_result :
    Hmac.calculate ⟨none⟩ [49] (numberLoop 0 8 7 []) = none ∧
      calculate ⟨some ⟨none⟩⟩ [49] 0 6 false (-1) = none ∧
      calculate ⟨some ⟨none⟩⟩ [49] 0 6 false (-1) ≠ some [] := by
  decide

theorem atIdx_lt (b : List Nat) (hb : Bytes b) (i : Nat) : ByteArray.atIdx b i < 256 := by
  unfold ByteArray.atIdx
  by_cases h : i < b.length
  · rw [List.getD_eq_getElem _ _ h]
    exact hb _ (List.getElem_mem h)
  · rw [List.getD_eq_default _ _ (by omega)]
    decide

/-- The value `otp` before formatting, without checksum, for a byte digest of at
least 19 bytes: the reference binary code of the four bytes at the start offset,
reduced modulo `power`. -/
theorem truncated_value_eq (hmac : List Nat) (t : Nat) (hb : Bytes hmac)
    (h19 : 19 ≤ hmac.length) (hn : hmac.length < 2 ^ 64) :
    ((ByteArray.atIdx (dynamicTruncate hmac t) 0 &&& 0x7f) <<< 24) |||
        ((ByteArray.atIdx (dynamicTruncate hmac t) 1 &&& 0xff) <<< 16) |||
        ((ByteArray.atIdx (dynamicTruncate hmac t) 2 &&& 0xff) <<< 8) |||
        (ByteArray.atIdx (dynamicTruncate hmac t) 3 &&& 0xff) =
      refBinaryCode (ByteArray.atIdx hmac (startOffset hmac t))
        (ByteArray.atIdx hmac (startOffset hmac t + 1))
        (ByteArray.atIdx hmac (startOffset hmac t + 2))
        (ByteArray.atIdx hmac (startOffset hmac t + 3)) := by
  have hne : hmac ≠ [] := by
    intro h; rw [h] at h19; simp at h19
  have hr := startOffset_in_range hmac t h19 hn
  have m0 : (startOffset hmac t + 0) % 2 ^ 64 = startOffset hmac t := by
    rw [Nat.add_zero]
    exact Nat.mod_eq_of_lt (by omega)
  have m1 : (startOffset hmac t + 1) % 2 ^ 64 = startOffset hmac t + 1 :=
    Nat.mod_eq_of_lt (by omega)
  have m2 : (startOffset hmac t + 2) % 2 ^ 64 = startOffset hmac t + 2 :=
    Nat.mod_eq_of_lt (by omega)
  have m3 : (startOffset hmac t + 3) % 2 ^ 64 = startOffset hmac t + 3 :=
    Nat.mod_eq_of_lt (by omega)
  rw [dynamicTruncate_eq hmac t hne, m0, m1, m2, m3, truncData_eq]
  have e0 : ∀ a b c d : Nat, ByteArray.atIdx [a, b, c, d] 0 = a := fun _ _ _ _ => rfl
  have e1 : ∀ a b c d : Nat, ByteArray.atIdx [a, b, c, d] 1 = b := fun _ _ _ _ => rfl
  have e2 : ∀ a b c d : Nat, ByteArray.atIdx [a, b, c, d] 2 = c := fun _ _ _ _ => rfl
  have e3 : ∀ a b c d : Nat, ByteArray.atIdx [a, b, c, d] 3 = d := fun _ _ _ _ => rfl
  rw [e0, e1, e2, e3, Nat.mod_eq_of_lt (atIdx_lt hmac hb _), Nat.mod_eq_of_lt (atIdx_lt hmac hb _),
    Nat.mod_eq_of_lt (atIdx_lt hmac hb _)]

/-- C13. For every byte digest of at least 20 bytes and every `digits` in `[6, 8]`,
`calculateHotpFromHmac` without checksum returns the decimal representation,
left-padded with `'0'` to exactly `digits` characters, of `P mod 10 ^ digits`,
where `P` is the 31-bit big-endian integer formed from the four digest bytes at
the start offset (which lie inside the digest) with the top bit of the first
byte cleared; the result has `digits` characters, all in `'0'..'9'`. -/
theorem calculateHotpFromHmac_padded_decimal (hmac : List Nat) (digits : Nat) (off : Int)
    (hb : Bytes hmac) (h20 : 20 ≤ hmac.length) (hn : hmac.length < 2 ^ 64)
    (h6 : 6 ≤ digits) (h8 : digits ≤ 8) :
    startOffset hmac (off % 2 ^ 64).toNat + 3 < hmac.length ∧
      refBinaryCode (hmac.getD (startOffset hmac (off % 2 ^ 64).toNat) 0)
          (hmac.getD (startOffset hmac (off % 2 ^ 64).toNat + 1) 0)
          (hmac.getD (startOffset hmac (off % 2 ^ 64).toNat + 2) 0)
          (hmac.getD (startOffset hmac (off % 2 ^ 64).toNat + 3) 0) < 2 ^ 31 ∧
      calculateHotpFromHmac hmac digits false off =
        some (refPaddedDecimal digits
          (refBinaryCode (hmac.getD (startOffset hmac (off % 2 ^ 64).toNat) 0)
              (hmac.getD (startOffset hmac (off % 2 ^ 64).toNat + 1) 0)
              (hmac.getD (startOffset hmac (off % 2 ^ 64).toNat + 2) 0)
              (hmac.getD (startOffset hmac (off % 2 ^ 64).toNat + 3) 0) % 10 ^ digits)) ∧
      ∀ s, calculateHotpFromHmac hmac digits false off = some s →
        s.length = digits ∧ ∀ c ∈ s, '0' ≤ c ∧ c ≤ '9' := by
  have hne : hmac ≠ [] := by
    intro h; rw [h] at h20; simp at h20
  have hr := startOffset_in_range hmac (off % 2 ^ 64).toNat (by omega) hn
  have hlt := refBinaryCode_lt (hmac.getD (startOffset hmac (off % 2 ^ 64).toNat) 0)
    _ _ _ (atIdx_lt hmac hb (startOffset hmac (off % 2 ^ 64).toNat + 1))
    (atIdx_lt hmac hb (startOffset hmac (off % 2 ^ 64).toNat + 2))
    (atIdx_lt hmac hb (startOffset hmac (off % 2 ^ 64).toNat + 3))
  have hval : calculateHotpFromHmac hmac digits false off =
      some (refPaddedDecimal digits
        (refBinaryCode (hmac.getD (startOffset hmac (off % 2 ^ 64).toNat) 0)
            (hmac.getD (startOffset hmac (off % 2 ^ 64).toNat + 1) 0)
            (hmac.getD (startOffset hmac (off % 2 ^ 64).toNat + 2) 0)
            (hmac.getD (startOffset hmac (off % 2 ^ 64).toNat + 3) 0) % 10 ^ digits)) := by
    rw [calculateHotpFromHmac_eq hmac digits false off (10 ^ digits) hne h6 h8
      (by simpa using DIGITS_POWER_lookup digits h6 h8)]
    simp only [Bool.false_eq_true, if_false]
    rw [truncated_value_eq hmac _ hb (by omega) hn,
      zeroPadLoop_toDigits digits _ (by omega) (Nat.mod_lt _ (Nat.pos_pow_of_pos _ (by decide)))]
    rfl
  refine ⟨hr, hlt, hval, ?_⟩
  intro s hs
  rw [hval] at hs
  cases hs
  exact ⟨refPaddedDecimal_length _ _, refPaddedDecimal_chars _ _⟩

/-- Witness of C13: the RFC 2202 digest `b617...be00`, 6 digits, dynamic truncation. -/
theorem calculateHotpFromHmac_padded_decimal_witness :
    ∃ s, calculateHotpFromHmac
        [0xb6, 0x17, 0x31, 0x86, 0x55, 0x05, 0x72, 0x64, 0xe2, 0x8b, 0xc0, 0xb6, 0xfb, 0x37,
          0x8c, 0x8e, 0xf1, 0x46, 0xbe, 0x00] 6 false (-1) = some s ∧
      s.length = 6 ∧ ∀ c ∈ s, '0' ≤ c ∧ c ≤ '9' :=
  ⟨_, (calculateHotpFromHmac_padded_decimal
    [0xb6, 0x17, 0x31, 0x86, 0x55, 0x05, 0x72, 0x64, 0xe2, 0x8b, 0xc0, 0xb6, 0xfb, 0x37,
      0x8c, 0x8e, 0xf1, 0x46, 0xbe, 0x00] 6 (-1) (by decide) (by decide) (by decide)
    (by decide) (by decide)).2.2.1, refPaddedDecimal_length _ _, refPaddedDecimal_chars _ _⟩

/-- C14 as stated fails: for the 20-byte RFC 2202 digest `b617...be00` the offset
`16 = 20 - 4` is not used; the test `truncateOffset < hmac.size() - 4` is strict,
so the four bytes start at the low four bits of the last byte, here 0. -/
theorem dynamicTruncate_ignores_last_offset :
    (16 : Nat) ≤
        [0xb6, 0x17, 0x31, 0x86, 0x55, 0x05, 0x72, 0x64, 0xe2, 0x8b, 0xc0, 0xb6, 0xfb, 0x37,
          0x8c, 0x8e, 0xf1, 0x46, 0xbe, 0x00].length - 4 ∧
      dynamicTruncate
        [0xb6, 0x17, 0x31, 0x86, 0x55, 0x05, 0x72, 0x64, 0xe2, 0x8b, 0xc0, 0xb6, 0xfb, 0x37,
          0x8c, 0x8e, 0xf1, 0x46, 0xbe, 0x00] 16 = [0xb6, 0x17, 0x31, 0x86] ∧
      dynamicTruncate
        [0xb6, 0x17, 0x31, 0x86, 0x55, 0x05, 0x72, 0x64, 0xe2, 0x8b, 0xc0, 0xb6, 0xfb, 0x37,
          0x8c, 0x8e, 0xf1, 0x46, 0xbe, 0x00] 16 ≠ [0xf1, 0x46, 0xbe, 0x00] := by
  decide

/-- The two branches of lines 210-216 for a digest of at least four bytes. -/
theorem dynamicTruncate_cases (hmac : List Nat) (truncateOffset : Nat)
    (h4 : 4 ≤ hmac.length) (hn : hmac.length < 2 ^ 64) :
    (truncateOffset < hmac.length - 4 →
        dynamicTruncate hmac truncateOffset =
          (List.range 4).map (fun i => ByteArray.atIdx hmac (truncateOffset + i))) ∧
      (hmac.length - 4 ≤ truncateOffset →
        dynamicTruncate hmac truncateOffset =
          (List.range 4).map (fun i =>
            ByteArray.atIdx hmac ((ByteArray.atIdx hmac (hmac.length - 1) &&& 0x0f) + i))) := by
  have hne : hmac ≠ [] := by
    intro h; rw [h] at h4; simp at h4
  have hr : List.range 4 = [0, 1, 2, 3] := by decide
  have hs := size_sub_four _ h4 hn
  constructor
  · intro ht
    have e : startOffset hmac truncateOffset = truncateOffset := by
      unfold startOffset; rw [hs, if_pos ht]
    rw [dynamicTruncate_eq hmac _ hne, e, hr]
    simp only [List.map_cons, List.map_nil, Nat.add_zero]
    rw [Nat.mod_eq_of_lt (by omega : truncateOffset < 2 ^ 64),
      Nat.mod_eq_of_lt (by omega : truncateOffset + 1 < 2 ^ 64),
      Nat.mod_eq_of_lt (by omega : truncateOffset + 2 < 2 ^ 64),
      Nat.mod_eq_of_lt (by omega : truncateOffset + 3 < 2 ^ 64)]
  · intro ht
    have e : startOffset hmac truncateOffset =
        ByteArray.atIdx hmac (hmac.length - 1) &&& 0x0f := by
      unfold startOffset; rw [hs, if_neg (by omega)]
    have hl := low_nibble_le (ByteArray.atIdx hmac (hmac.length - 1))
    rw [dynamicTruncate_eq hmac _ hne, e, hr]
    simp only [List.map_cons, List.map_nil, Nat.add_zero]
    rw [Nat.mod_eq_of_lt (by omega : ByteArray.atIdx hmac (hmac.length - 1) &&& 0x0f < 2 ^ 64),
      Nat.mod_eq_of_lt (by omega : (ByteArray.atIdx hmac (hmac.length - 1) &&& 0x0f) + 1 < 2 ^ 64),
      Nat.mod_eq_of_lt (by omega : (ByteArray.atIdx hmac (hmac.length - 1) &&& 0x0f) + 2 < 2 ^ 64),
      Nat.mod_eq_of_lt (by omega : (ByteArray.atIdx hmac (hmac.length - 1) &&& 0x0f) + 3 < 2 ^ 64)]

/-- C14 as amended. For every digest of length `L` with `4 ≤ L` and every
`truncateOffset` strictly below `L - 4`, `dynamicTruncate` returns the four bytes
that start at `truncateOffset`; for every other offset, `L - 4` included, it
returns the four bytes (zero beyond the end) that start at the low four bits of
the last byte of the digest. -/
theorem dynamicTruncate_start (hmac : List Nat) (truncateOffset : Nat)
    (h4 : 4 ≤ hmac.length) (hn : hmac.length < 2 ^ 64) :
    (truncateOffset < hmac.length - 4 →
        dynamicTruncate hmac truncateOffset =
          (List.range 4).map (fun i => ByteArray.atIdx hmac (truncateOffset + i))) ∧
      (hmac.length - 4 ≤ truncateOffset →
        dynamicTruncate hmac truncateOffset =
          (List.range 4).map (fun i =>
            ByteArray.atIdx hmac ((ByteArray.atIdx hmac (hmac.length - 1) &&& 0x0f) + i))) :=
  dynamicTruncate_cases hmac truncateOffset h4 hn

/-- Witness of C14 (amended) on the RFC 2202 digest `b617...be00`: offset 15 is
used, offset 16 falls back to the low four bits of the last byte. -/
theorem dynamicTruncate_start_witness :
    dynamicTruncate
        [0xb6, 0x17, 0x31, 0x86, 0x55, 0x05, 0x72, 0x64, 0xe2, 0x8b, 0xc0, 0xb6, 0xfb, 0x37,
          0x8c, 0x8e, 0xf1, 0x46, 0xbe, 0x00] 15 =
      (List.range 4).map (fun i => ByteArray.atIdx
        [0xb6, 0x17, 0x31, 0x86, 0x55, 0x05, 0x72, 0x64, 0xe2, 0x8b, 0xc0, 0xb6, 0xfb, 0x37,
          0x8c, 0x8e, 0xf1, 0x46, 0xbe, 0x00] (15 + i)) :=
  (dynamicTruncate_start
    [0xb6, 0x17, 0x31, 0x86, 0x55, 0x05, 0x72, 0x64, 0xe2, 0x8b, 0xc0, 0xb6, 0xfb, 0x37,
      0x8c, 0x8e, 0xf1, 0x46, 0xbe, 0x00] 15 (by decide) (by decide)).1 (by decide)

theorem startOffset_low_nibble (hmac : List Nat) :
    startOffset hmac (ByteArray.atIdx hmac (hmac.length - 1) &&& 0x0f) =
      ByteArray.atIdx hmac (hmac.length - 1) &&& 0x0f := by
  unfold startOffset
  split_ifs <;> rfl

theorem dynamicTruncate_congr (hmac : List Nat) (a b : Nat)
    (h : startOffset hmac a = startOffset hmac b) :
    dynamicTruncate hmac a = dynamicTruncate hmac b := by
  cases hmac with
  | nil => rfl
  | cons x xs =>
    rw [dynamicTruncate_eq _ a (List.cons_ne_nil _ _), dynamicTruncate_eq _ b (List.cons_ne_nil _ _),
      h]

/-- C15. For every negative `int` value of `truncationOffset` and every digest of
length at least 4, the conversion to `size_t` gives a value that is not below
`hmac.size() - 4`, so `dynamicTruncate` starts at the low four bits of the last
byte of the digest, and `calculateHotpFromHmac` returns the same code as for
that offset given explicitly: the code computed from the four bytes that start
at that offset, the padded decimal of their 31-bit value modulo `10 ^ digits`
without checksum, the value modulo `10 ^ (digits + 1)` followed by its check
digit with checksum. -/
theorem calculateHotpFromHmac_negative_offset (hmac : List Nat) (digits : Nat)
    (addChecksum : Bool) (truncationOffset : Int) (hneg : truncationOffset < 0)
    (hint : -2 ^ 31 ≤ truncationOffset) (h4 : 4 ≤ hmac.length) (hn : hmac.length < 2 ^ 63) :
    startOffset hmac (truncationOffset % 2 ^ 64).toNat =
        ByteArray.atIdx hmac (hmac.length - 1) &&& 0x0f ∧
      dynamicTruncate hmac (truncationOffset % 2 ^ 64).toNat =
        (List.range 4).map (fun i =>
          ByteArray.atIdx hmac ((ByteArray.atIdx hmac (hmac.length - 1) &&& 0x0f) + i)) ∧
      calculateHotpFromHmac hmac digits addChecksum truncationOffset =
        calculateHotpFromHmac hmac digits addChecksum
          ((ByteArray.atIdx hmac (hmac.length - 1) &&& 0x0f : Nat) : Int) ∧
      (6 ≤ digits → digits ≤ 8 →
        calculateHotpFromHmac hmac digits false truncationOffset =
          some (refPaddedDecimal digits
            (truncData ((List.range 4).map (fun i =>
              ByteArray.atIdx hmac ((ByteArray.atIdx hmac (hmac.length - 1) &&& 0x0f) + i))) %
                10 ^ digits))) ∧
      (6 ≤ digits → digits ≤ 7 →
        calculateHotpFromHmac hmac digits true truncationOffset =
          some (zeroPadLoop digits
            (Nat.toDigits 10
              (truncData ((List.range 4).map (fun i =>
                  ByteArray.atIdx hmac
                    ((ByteArray.atIdx hmac (hmac.length - 1) &&& 0x0f) + i))) %
                  10 ^ (digits + 1) * 10 +
                calcChecksum
                  (truncData ((List.range 4).map (fun i =>
                    ByteArray.atIdx hmac
                      ((ByteArray.atIdx hmac (hmac.length - 1) &&& 0x0f) + i))) %
                    10 ^ (digits + 1))
                  (digits + 1))) digits)) := by
  have hn' : hmac.length < 2 ^ 64 := by omega
  have hs := size_sub_four _ h4 hn'
  have hbig : hmac.length - 4 ≤ (truncationOffset % 2 ^ 64).toNat := by omega
  have e1 : startOffset hmac (truncationOffset % 2 ^ 64).toNat =
      ByteArray.atIdx hmac (hmac.length - 1) &&& 0x0f := by
    unfold startOffset; rw [hs, if_neg (by omega)]
  have hl := low_nibble_le (ByteArray.atIdx hmac (hmac.length - 1))
  have e2 : (((ByteArray.atIdx hmac (hmac.length - 1) &&& 0x0f : Nat) : Int) % 2 ^ 64).toNat =
      ByteArray.atIdx hmac (hmac.length - 1) &&& 0x0f := by omega
  have e3 := dynamicTruncate_congr hmac (truncationOffset % 2 ^ 64).toNat
    (ByteArray.atIdx hmac (hmac.length - 1) &&& 0x0f)
    (by rw [e1, startOffset_low_nibble hmac])
  have e4 := (dynamicTruncate_cases hmac _ h4 hn').2 hbig
  have hne : hmac ≠ [] := by
    intro h; rw [h] at h4; simp at h4
  refine ⟨e1, e4, ?_, ?_, ?_⟩
  · unfold calculateHotpFromHmac
    rw [e2, e3]
  · intro h6 h8
    rw [calculateHotpFromHmac_eq hmac digits false truncationOffset (10 ^ digits) hne h6 h8
      (by simpa using DIGITS_POWER_lookup digits h6 h8)]
    simp only [Bool.false_eq_true, if_false, truncData_unfold]
    rw [e4, zeroPadLoop_toDigits digits _ (by omega)
      (Nat.mod_lt _ (Nat.pos_pow_of_pos _ (by decide)))]
  · intro h6 h7
    rw [calculateHotpFromHmac_eq hmac digits true truncationOffset (10 ^ (digits + 1)) hne h6
      (by omega) (by simpa using DIGITS_POWER_lookup (digits + 1) (by omega) (by omega))]
    simp only [if_true, truncData_unfold]
    rw [e4]

/-- Witness of C15 on the RFC 4226 digest `1f86...555a` with offset `-1`: the last
byte `0x5a` gives the start offset 10, the bytes `50 ef 7f 19` and the code
"872921" (the bytes at offset 0 would give "914537"). -/
theorem calculateHotpFromHmac_negative_offset_witness :
    calculateHotpFromHmac
        [0x1f, 0x86, 0x98, 0x69, 0x0e, 0x02, 0xca, 0x16, 0x61, 0x85, 0x50, 0xef, 0x7f, 0x19,
          0xda, 0x8e, 0x94, 0x5b, 0x55, 0x5a] 6 false (-1) = some "872921".toList :=
  ((calculateHotpFromHmac_negative_offset
    [0x1f, 0x86, 0x98, 0x69, 0x0e, 0x02, 0xca, 0x16, 0x61, 0x85, 0x50, 0xef, 0x7f, 0x19,
      0xda, 0x8e, 0x94, 0x5b, 0x55, 0x5a] 6 false (-1) (by decide) (by decide) (by decide)
    (by decide)).2.2.2.1 (by decide) (by decide)).trans (by decide)

/-- C16 (evaluation of the code). The table `DIGITS_POWER` has nine entries, so for
`digits = 8` with a checksum the read `DIGITS_POWER[digits + 1]` is beyond its
end: on the RFC 2202 digest `b617...be00` the call has undefined behaviour
(`none`) instead of reducing modulo `10 ^ 9`; without checksum the read
`DIGITS_POWER[8]` is in range and yields `10 ^ 8`. -/
theorem calculateHotpFromHmac_checksum_eight_digits :
    DIGITS_POWER.length = 9 ∧ DIGITS_POWER[8 + 1]? = none ∧
      calculateHotpFromHmac
        [0xb6, 0x17, 0x31, 0x86, 0x55, 0x05, 0x72, 0x64, 0xe2, 0x8b, 0xc0, 0xb6, 0xfb, 0x37,
          0x8c, 0x8e, 0xf1, 0x46, 0xbe, 0x00] 8 true (-1) = none ∧
      DIGITS_POWER[8]? = some (10 ^ 8) := by
  decide

theorem calculateHotpFromHmac_checksum (hmac : List Nat) (digits : Nat) (off : Int)
    (hne : hmac ≠ []) (h6 : 6 ≤ digits) (h7 : digits ≤ 7) :
    calculateHotpFromHmac hmac digits true off =
      some (zeroPadLoop digits
        (Nat.toDigits 10
          (truncData (dynamicTruncate hmac (off % 2 ^ 64).toNat) % 10 ^ (digits + 1) * 10 +
            calcChecksum
              (truncData (dynamicTruncate hmac (off % 2 ^ 64).toNat) % 10 ^ (digits + 1))
              (digits + 1))) digits) := by
  rw [calculateHotpFromHmac_eq hmac digits true off (10 ^ (digits + 1)) hne h6 (by omega)
    (by simpa using DIGITS_POWER_lookup (digits + 1) (by omega) (by omega))]
  simp only [if_true, truncData_unfold]

theorem calculateHotpFromHmac_checksum_eight (hmac : List Nat) (off : Int) (hne : hmac ≠ []) :
    calculateHotpFromHmac hmac 8 true off = none := by
  have h1 : hmac.isEmpty = false := by
    cases hmac with
    | nil => exact absurd rfl hne
    | cons _ _ => rfl
  have h3 : (dynamicTruncate hmac (off % 2 ^ 64).toNat).isEmpty = false := by
    rw [dynamicTruncate_eq hmac _ hne]; rfl
  have h4 : DIGITS_POWER[8 + 1]? = none := by decide
  unfold calculateHotpFromHmac
  simp only [h1, h3, Bool.false_eq_true, if_false, if_true, h4]
  rfl

/-- C17. `calcChecksum v d` is the Luhn-style check digit `(10 - s mod 10) mod 10`
of the Luhn sum `s` over the `d` low decimal digits of `v` (digit-sum of twice
the digit at the odd positions from the right, the digit itself at the even
ones) and lies in `0..9`.  When a checksum is requested, every code returned by
`calculateHotpFromHmac` for a non-empty digest ends in the check digit of the
reduced value `v` and is a decimal representation of `v * 10 + check digit`;
such a code is returned for `digits` 6 and 7. -/
theorem calcChecksum_is_luhn_check_digit (hmac : List Nat) (digits : Nat) (off : Int)
    (hne : hmac ≠ []) (h6 : 6 ≤ digits) (h8 : digits ≤ 8) :
    (∀ v d, calcChecksum v d = refCheckDigit v d ∧ calcChecksum v d < 10) ∧
      (∀ code, calculateHotpFromHmac hmac digits true off = some code →
        code.getLast? = some (Nat.digitChar (calcChecksum
          (truncData (dynamicTruncate hmac (off % 2 ^ 64).toNat) % 10 ^ (digits + 1))
          (digits + 1))) ∧
        code = refPaddedDecimal code.length
          (truncData (dynamicTruncate hmac (off % 2 ^ 64).toNat) % 10 ^ (digits + 1) * 10 +
            calcChecksum
              (truncData (dynamicTruncate hmac (off % 2 ^ 64).toNat) % 10 ^ (digits + 1))
              (digits + 1)) ∧
        truncData (dynamicTruncate hmac (off % 2 ^ 64).toNat) % 10 ^ (digits + 1) * 10 +
            calcChecksum
              (truncData (dynamicTruncate hmac (off % 2 ^ 64).toNat) % 10 ^ (digits + 1))
              (digits + 1) < 10 ^ code.length) ∧
      (digits ≤ 7 → (calculateHotpFromHmac hmac digits true off).isSome = true) := by
  have hlt : ∀ v d, calcChecksum v d < 10 := fun v d => by
    rw [calcChecksum_eq]; exact refCheckDigit_lt v d
  refine ⟨fun v d => ⟨calcChecksum_eq v d, hlt v d⟩, ?_, ?_⟩
  · intro code hcode
    by_cases h7 : digits ≤ 7
    · rw [calculateHotpFromHmac_checksum hmac digits off hne h6 h7] at hcode
      cases hcode
      obtain ⟨e1, e2, e3, _⟩ := zeroPadLoop_toDigits_any digits
        (truncData (dynamicTruncate hmac (off % 2 ^ 64).toNat) % 10 ^ (digits + 1) * 10 +
          calcChecksum
            (truncData (dynamicTruncate hmac (off % 2 ^ 64).toNat) % 10 ^ (digits + 1))
            (digits + 1))
      refine ⟨?_, e1, e2⟩
      rw [e3]
      have := hlt (truncData (dynamicTruncate hmac (off % 2 ^ 64).toNat) % 10 ^ (digits + 1))
        (digits + 1)
      congr 2
      omega
    · have h : digits = 8 := by omega
      subst h
      rw [calculateHotpFromHmac_checksum_eight hmac off hne] at hcode
      cases hcode
  · intro h7
    rw [calculateHotpFromHmac_checksum hmac digits off hne h6 h7]
    rfl

/-- Witness of C17 on the RFC 2202 digest `b617...be00` with 6 digits. -/
theorem calcChecksum_is_luhn_check_digit_witness :
    (calculateHotpFromHmac
      [0xb6, 0x17, 0x31, 0x86, 0x55, 0x05, 0x72, 0x64, 0xe2, 0x8b, 0xc0, 0xb6, 0xfb, 0x37,
        0x8c, 0x8e, 0xf1, 0x46, 0xbe, 0x00] 6 true (-1)).isSome = true :=
  (calcChecksum_is_luhn_check_digit
    [0xb6, 0x17, 0x31, 0x86, 0x55, 0x05, 0x72, 0x64, 0xe2, 0x8b, 0xc0, 0xb6, 0xfb, 0x37,
      0x8c, 0x8e, 0xf1, 0x46, 0xbe, 0x00] 6 (-1) (by decide) (by decide) (by decide)).2.2
    (by decide)

theorem numberLoop_eq (counter : Nat) : numberLoop counter 8 7 [] = refCounterBytes counter := by
  simp [numberLoop, refCounterBytes, List.range_succ]

theorem refCounterBytes_eq (counter : Nat) :
    refCounterBytes counter =
      [counter / 2 ^ 56 % 256, counter / 2 ^ 48 % 256, counter / 2 ^ 40 % 256,
        counter / 2 ^ 32 % 256, counter / 2 ^ 24 % 256, counter / 2 ^ 16 % 256,
        counter / 2 ^ 8 % 256, counter % 256] := by
  have hm : ∀ x, x &&& 0xff = x % 256 := fun x => and_mask x 8
  simp [refCounterBytes, List.range_succ, hm, Nat.shiftRight_eq_div_pow]

theorem refCounterBytes_sum (counter : Nat) (hc : counter < 2 ^ 64) :
    ((List.range 8).map
      (fun i => (refCounterBytes counter).getD i 0 * 256 ^ (7 - i))).sum = counter := by
  rw [refCounterBytes_eq]
  simp [List.range_succ]
  omega

theorem calculateHotpFromHmac_nil (digits : Nat) (addChecksum : Bool) (off : Int) :
    calculateHotpFromHmac [] digits addChecksum off = some [] := rfl

/-- C18. For every 64-bit counter, `Hotp::calculate` (non-empty key, `digits` in
`[6, 8]`, an `Hmac` with a hash primitive) builds as the message exactly the
8-byte big-endian encoding of the counter, byte `i` being
`(counter >> (8 * (7 - i))) & 0xff`, from which the counter is recovered as the
sum of `byte_i * 256 ^ (7 - i)`; it calls `Hmac::calculate` with the caller's key
and that message and returns `calculateHotpFromHmac` of the HMAC result. -/
theorem calculate_hashes_big_endian_counter (h : HashTypeBase) (key : List Nat)
    (counter digits : Nat) (addChecksum : Bool) (off : Int) (hk : key ≠ [])
    (h6 : 6 ≤ digits) (h8 : digits ≤ 8) (hc : counter < 2 ^ 64) :
    numberLoop counter 8 7 [] = refCounterBytes counter ∧
      ((List.range 8).map
        (fun i => (refCounterBytes counter).getD i 0 * 256 ^ (7 - i))).sum = counter ∧
      ∃ r, Hmac.calculate ⟨some h⟩ key (refCounterBytes counter) = some r ∧
        calculate ⟨some ⟨some h⟩⟩ key counter digits addChecksum off =
          calculateHotpFromHmac r digits addChecksum off := by
  refine ⟨numberLoop_eq counter, refCounterBytes_sum counter hc, ?_⟩
  have hk' : key.isEmpty = false := by
    cases key with
    | nil => exact absurd rfl hk
    | cons _ _ => rfl
  have hd : (decide (digits < 6) || decide (digits > 8)) = false := by
    simp; omega
  have hnum : refCounterBytes counter ≠ [] := by
    rw [refCounterBytes_eq]; exact List.cons_ne_nil _ _
  obtain ⟨x, hx⟩ := Hmac.calculate_some h key (refCounterBytes counter) hk hnum
  refine ⟨h.hash x, hx, ?_⟩
  unfold calculate
  simp only [hk', Bool.false_eq_true, if_false, hd, numberLoop_eq, hx]
  cases hr : h.hash x with
  | nil => rfl
  | cons _ _ => rfl

/-- Witness of C18 with the SHA-1 primitive, the key "1" and counter 1. -/
theorem calculate_hashes_big_endian_counter_witness :
    numberLoop 1 8 7 [] = refCounterBytes 1 :=
  (calculate_hashes_big_endian_counter Sha1Hash.sha1HashType [49] 1 6 false (-1) (by decide)
    (by decide) (by decide) (by decide)).1

end Hotp

namespace Totp

/-- The embedding of `Totp::calculate` delegates to `Hotp::calculate` with the counter
`calcTime`, whenever `timeStep` is not zero. -/
theorem calculate_eq_hotp (self : Totp) (key : List Nat) (utcTime : Int)
    (timeStep digits initialCounter : Nat) (hstep : 0 < timeStep) :
    calculate self key utcTime timeStep digits initialCounter =
      Hotp.calculate ⟨self.mHmacToUse⟩ key (calcTime utcTime timeStep initialCounter) digits
        Hotp.defaultAddChecksum Hotp.defaultTruncationOffset := by
  unfold calculate
  cases hm : self.mHmacToUse with
  | none =>
    simp only [Hotp.calculate]
    split_ifs <;> rfl
  | some hmac =>
    simp only [Nat.ne_of_gt hstep, if_false]

theorem calcTime_of_le (utcTime : Int) (timeStep initialCounter : Nat)
    (hle : (initialCounter : Int) ≤ utcTime) (hu : utcTime < 2 ^ 63) :
    calcTime utcTime timeStep initialCounter = (utcTime.toNat - initialCounter) / timeStep := by
  unfold calcTime
  congr 1
  omega

/-- C19 as stated fails: with the SHA-1 engine, the key "12345678901234567890",
`utcTime = 0`, `initialCounter = 1` and `timeStep = 30` the counter used is
`(2^64 - 1) / 30`, not `floor((0 - 1) / 30) = -1` (nor its `uint64_t` image
`2^64 - 1`), and the code differs from the one `Hotp::calculate` gives for that
counter. -/
theorem calculate_not_floor_before_initial_counter :
    calcTime 0 30 1 = 614891469123651720 ∧ Int.fdiv (0 - 1) 30 = -1 ∧
      calculate ⟨some ⟨some Sha1Hash.sha1HashType⟩⟩
          ("12345678901234567890".toList.map Char.toNat) 0 30 6 1 = some "277486".toList ∧
      Hotp.calculate ⟨some ⟨some Sha1Hash.sha1HashType⟩⟩
          ("12345678901234567890".toList.map Char.toNat)
          (Int.fdiv (0 - 1) 30 % 2 ^ 64).toNat 6
          Hotp.defaultAddChecksum Hotp.defaultTruncationOffset = some "094451".toList ∧
      calculate ⟨some ⟨some Sha1Hash.sha1HashType⟩⟩
          ("12345678901234567890".toList.map Char.toNat) 0 30 6 1 ≠
        Hotp.calculate ⟨some ⟨some Sha1Hash.sha1HashType⟩⟩
          ("12345678901234567890".toList.map Char.toNat)
          (Int.fdiv (0 - 1) 30 % 2 ^ 64).toNat 6
          Hotp.defaultAddChecksum Hotp.defaultTruncationOffset := by
  decide!

/-- C19 as amended. For every `timeStep > 0`, `Totp::calculate` equals
`Hotp::calculate(key, c, digits)` on the same HMAC engine with the default
checksum and truncation settings, where `c` is the `uint64_t` difference
`(utcTime - initialCounter) mod 2^64` divided by `timeStep`; whenever
`initialCounter ≤ utcTime` (a `time_t` below `2^63`) this `c` is
`floor((utcTime - initialCounter) / timeStep)`. -/
theorem calculate_delegates_to_hotp (self : Totp) (key : List Nat) (utcTime : Int)
    (timeStep digits initialCounter : Nat) (hstep : 0 < timeStep) :
    calculate self key utcTime timeStep digits initialCounter =
        Hotp.calculate ⟨self.mHmacToUse⟩ key
          (((utcTime - (initialCounter : Int)) % 2 ^ 64).toNat / timeStep) digits
          Hotp.defaultAddChecksum Hotp.defaultTruncationOffset ∧
      ((initialCounter : Int) ≤ utcTime → utcTime < 2 ^ 63 →
        calculate self key utcTime timeStep digits initialCounter =
          Hotp.calculate ⟨self.mHmacToUse⟩ key
            ((utcTime.toNat - initialCounter) / timeStep) digits
            Hotp.defaultAddChecksum Hotp.defaultTruncationOffset ∧
        (((utcTime.toNat - initialCounter) / timeStep : Nat) : Int) =
          Int.fdiv (utcTime - (initialCounter : Int)) (timeStep : Int)) := by
  have h := calculate_eq_hotp self key utcTime timeStep digits initialCounter hstep
  refine ⟨h, ?_⟩
  intro hle hu
  rw [h, calcTime_of_le utcTime timeStep initialCounter hle hu]
  refine ⟨rfl, ?_⟩
  have e : utcTime - (initialCounter : Int) = ((utcTime.toNat - initialCounter : Nat) : Int) := by
    omega
  rw [e, Int.fdiv_eq_ediv _ (Int.ofNat_nonneg _)]
  exact Int.natCast_div _ _

/-- Witness of C19 (amended): SHA-1 engine, time 59, step 30, initial counter 0. -/
theorem calculate_delegates_to_hotp_witness :
    calculate ⟨some ⟨some Sha1Hash.sha1HashType⟩⟩ [49] 59 30 8 0 =
      Hotp.calculate ⟨some ⟨some Sha1Hash.sha1HashType⟩⟩ [49] ((Int.toNat 59 - 0) / 30) 8
        Hotp.defaultAddChecksum Hotp.defaultTruncationOffset :=
  ((calculate_delegates_to_hotp ⟨some ⟨some Sha1Hash.sha1HashType⟩⟩ [49] 59 30 8 0
    (by decide)).2 (by decide) (by decide)).1

/-- C20. With the SHA-1 engine, the ASCII key "12345678901234567890", `timeStep` 30,
8 digits and `initialCounter` 0, `Totp::calculate` at `utcTime` 59 returns
"94287082", the RFC 6238 SHA-1 test vector. -/
theorem calculate_rfc6238 :
    calculate ⟨some ⟨some Sha1Hash.sha1HashType⟩⟩
        ("12345678901234567890".toList.map Char.toNat) 59 30 8 0 =
      some "94287082".toList := by
  decide!

end Totp

namespace Totp

/-- Inside the window of counter `c` the value `calcTime` is `c`. -/
theorem calcTime_in_window (timeStep initialCounter c : Nat) (t : Int)
    (hlo : ((c * timeStep + initialCounter : Nat) : Int) ≤ t)
    (hhi : t < ((c * timeStep + initialCounter + timeStep : Nat) : Int)) (ht : t < 2 ^ 63) :
    calcTime t timeStep initialCounter = c := by
  unfold calcTime
  obtain ⟨d, hd⟩ : ∃ d : Nat, t - (initialCounter : Int) = (d : Int) :=
    ⟨(t - (initialCounter : Int)).toNat, by omega⟩
  have h1 : c * timeStep ≤ d := by omega
  have h2 : d < c * timeStep + timeStep := by omega
  have e : ((t - (initialCounter : Int)) % 2 ^ 64).toNat = d := by omega
  rw [e]
  apply Nat.div_eq_of_lt_le
  · exact h1
  · rw [Nat.succ_mul]; exact h2

/-- C21. TOTP validity window: for every key, digits, `timeStep > 0`, initial
counter `t0` and counter `c`, with `counterStart = c * timeStep + t0`, the counter
derived by `Totp::calculate` is `c` for every `utcTime` `t` (a `time_t`, below
`2^63`) with `counterStart ≤ t < counterStart + timeStep`, so the code returned
is the one returned at `counterStart`, namely the HOTP code of counter `c`; at
`t = counterStart + timeStep` the derived counter is `c + 1`. -/
theorem calculate_validity_window (self : Totp) (key : List Nat)
    (timeStep digits initialCounter c : Nat) (t : Int) (hstep : 0 < timeStep)
    (hlo : ((c * timeStep + initialCounter : Nat) : Int) ≤ t)
    (hhi : t < ((c * timeStep + initialCounter + timeStep : Nat) : Int)) (ht : t < 2 ^ 63) :
    calcTime t timeStep initialCounter = c ∧
      calculate self key t timeStep digits initialCounter =
        calculate self key ((c * timeStep + initialCounter : Nat) : Int) timeStep digits
          initialCounter ∧
      calculate self key t timeStep digits initialCounter =
        Hotp.calculate ⟨self.mHmacToUse⟩ key c digits Hotp.defaultAddChecksum
          Hotp.defaultTruncationOffset ∧
      (((c * timeStep + initialCounter + timeStep : Nat) : Int) < 2 ^ 63 →
        calcTime ((c * timeStep + initialCounter + timeStep : Nat) : Int) timeStep
          initialCounter = c + 1) := by
  have h1 := calcTime_in_window timeStep initialCounter c t hlo hhi ht
  have h2 := calcTime_in_window timeStep initialCounter c
    ((c * timeStep + initialCounter : Nat) : Int) (Int.le_refl _) (by omega) (by omega)
  refine ⟨h1, ?_, ?_, ?_⟩
  · rw [calculate_eq_hotp _ _ _ _ _ _ hstep, calculate_eq_hotp _ _ _ _ _ _ hstep, h1, h2]
  · rw [calculate_eq_hotp _ _ _ _ _ _ hstep, h1]
  · intro hb
    have e : (c + 1) * timeStep = c * timeStep + timeStep := Nat.succ_mul c timeStep
    exact calcTime_in_window timeStep initialCounter (c + 1) _ (by rw [e]; omega)
      (by rw [e]; omega) hb

/-- Witness of C21: step 30, initial counter 0, counter 1, time 59. -/
theorem calculate_validity_window_witness :
    calcTime 59 30 0 = 1 ∧
      calculate ⟨some ⟨some Sha1Hash.sha1HashType⟩⟩ [49] 59 30 6 0 =
        calculate ⟨some ⟨some Sha1Hash.sha1HashType⟩⟩ [49] ((1 * 30 + 0 : Nat) : Int) 30 6 0 :=
  ⟨(calculate_validity_window ⟨some ⟨some Sha1Hash.sha1HashType⟩⟩ [49] 30 6 0 1 59 (by decide)
      (by decide) (by decide) (by decide)).1,
    (calculate_validity_window ⟨some ⟨some Sha1Hash.sha1HashType⟩⟩ [49] 30 6 0 1 59 (by decide)
      (by decide) (by decide) (by decide)).2.1⟩

/-- C29. `Totp::calculate` returns the empty string whenever no `Hmac` object is
set, for every key, time, digits, initial counter and every `timeStep`, zero
included: the test for the missing `Hmac` comes before the division. -/
theorem calculate_without_hmac (key : List Nat) (utcTime : Int)
    (timeStep digits initialCounter : Nat) :
    calculate ⟨none⟩ key utcTime timeStep digits initialCounter = some [] ∧
      calculate ⟨none⟩ key utcTime 0 digits initialCounter = some [] :=
  ⟨rfl, rfl⟩

end Totp

namespace Hmac

theorem isEmpty_false_of_ne_nil {α : Type} (l : List α) (h : l ≠ []) : l.isEmpty = false := by
  cases l with
  | nil => exact absurd rfl h
  | cons _ _ => rfl

/-- The log and result of `Hmac::calculate` for a key that is not longer than a
block. -/
theorem calculateLog_short_key (h : HashTypeBase) (key message : List Nat) (hkey : key ≠ [])
    (hmsg : message ≠ []) (hle : key.length ≤ h.hashBlockLength) :
    calculateLog ⟨some h⟩ key message =
      (some (h.hash
          ((padLoop (h.hashBlockLength - key.length) key).map (fun x => (x ^^^ 0x5c) % 256) ++
            h.hash ((padLoop (h.hashBlockLength - key.length) key).map
              (fun x => (x ^^^ 0x36) % 256) ++ message))),
        [(padLoop (h.hashBlockLength - key.length) key).map (fun x => (x ^^^ 0x36) % 256) ++
            message,
          (padLoop (h.hashBlockLength - key.length) key).map (fun x => (x ^^^ 0x5c) % 256) ++
            h.hash ((padLoop (h.hashBlockLength - key.length) key).map
              (fun x => (x ^^^ 0x36) % 256) ++ message)]) := by
  have hne : (key.isEmpty || message.isEmpty) = false := by
    rw [isEmpty_false_of_ne_nil key hkey, isEmpty_false_of_ne_nil message hmsg]; rfl
  have hl : (padLoop (h.hashBlockLength - key.length) key).length = h.hashBlockLength := by
    rw [padLoop_length]; omega
  have hx := xorLoop_full (padLoop (h.hashBlockLength - key.length) key)
  rw [hl] at hx
  unfold calculateLog
  simp only [hne, Bool.false_eq_true, if_false, Nat.not_lt.mpr hle, gt_iff_lt, hx]
  rfl

/-- The log and result of `Hmac::calculate` for a key longer than a block, in terms
of the run on the hashed key. -/
theorem calculateLog_long_key (h : HashTypeBase) (key message : List Nat)
    (hmsg : message ≠ []) (hgt : key.length > h.hashBlockLength)
    (hne : h.hash key ≠ []) (hlen : (h.hash key).length ≤ h.hashBlockLength) :
    calculateLog ⟨some h⟩ key message =
      ((calculateLog ⟨some h⟩ (h.hash key) message).1,
        key :: (calculateLog ⟨some h⟩ (h.hash key) message).2) := by
  have hkey : key ≠ [] := by
    intro hk; rw [hk] at hgt; simp at hgt
  have hne1 : (key.isEmpty || message.isEmpty) = false := by
    rw [isEmpty_false_of_ne_nil key hkey, isEmpty_false_of_ne_nil message hmsg]; rfl
  have hl : (padLoop (h.hashBlockLength - (h.hash key).length) (h.hash key)).length =
      h.hashBlockLength := by
    rw [padLoop_length]; omega
  have hx := xorLoop_full (padLoop (h.hashBlockLength - (h.hash key).length) (h.hash key))
  rw [hl] at hx
  rw [calculateLog_short_key h (h.hash key) message hne hmsg hlen]
  unfold calculateLog
  simp only [hne1, Bool.false_eq_true, if_false, hgt, if_true, hx]
  rfl

end Hmac

namespace Hmac

/-- C30. HMAC long-key reduction: for every hash primitive `h` with block length `B`
whose digests are non-empty and at most `B` bytes, every key longer than `B` and
every non-empty message, `Hmac::calculate(key, message)` equals
`Hmac::calculate(H(key), message)`, the only extra hash call being the one on the
key; a key of length exactly `B` is used unhashed: the hash primitive is called
twice, on `(key xor ipad) || message` and on `(key xor opad) || inner digest`. -/
theorem calculate_long_key_reduction (h : HashTypeBase) (key message : List Nat)
    (hmsg : message ≠ []) (hne : ∀ x, h.hash x ≠ [])
    (hlen : ∀ x, (h.hash x).length ≤ h.hashBlockLength) :
    (key.length > h.hashBlockLength →
        calculate ⟨some h⟩ key message = calculate ⟨some h⟩ (h.hash key) message ∧
        (calculateLog ⟨some h⟩ key message).2 =
          key :: (calculateLog ⟨some h⟩ (h.hash key) message).2) ∧
      (key.length = h.hashBlockLength → key ≠ [] →
        calculate ⟨some h⟩ key message =
          some (h.hash (key.map (fun x => (x ^^^ 0x5c) % 256) ++
            h.hash (key.map (fun x => (x ^^^ 0x36) % 256) ++ message))) ∧
        (calculateLog ⟨some h⟩ key message).2 =
          [key.map (fun x => (x ^^^ 0x36) % 256) ++ message,
            key.map (fun x => (x ^^^ 0x5c) % 256) ++
              h.hash (key.map (fun x => (x ^^^ 0x36) % 256) ++ message)]) := by
  constructor
  · intro hgt
    have e := calculateLog_long_key h key message hmsg hgt (hne key) (hlen key)
    unfold calculate
    rw [e]
    exact ⟨rfl, rfl⟩
  · intro heq hkey
    have e := calculateLog_short_key h key message hkey hmsg (by omega)
    have hp : padLoop (h.hashBlockLength - key.length) key = key := by
      rw [heq, Nat.sub_self]; rfl
    rw [hp] at e
    unfold calculate
    rw [e]
    exact ⟨rfl, rfl⟩

/-- Witness of C30 with the SHA-1 primitive, a key of 65 bytes and the message "1". -/
theorem calculate_long_key_reduction_witness :
    calculate ⟨some Sha1Hash.sha1HashType⟩ (List.replicate 65 1) [49] =
      calculate ⟨some Sha1Hash.sha1HashType⟩
        (Sha1Hash.sha1HashType.hash (List.replicate 65 1)) [49] :=
  ((calculate_long_key_reduction Sha1Hash.sha1HashType (List.replicate 65 1) [49] (by decide)
    (fun x hx => by
      have := Sha1Hash.hash_length x
      rw [show Sha1Hash.hash x = Sha1Hash.sha1HashType.hash x from rfl, hx] at this
      simp at this)
    (fun x => by
      show (Sha1Hash.hash x).length ≤ 64
      rw [Sha1Hash.hash_length]
      decide)).1 (by decide)).1

end Hmac

namespace KeyEntry

/-- C22. `KeyEntry::valid()` returns true if and only if `invalidReason` is empty,
`identifier` and `secret` are non-empty, `keyType` is 0 or 1, `otpType` is 0 or 1
and `outNumberCount` is 6, 7 or 8; in particular 5 digits, an empty secret or a
non-empty `invalidReason` make the entry invalid whatever the other fields. -/
theorem valid_iff (self : KeyEntry) :
    (self.valid = true ↔
        self.mInvalidReason = [] ∧ self.mIdentifier ≠ [] ∧ self.mSecret ≠ [] ∧
          (self.mKeyType = 0 ∨ self.mKeyType = 1) ∧
          (self.mOtpType = 0 ∨ self.mOtpType = 1) ∧
          (self.mOutNumberCount = 6 ∨ self.mOutNumberCount = 7 ∨
            self.mOutNumberCount = 8)) ∧
      ({ self with mOutNumberCount := 5 }.valid = false) ∧
      ({ self with mSecret := [] }.valid = false) ∧
      (self.mInvalidReason ≠ [] → self.valid = false) := by
  have key : ∀ e : KeyEntry, (e.valid = true ↔
      e.mInvalidReason = [] ∧ e.mIdentifier ≠ [] ∧ e.mSecret ≠ [] ∧
        (e.mKeyType = 0 ∨ e.mKeyType = 1) ∧ (e.mOtpType = 0 ∨ e.mOtpType = 1) ∧
        (e.mOutNumberCount = 6 ∨ e.mOutNumberCount = 7 ∨ e.mOutNumberCount = 8)) := by
    intro e
    unfold valid
    simp only [List.isEmpty_iff, Bool.not_eq_true', decide_eq_false_iff_not, Bool.or_eq_true,
      decide_eq_true_eq, ite_eq_right_iff, Bool.false_eq_true, imp_false, ne_eq,
      Bool.if_false_left, Bool.and_eq_true, Bool.not_eq_true, not_or, not_lt]
    constructor
    · rintro ⟨h1, ⟨h2, h3⟩, ⟨a1, a2⟩, ⟨b1, b2⟩, ⟨c1, c2⟩, _⟩
      refine ⟨?_, h2, h3, by omega, by omega, by omega⟩
      cases hi : e.mInvalidReason with
      | nil => rfl
      | cons _ _ => rw [hi] at h1; exact absurd rfl h1
    · rintro ⟨h1, h2, h3, h4, h5, h6⟩
      refine ⟨by rw [h1]; simp, ⟨h2, h3⟩, by omega, by omega, by omega, trivial⟩
  refine ⟨key self, ?_, ?_, ?_⟩
  · cases hv : ({ self with mOutNumberCount := 5 } : KeyEntry).valid with
    | false => rfl
    | true =>
      have := ((key _).mp hv).2.2.2.2.2
      simp at this
  · cases hv : ({ self with mSecret := [] } : KeyEntry).valid with
    | false => rfl
    | true =>
      have := ((key _).mp hv).2.2.1
      simp at this
  · intro h
    cases hv : self.valid with
    | false => rfl
    | true => exact absurd ((key _).mp hv).1 h

/-- Witness of C22: a non-empty `invalidReason` on an otherwise valid entry. -/
theorem valid_iff_witness :
    (⟨"id".toList, "secret".toList, 1, 1, 6, 30, 0, 0, -1, [], "bad".toList, [], -1, false,
      false⟩ : KeyEntry).valid = false :=
  (valid_iff ⟨"id".toList, "secret".toList, 1, 1, 6, 30, 0, 0, -1, [], "bad".toList, [], -1,
    false, false⟩).2.2.2 (by decide)

/-- C23. After `KeyEntry::clear()`, and hence for a default-constructed `KeyEntry`,
the time step is 30, the time offset is 0, the HOTP counter is -1, `identifier`,
`secret`, `issuer`, `invalidReason` and `currentCode` are empty, `codeValid` is
false, and `valid()` returns false. -/
theorem clear_defaults (KEYENTRY_ALG_SHA1 : Int) (self : KeyEntry) :
    (clear KEYENTRY_ALG_SHA1 self).mTimeStep = 30 ∧
      (clear KEYENTRY_ALG_SHA1 self).mTimeOffset = 0 ∧
      (clear KEYENTRY_ALG_SHA1 self).mHotpCounter = -1 ∧
      (clear KEYENTRY_ALG_SHA1 self).mIdentifier = [] ∧
      (clear KEYENTRY_ALG_SHA1 self).mSecret = [] ∧
      (clear KEYENTRY_ALG_SHA1 self).mIssuer = [] ∧
      (clear KEYENTRY_ALG_SHA1 self).mInvalidReason = [] ∧
      (clear KEYENTRY_ALG_SHA1 self).mCurrentCode = [] ∧
      (clear KEYENTRY_ALG_SHA1 self).mCodeValid = false ∧
      (clear KEYENTRY_ALG_SHA1 self).valid = false ∧
      construct KEYENTRY_ALG_SHA1 self = clear KEYENTRY_ALG_SHA1 self :=
  ⟨rfl, rfl, rfl, rfl, rfl, rfl, rfl, rfl, rfl, rfl, rfl⟩

end KeyEntry

namespace ByteArray

/-- C24. For every byte array `b` and every index `i`, `at(i)` is the `i`-th byte
when `i < size()` and the sentinel `0x00` when `i ≥ size()`; it is a total
function, so it returns in both cases.  The values of `ByteArrayTests::atTests`
are reproduced. -/
theorem atIdx_in_and_out_of_range (b : List Nat) (i : Nat) :
    (∀ h : i < b.length, atIdx b i = b.get ⟨i, h⟩) ∧
      (b.length ≤ i → atIdx b i = 0x00) ∧
      ("This is a test char array.".toList.map Char.toNat).length = 26 ∧
      atIdx ("This is a test char array.".toList.map Char.toNat) 0 = 'T'.toNat ∧
      atIdx ("This is a test char array.".toList.map Char.toNat) 1 = 'h'.toNat ∧
      atIdx ("This is a test char array.".toList.map Char.toNat) 25 = '.'.toNat ∧
      atIdx ("This is a test char array.".toList.map Char.toNat) 100 = 0x00 := by
  refine ⟨?_, ?_, by decide, by decide, by decide, by decide, by decide⟩
  · intro h
    unfold atIdx
    rw [List.getD_eq_getElem _ _ h]
    rfl
  · intro h
    unfold atIdx
    exact List.getD_eq_default _ _ h

/-- Witness of C24: index 1 inside and index 3 beyond a three-byte array. -/
theorem atIdx_in_and_out_of_range_witness :
    atIdx [7, 8, 9] 1 = [7, 8, 9].get ⟨1, by decide⟩ ∧ atIdx [7, 8, 9] 3 = 0x00 :=
  ⟨(atIdx_in_and_out_of_range [7, 8, 9] 1).1 (by decide),
    (atIdx_in_and_out_of_range [7, 8, 9] 3).2.1 (by decide)⟩

end ByteArray

namespace ByteArray

theorem getD_append_last {α : Type} (l : List α) (x d : α) : (l ++ [x]).getD l.length d = x := by
  rw [List.getD_append_right _ _ _ _ (Nat.le_refl _)]
  simp

theorem getD_set_ne {α : Type} (l : List α) (a b : Nat) (v d : α) (h : a ≠ b) :
    (l.set a v).getD b d = l.getD b d := by
  rw [List.getD_eq_getElem?_getD, List.getD_eq_getElem?_getD, List.getElem?_set_ne h]

/-- C25. Copying a byte array (assignment or copy construction) yields an array
equal bytewise to the original and leaves the original as it was; clearing or
overwriting a byte of the original afterwards leaves the content of the copy
unchanged, and clearing or overwriting a byte of the copy leaves the content of
the original unchanged. -/
theorem copy_is_independent (m : Memory) (src : Handle) (hsrc : Allocated m src) :
    bytes (copy m src).1 (copy m src).2 = bytes m src ∧
      bytes (copy m src).1 src = bytes m src ∧
      bytes (clearMem (copy m src).1 src).1 (copy m src).2 = bytes m src ∧
      (∀ i v m2, setAtMem (copy m src).1 src i v = some m2 →
        bytes m2 (copy m src).2 = bytes m src) ∧
      bytes (clearMem (copy m src).1 (copy m src).2).1 src = bytes m src ∧
      (∀ i v m2, setAtMem (copy m src).1 (copy m src).2 i v = some m2 →
        bytes m2 src = bytes m src) := by
  obtain ⟨bufs⟩ := m
  obtain ⟨p⟩ := src
  cases p with
  | none =>
    refine ⟨rfl, rfl, rfl, ?_, rfl, ?_⟩ <;>
    · intro i v m2 h
      simp [setAtMem, copy] at h
  | some a =>
    have ha : a < bufs.length := hsrc a rfl
    have hne : a ≠ bufs.length := Nat.ne_of_lt ha
    have e1 : (bufs ++ [bufs.getD a []]).getD a [] = bufs.getD a [] :=
      List.getD_append _ _ _ _ ha
    have e2 : (bufs ++ [bufs.getD a []]).getD bufs.length [] = bufs.getD a [] :=
      getD_append_last _ _ _
    refine ⟨?_, ?_, ?_, ?_, ?_, ?_⟩
    · simp only [copy, bytes, e2]
    · simp only [copy, bytes, e1]
    · simp only [copy, bytes, clearMem, getD_set_ne _ _ _ _ _ hne, e2]
    · intro i v m2 h
      simp only [copy, bytes, setAtMem] at h
      cases hs : setAt ((bufs ++ [bufs.getD a []]).getD a []) i v with
      | none => rw [hs] at h; cases h
      | some buf =>
        rw [hs] at h
        cases h
        simp only [copy, bytes, getD_set_ne _ _ _ _ _ hne, e2]
    · simp only [copy, bytes, clearMem, getD_set_ne _ _ _ _ _ (Ne.symm hne), e1]
    · intro i v m2 h
      simp only [copy, bytes, setAtMem] at h
      cases hs : setAt ((bufs ++ [bufs.getD a []]).getD bufs.length []) i v with
      | none => rw [hs] at h; cases h
      | some buf =>
        rw [hs] at h
        cases h
        simp only [copy, bytes, getD_set_ne _ _ _ _ _ (Ne.symm hne), e1]

/-- Witness of C25: the copy of the array "test" in a memory of two buffers keeps
its bytes when the original is cleared. -/
theorem copy_is_independent_witness :
    bytes (clearMem (copy ⟨[[1], [116, 101, 115, 116]]⟩ ⟨some 1⟩).1 ⟨some 1⟩).1
        (copy ⟨[[1], [116, 101, 115, 116]]⟩ ⟨some 1⟩).2 =
      bytes ⟨[[1], [116, 101, 115, 116]]⟩ ⟨some 1⟩ :=
  (copy_is_independent ⟨[[1], [116, 101, 115, 116]]⟩ ⟨some 1⟩
    (by decide)).2.2.1

end ByteArray

namespace SecretDatabase

theorem filter_ne_length (identifier : List Char) (rows : List KeyEntry)
    (hu : (rows.map (fun r => r.mIdentifier)).Nodup)
    (hex : ∃ r ∈ rows, r.mIdentifier = identifier) :
    (rows.filter (fun r => r.mIdentifier ≠ identifier)).length + 1 = rows.length := by
  induction rows with
  | nil => obtain ⟨r, hr, _⟩ := hex; cases hr
  | cons x xs ih =>
    rw [List.map_cons, List.nodup_cons] at hu
    by_cases hx : x.mIdentifier = identifier
    · have hall : ∀ r ∈ xs, r.mIdentifier ≠ identifier := by
        intro r hr e
        exact hu.1 (List.mem_map.2 ⟨r, hr, by rw [e, hx]⟩)
      have hf : xs.filter (fun r => r.mIdentifier ≠ identifier) = xs :=
        List.filter_eq_self.2 (fun r hr => by simpa using hall r hr)
      rw [List.filter_cons_of_neg (by simpa using hx), hf, List.length_cons]
    · have hex2 : ∃ r ∈ xs, r.mIdentifier = identifier := by
        obtain ⟨r, hr, e⟩ := hex
        rcases List.mem_cons.1 hr with h | h
        · exact absurd (h ▸ e) hx
        · exact ⟨r, h, e⟩
      rw [List.filter_cons_of_pos (by simpa using hx), List.length_cons, List.length_cons,
        ih hu.2 hex2]

theorem find_filter_ne (identifier other : List Char) (hne : other ≠ identifier)
    (rows : List KeyEntry) :
    (rows.filter (fun r => r.mIdentifier ≠ identifier)).find? (fun r => r.mIdentifier = other) =
      rows.find? (fun r => r.mIdentifier = other) := by
  induction rows with
  | nil => rfl
  | cons x xs ih =>
    by_cases hx : x.mIdentifier = identifier
    · have hxo : ¬ x.mIdentifier = other := fun e => hne (e.symm.trans hx)
      rw [List.filter_cons_of_neg (by simpa using hx), ih,
        List.find?_cons_of_neg _ (by simpa using hxo)]
    · rw [List.filter_cons_of_pos (by simpa using hx)]
      by_cases hxo : x.mIdentifier = other
      · rw [List.find?_cons_of_pos _ (by simpa using hxo),
          List.find?_cons_of_pos _ (by simpa using hxo)]
      · rw [List.find?_cons_of_neg _ (by simpa using hxo),
          List.find?_cons_of_neg _ (by simpa using hxo), ih]

/-- The invariant "identifier is unique across the store" holds of the empty store
and is kept by `add`. -/
theorem add_keeps_unique (self : SecretDatabase) (entry : KeyEntry)
    (hu : self.UniqueIdentifiers) :
    (⟨self.mOpen, []⟩ : SecretDatabase).UniqueIdentifiers ∧
      (self.add entry).2.UniqueIdentifiers := by
  refine ⟨List.nodup_nil, ?_⟩
  unfold add
  split_ifs with h1 h2
  · exact hu
  · exact hu
  · show ((self.rows ++ [persisted entry]).map (fun r => r.mIdentifier)).Nodup
    rw [List.map_append, List.map_cons, List.map_nil]
    refine List.Nodup.append hu (List.nodup_singleton _) ?_
    intro x hx hy
    have exy : x = entry.mIdentifier := by simpa [persisted] using hy
    obtain ⟨r, hr, e⟩ := List.mem_map.1 hx
    apply h2
    exact List.any_eq_true.2 ⟨r, hr, by simpa using e.trans exy⟩

/-- C26. Adding an entry whose identifier is already stored fails and leaves the
store as it was: the stored row, the listing and the entry count are unchanged;
on a store that is not open, adding and deleting both fail and change nothing. -/
theorem add_duplicate_fails (self : SecretDatabase) (entry : KeyEntry) :
    (self.isOpen = true → (∃ r ∈ self.rows, r.mIdentifier = entry.mIdentifier) →
        (self.add entry).1 = false ∧ (self.add entry).2 = self ∧
          (self.add entry).2.getByIdentifier entry.mIdentifier =
            self.getByIdentifier entry.mIdentifier ∧
          (self.add entry).2.getAll = self.getAll ∧
          (self.add entry).2.rows.length = self.rows.length) ∧
      (self.isOpen = false →
        (self.add entry).1 = false ∧ (self.add entry).2 = self ∧
          ∀ identifier, (self.deleteByIdentifier identifier).1 = false ∧
            (self.deleteByIdentifier identifier).2 = self) := by
  constructor
  · intro ho hex
    have hany : self.rows.any (fun r => decide (r.mIdentifier = entry.mIdentifier)) = true := by
      obtain ⟨r, hr, e⟩ := hex
      exact List.any_eq_true.2 ⟨r, hr, by simpa using e⟩
    have ho2 : self.mOpen = true := ho
    have e : self.add entry = (false, self) := by
      unfold add
      rw [ho2, hany]
      rfl
    rw [e]
    exact ⟨rfl, rfl, rfl, rfl, rfl⟩
  · intro ho
    have ho2 : self.mOpen = false := ho
    have e : self.add entry = (false, self) := by
      unfold add
      rw [ho2]
      rfl
    have d : ∀ identifier, self.deleteByIdentifier identifier = (false, self) := by
      intro identifier
      unfold deleteByIdentifier
      rw [ho2]
      rfl
    rw [e]
    exact ⟨rfl, rfl, fun identifier => by rw [d identifier]; exact ⟨rfl, rfl⟩⟩

/-- Witness of C26: adding a second entry "id1" to an open store that holds "id1"
fails and the stored row keeps its secret; on the closed store adding fails too. -/
theorem add_duplicate_fails_witness :
    ∃ e1 e2 : KeyEntry, e1.mIdentifier = e2.mIdentifier ∧ e1.mSecret ≠ e2.mSecret ∧
      ((⟨true, [e1]⟩ : SecretDatabase).add e2).1 = false ∧
      ((⟨true, [e1]⟩ : SecretDatabase).add e2).2.getByIdentifier e2.mIdentifier =
        (⟨true, [e1]⟩ : SecretDatabase).getByIdentifier e2.mIdentifier ∧
      ((⟨true, [e1]⟩ : SecretDatabase).add e2).2.rows.length = 1 ∧
      ((⟨false, [e1]⟩ : SecretDatabase).add e2).1 = false :=
  ⟨⟨"id1".toList, "s".toList, 0, 0, 6, 30, 0, 0, -1, [], [], [], 0, false, false⟩,
    ⟨"id1".toList, "t".toList, 0, 0, 6, 30, 0, 0, -1, [], [], [], 0, false, false⟩, rfl,
    by decide,
    ((add_duplicate_fails ⟨true, [_]⟩ _).1 rfl ⟨_, List.mem_cons_self _ _, rfl⟩).1,
    ((add_duplicate_fails ⟨true, [_]⟩ _).1 rfl ⟨_, List.mem_cons_self _ _, rfl⟩).2.2.1,
    ((add_duplicate_fails ⟨true, [_]⟩ _).1 rfl ⟨_, List.mem_cons_self _ _, rfl⟩).2.2.2.2,
    ((add_duplicate_fails ⟨false, [_]⟩ _).2 rfl).1⟩

end SecretDatabase

namespace SecretDatabase

/-- C27. After a successful deleteByIdentifier(id) on a store with one row per
identifier, looking up id returns not-found, getAll succeeds and holds no entry
with that identifier, its size is one less than before, and the lookup of every
other identifier returns what it returned before. -/
theorem delete_then_lookup (self : SecretDatabase) (identifier : List Char)
    (hu : self.UniqueIdentifiers) (hdel : (self.deleteByIdentifier identifier).1 = true) :
    (self.deleteByIdentifier identifier).2.getByIdentifier identifier = none ∧
      (∃ all, (self.deleteByIdentifier identifier).2.getAll = some all ∧
        (∀ r ∈ all, r.mIdentifier ≠ identifier) ∧
        (∃ before, self.getAll = some before ∧ all.length + 1 = before.length) ∧
        (∀ r, r.mIdentifier ≠ identifier → (r ∈ all ↔ r ∈ self.rows))) ∧
      (∀ other, other ≠ identifier →
        (self.deleteByIdentifier identifier).2.getByIdentifier other =
          self.getByIdentifier other) ∧
      (self.deleteByIdentifier identifier).2.UniqueIdentifiers := by
  obtain ⟨op, rows⟩ := self
  cases op with
  | false => simp [deleteByIdentifier] at hdel
  | true =>
    by_cases hany : rows.any (fun r => decide (r.mIdentifier = identifier)) = true
    · have hex : ∃ r ∈ rows, r.mIdentifier = identifier := by
        obtain ⟨r, hr, e⟩ := List.any_eq_true.1 hany
        exact ⟨r, hr, by simpa using e⟩
      have e : deleteByIdentifier ⟨true, rows⟩ identifier =
          (true, ⟨true, rows.filter (fun r => r.mIdentifier ≠ identifier)⟩) := by
        unfold deleteByIdentifier
        simp only [hany]
        rfl
      rw [e]
      refine ⟨?_, ⟨_, rfl, ?_, ⟨rows, rfl, filter_ne_length identifier rows hu hex⟩, ?_⟩, ?_, ?_⟩
      · show (rows.filter (fun r => r.mIdentifier ≠ identifier)).find?
          (fun r => r.mIdentifier = identifier) = none
        rw [List.find?_eq_none]
        intro r hr
        have := (List.mem_filter.1 hr).2
        simpa using this
      · intro r hr
        have := (List.mem_filter.1 hr).2
        simpa using this
      · intro r hr
        show r ∈ rows.filter (fun r => r.mIdentifier ≠ identifier) ↔ r ∈ rows
        rw [List.mem_filter]
        constructor
        · exact fun h => h.1
        · exact fun h => ⟨h, by simpa using hr⟩
      · intro other hne
        exact find_filter_ne identifier other hne rows
      · show ((rows.filter (fun r => r.mIdentifier ≠ identifier)).map
          (fun r => r.mIdentifier)).Nodup
        exact List.Nodup.sublist (List.Sublist.map _ (List.filter_sublist _)) hu
    · have e : deleteByIdentifier ⟨true, rows⟩ identifier = (false, ⟨true, rows⟩) := by
        unfold deleteByIdentifier
        simp only [hany]
        rfl
      rw [e] at hdel
      cases hdel

/-- Witness of C27: deleting "id1" from an open store that holds "id1" and "id2". -/
theorem delete_then_lookup_witness :
    ∃ e1 e2 : KeyEntry, e1.mIdentifier = "id1".toList ∧ e2.mIdentifier = "id2".toList ∧
      ((⟨true, [e1, e2]⟩ : SecretDatabase).deleteByIdentifier "id1".toList).2.getByIdentifier
          "id1".toList = none ∧
      ((⟨true, [e1, e2]⟩ : SecretDatabase).deleteByIdentifier "id1".toList).2.getByIdentifier
          "id2".toList = (⟨true, [e1, e2]⟩ : SecretDatabase).getByIdentifier "id2".toList :=
  ⟨⟨"id1".toList, "s".toList, 0, 0, 6, 30, 0, 0, -1, [], [], [], 0, false, false⟩,
    ⟨"id2".toList, "s".toList, 0, 0, 6, 30, 0, 0, -1, [], [], [], 0, false, false⟩, rfl, rfl,
    (delete_then_lookup ⟨true, [_, _]⟩ "id1".toList (by decide) (by decide)).1,
    (delete_then_lookup ⟨true, [_, _]⟩ "id1".toList (by decide) (by decide)).2.2.1
      "id2".toList (by decide)⟩

end SecretDatabase

namespace KeyEntriesSingleton

theorem foldl_min_mem (ps : List Int) (p : Int) : ps.foldl min p ∈ p :: ps := by
  induction ps generalizing p with
  | nil => exact List.mem_cons_self _ _
  | cons q qs ih =>
    rw [List.foldl_cons]
    rcases List.mem_cons.1 (ih (min p q)) with h | h
    · rw [h]
      rcases min_choice p q with e | e
      · rw [e]; exact List.mem_cons_self _ _
      · rw [e]; exact List.mem_cons_of_mem _ (List.mem_cons_self _ _)
    · exact List.mem_cons_of_mem _ (List.mem_cons_of_mem _ h)

theorem foldl_min_le (ps : List Int) (p : Int) : ∀ x ∈ p :: ps, ps.foldl min p ≤ x := by
  induction ps generalizing p with
  | nil =>
    intro x hx
    rcases List.mem_cons.1 hx with h | h
    · rw [h]; exact le_refl _
    · cases h
  | cons q qs ih =>
    intro x hx
    rw [List.foldl_cons]
    rcases List.mem_cons.1 hx with h | h
    · rw [h]
      exact le_trans (ih (min p q) _ (List.mem_cons_self _ _)) (min_le_left _ _)
    · rcases List.mem_cons.1 h with h2 | h2
      · rw [h2]
        exact le_trans (ih (min p q) _ (List.mem_cons_self _ _)) (min_le_right _ _)
      · exact ih (min p q) x (List.mem_cons_of_mem _ h2)

/-- C28. The period of the shared recompute timer is the minimum time step over
the cached TOTP entries: it is the time step of some cached TOTP entry and is at
most the time step of every cached TOTP entry, it exists as soon as one TOTP
entry is cached, entries of another type do not change it, and for two TOTP
entries with time steps 30 and 60 it is 30 (also with a HOTP entry of time step
10 cached next to them). -/
theorem shortestUpdatePeriod_is_minimum (KEYENTRY_OTPTYPE_TOTP : Int)
    (mEntryList : List KeyEntry) :
    (∀ period, shortestUpdatePeriod KEYENTRY_OTPTYPE_TOTP mEntryList = some period →
        (∃ e ∈ mEntryList, e.mOtpType = KEYENTRY_OTPTYPE_TOTP ∧ e.mTimeStep = period) ∧
          ∀ e ∈ mEntryList, e.mOtpType = KEYENTRY_OTPTYPE_TOTP → period ≤ e.mTimeStep) ∧
      ((∃ e ∈ mEntryList, e.mOtpType = KEYENTRY_OTPTYPE_TOTP) →
        ∃ period, shortestUpdatePeriod KEYENTRY_OTPTYPE_TOTP mEntryList = some period) ∧
      shortestUpdatePeriod KEYENTRY_OTPTYPE_TOTP
          (mEntryList.filter (fun e => e.mOtpType = KEYENTRY_OTPTYPE_TOTP)) =
        shortestUpdatePeriod KEYENTRY_OTPTYPE_TOTP mEntryList ∧
      (∀ e1 e2 e3 : KeyEntry, e1.mOtpType = KEYENTRY_OTPTYPE_TOTP → e1.mTimeStep = 30 →
        e2.mOtpType = KEYENTRY_OTPTYPE_TOTP → e2.mTimeStep = 60 →
        e3.mOtpType ≠ KEYENTRY_OTPTYPE_TOTP → e3.mTimeStep = 10 →
        shortestUpdatePeriod KEYENTRY_OTPTYPE_TOTP [e1, e2] = some 30 ∧
          shortestUpdatePeriod KEYENTRY_OTPTYPE_TOTP [e2, e1] = some 30 ∧
          shortestUpdatePeriod KEYENTRY_OTPTYPE_TOTP [e1, e3, e2] = some 30) := by
  have key : ∀ l : List KeyEntry, ∀ period,
      shortestUpdatePeriod KEYENTRY_OTPTYPE_TOTP l = some period →
      period ∈ (l.filter (fun e => e.mOtpType = KEYENTRY_OTPTYPE_TOTP)).map (fun e => e.mTimeStep) ∧
      ∀ x ∈ (l.filter (fun e => e.mOtpType = KEYENTRY_OTPTYPE_TOTP)).map (fun e => e.mTimeStep),
        period ≤ x := by
    intro l period h
    unfold shortestUpdatePeriod at h
    cases hl : (l.filter (fun e => e.mOtpType = KEYENTRY_OTPTYPE_TOTP)).map
        (fun e => e.mTimeStep) with
    | nil => rw [hl] at h; cases h
    | cons p ps =>
      rw [hl] at h
      cases h
      exact ⟨foldl_min_mem ps p, foldl_min_le ps p⟩
  refine ⟨?_, ?_, ?_, ?_⟩
  · intro period h
    obtain ⟨hm, hle⟩ := key mEntryList period h
    constructor
    · obtain ⟨e, he, ee⟩ := List.mem_map.1 hm
      have hf := List.mem_filter.1 he
      exact ⟨e, hf.1, by simpa using hf.2, ee⟩
    · intro e he ht
      exact hle _ (List.mem_map.2 ⟨e, List.mem_filter.2 ⟨he, by simpa using ht⟩, rfl⟩)
  · rintro ⟨e, he, ht⟩
    unfold shortestUpdatePeriod
    cases hl : (mEntryList.filter (fun e => e.mOtpType = KEYENTRY_OTPTYPE_TOTP)).map
        (fun e => e.mTimeStep) with
    | nil =>
      have hm : e.mTimeStep ∈ (mEntryList.filter
          (fun e => e.mOtpType = KEYENTRY_OTPTYPE_TOTP)).map (fun e => e.mTimeStep) :=
        List.mem_map.2 ⟨e, List.mem_filter.2 ⟨he, by simpa using ht⟩, rfl⟩
      rw [hl] at hm
      cases hm
    | cons p ps => exact ⟨_, rfl⟩
  · unfold shortestUpdatePeriod
    rw [List.filter_filter]
    simp only [Bool.and_self]
  · intro e1 e2 e3 h1 s1 h2 s2 h3 s3
    simp [shortestUpdatePeriod, List.filter, h1, h2, h3, s1, s2]

/-- Witness of C28: with TOTP entries of time steps 60 and 30 and a HOTP entry of
time step 10 cached, the period is 30. -/
theorem shortestUpdatePeriod_is_minimum_witness :
    ∃ e1 e2 e3 : KeyEntry, e1.mTimeStep = 60 ∧ e2.mTimeStep = 10 ∧ e3.mTimeStep = 30 ∧
      e1.mOtpType = 1 ∧ e2.mOtpType = 0 ∧ e3.mOtpType = 1 ∧
      shortestUpdatePeriod 1 [e1, e2, e3] = some 30 ∧
      (∃ e ∈ [e1, e2, e3], e.mOtpType = 1 ∧ e.mTimeStep = 30) :=
  ⟨⟨"a".toList, "s".toList, 0, 1, 6, 60, 0, 0, -1, [], [], [], 0, false, false⟩,
    ⟨"b".toList, "s".toList, 0, 0, 6, 10, 0, 0, 0, [], [], [], 0, false, false⟩,
    ⟨"c".toList, "s".toList, 0, 1, 6, 30, 0, 0, -1, [], [], [], 0, false, false⟩,
    rfl, rfl, rfl, rfl, rfl, rfl, by decide,
    ((shortestUpdatePeriod_is_minimum 1 [_, _, _]).1 30 (by decide)).1⟩

end KeyEntriesSingleton

namespace Base32Coder

theorem base32char_ne_pad_any (v : Nat) : base32char v ≠ '=' := by
  by_cases h : v < 32
  · exact base32char_ne_pad v h
  · have e : base32char v = Char.ofNat 0 := by
      unfold base32char
      exact List.getD_eq_default _ _ (by simpa [base32chars] using Nat.le_of_not_lt h)
    rw [e]
    decide

theorem encodeBlock_full_no_pad (x0 x1 x2 x3 x4 : Nat) :
    '=' ∉ encodeBlock [x0, x1, x2, x3, x4] 5 0 := by
  intro h
  simp only [encodeBlock, byteAt, List.getD_cons_zero, List.getD_cons_succ, Nat.zero_add,
    Nat.reduceAdd, Nat.reduceLT, if_true, ge_iff_le, Nat.reduceLeDiff, if_false, List.mem_append,
    List.mem_singleton, List.mem_cons, List.not_mem_nil, or_false, List.cons_append,
    List.nil_append] at h
  rcases h with h | h | h | h | h | h | h | h <;> exact base32char_ne_pad_any _ h.symm

theorem encode_append_blocks : ∀ (n : Nat) (a b : List Nat), a.length = 5 * n →
    encode (a ++ b) = encode a ++ encode b ∧ '=' ∉ encode a := by
  intro n
  induction n with
  | zero =>
    intro a b h
    have ha : a = [] := List.length_eq_zero.1 (by simpa using h)
    subst ha
    exact ⟨rfl, by simp [encode_nil]⟩
  | succ n ih =>
    intro a b h
    match a, h with
    | x0 :: x1 :: x2 :: x3 :: x4 :: rest, h =>
      have hr : rest.length = 5 * n := by simp only [List.length_cons] at h; omega
      obtain ⟨e1, e2⟩ := ih rest b hr
      constructor
      · rw [show (x0 :: x1 :: x2 :: x3 :: x4 :: rest) ++ b =
            x0 :: x1 :: x2 :: x3 :: x4 :: (rest ++ b) from rfl, encode_cons5, encode_cons5, e1,
          List.append_assoc]
      · rw [encode_cons5, List.mem_append]
        rintro (h1 | h1)
        · exact encodeBlock_full_no_pad x0 x1 x2 x3 x4 h1
        · exact e2 h1
    | [], h => simp at h
    | [_], h => simp at h; omega
    | [_, _], h => simp at h; omega
    | [_, _, _], h => simp at h; omega
    | [_, _, _, _], h => simp at h; omega

/-- C37. Base32 encoding is compositional on group boundaries: when the length of
`a` is a multiple of 5, `encode (a ++ b)` is `encode a ++ encode b`, and
`encode a` holds no pad character. -/
theorem encode_append_of_full_groups (a b : List Nat) (h5 : a.length % 5 = 0) :
    encode (a ++ b) = encode a ++ encode b ∧ '=' ∉ encode a :=
  encode_append_blocks (a.length / 5) a b (by omega)

/-- Witness of C37: the five bytes of "fooba" followed by the byte of "r". -/
theorem encode_append_of_full_groups_witness :
    encode ([102, 111, 111, 98, 97] ++ [114]) = encode [102, 111, 111, 98, 97] ++ encode [114] ∧
      '=' ∉ encode [102, 111, 111, 98, 97] :=
  encode_append_of_full_groups [102, 111, 111, 98, 97] [114] (by decide)

end Base32Coder

namespace Hmac

theorem padLoop_append_zeros (B k : Nat) (key : List Nat) (hle : key.length + k ≤ B) :
    padLoop (B - (key ++ List.replicate k 0).length) (key ++ List.replicate k 0) =
      padLoop (B - key.length) key := by
  rw [padLoop_eq, padLoop_eq, List.length_append, List.length_replicate, List.append_assoc,
    ← List.replicate_add]
  congr 2
  omega

/-- C33. HMAC zero-padding invariance: for every hash primitive with block length
B, every non-empty key shorter than B and every non-empty message,
`Hmac::calculate` returns the same digest for the key and for the key followed
by one 0x00 byte; more generally a non-empty key and the key followed by `k`
zero bytes, of length at most B, give the same digest, and the same two hash
calls are made. -/
theorem calculate_zero_padding_invariant (h : HashTypeBase) (key message : List Nat) (k : Nat)
    (hkey : key ≠ []) (hmsg : message ≠ []) :
    (key.length < h.hashBlockLength →
        calculate ⟨some h⟩ key message = calculate ⟨some h⟩ (key ++ [0x00]) message ∧
          ∃ digest, calculate ⟨some h⟩ key message = some digest) ∧
      (key.length + k ≤ h.hashBlockLength →
        calculate ⟨some h⟩ (key ++ List.replicate k 0x00) message =
            calculate ⟨some h⟩ key message ∧
          (calculateLog ⟨some h⟩ (key ++ List.replicate k 0x00) message).2 =
            (calculateLog ⟨some h⟩ key message).2) := by
  have gen : ∀ j, key.length + j ≤ h.hashBlockLength →
      calculateLog ⟨some h⟩ (key ++ List.replicate j 0x00) message =
        calculateLog ⟨some h⟩ key message := by
    intro j hj
    have hne : key ++ List.replicate j 0 ≠ [] := by
      intro e
      exact hkey (List.append_eq_nil.1 e).1
    rw [calculateLog_short_key h _ message hne hmsg
        (by rw [List.length_append, List.length_replicate]; exact hj),
      calculateLog_short_key h key message hkey hmsg (by omega),
      padLoop_append_zeros _ _ _ hj]
  constructor
  · intro hlt
    have e := gen 1 (by omega)
    refine ⟨?_, ?_⟩
    · unfold calculate
      rw [show key ++ [0x00] = key ++ List.replicate 1 0x00 from rfl, e]
    · unfold calculate
      rw [calculateLog_short_key h key message hkey hmsg (by omega)]
      exact ⟨_, rfl⟩
  · intro hle
    unfold calculate
    rw [gen k hle]
    exact ⟨rfl, rfl⟩

/-- Witness of C33 with the SHA-1 primitive, the key "1" and the message "2". -/
theorem calculate_zero_padding_invariant_witness :
    calculate ⟨some Sha1Hash.sha1HashType⟩ [49] [50] =
      calculate ⟨some Sha1Hash.sha1HashType⟩ ([49] ++ [0x00]) [50] :=
  ((calculate_zero_padding_invariant Sha1Hash.sha1HashType [49] [50] 0 (by decide)
    (by decide)).1 (by decide)).1

end Hmac

namespace KeyEntry

/-- C34. `KeyEntry::valid()` is determined by `invalidReason`, `identifier`,
`secret`, `keyType`, `otpType` and `outNumberCount` alone: two entries that
agree on these six fields have the same validity whatever their other fields
are, so that replacing the time step (by 0 or by a negative number), time
offset, algorithm, HOTP counter, issuer, current code, start time and code-valid
flag of an entry does not change its validity; and the call changes no field. -/
theorem valid_depends_on_six_fields (a b : KeyEntry)
    (hr : a.mInvalidReason = b.mInvalidReason) (hi : a.mIdentifier = b.mIdentifier)
    (hs : a.mSecret = b.mSecret) (hk : a.mKeyType = b.mKeyType) (ho : a.mOtpType = b.mOtpType)
    (hn : a.mOutNumberCount = b.mOutNumberCount) :
    a.valid = b.valid ∧
      (∀ (timeStep timeOffset algorithm hotpCounter startTime : Int)
          (issuer currentCode : List Char) (codeValid flag : Bool),
        ({ a with mTimeStep := timeStep, mTimeOffset := timeOffset, mAlgorithm := algorithm,
                  mHotpCounter := hotpCounter, mIssuer := issuer, mCurrentCode := currentCode,
                  mStartTime := startTime, mCodeValid := codeValid, mValid := flag } :
            KeyEntry).valid = a.valid) ∧
      ({ a with mTimeStep := 0 } : KeyEntry).valid = b.valid ∧
      ({ a with mTimeStep := -30 } : KeyEntry).valid = b.valid ∧
      a.validStep.2 = a ∧ a.validStep.1 = a.valid := by
  have e : a.valid = b.valid := by
    unfold valid
    rw [hr, hi, hs, hk, ho, hn]
  exact ⟨e, fun _ _ _ _ _ _ _ _ _ => rfl, e, e, rfl, rfl⟩

/-- Witness of C34: an entry with time step 0 and an entry with time step -30 that
agree with a valid entry on the six fields are valid. -/
theorem valid_depends_on_six_fields_witness :
    ∃ a b : KeyEntry, b.mTimeStep = 30 ∧ a.mTimeStep = -30 ∧ b.valid = true ∧ a.valid = true ∧
      ({ a with mTimeStep := 0 } : KeyEntry).valid = true :=
  ⟨⟨"id".toList, "s".toList, 0, 1, 6, -30, 5, 7, 3, "x".toList, [], "1".toList, 9, true, false⟩,
    ⟨"id".toList, "s".toList, 0, 1, 6, 30, 0, 0, -1, [], [], [], -1, false, false⟩,
    rfl, rfl, by decide,
    (valid_depends_on_six_fields _ _ rfl rfl rfl rfl rfl rfl).1.trans (by decide),
    (valid_depends_on_six_fields
      ⟨"id".toList, "s".toList, 0, 1, 6, -30, 5, 7, 3, "x".toList, [], "1".toList, 9, true, false⟩
      ⟨"id".toList, "s".toList, 0, 1, 6, 30, 0, 0, -1, [], [], [], -1, false, false⟩
      rfl rfl rfl rfl rfl rfl).2.2.1.trans (by decide)⟩

end KeyEntry

namespace Hotp

theorem take_four_drop : ∀ (o : Nat) (l : List Nat), o + 3 < l.length →
    (l.drop o).take 4 =
      [ByteArray.atIdx l o, ByteArray.atIdx l (o + 1), ByteArray.atIdx l (o + 2),
        ByteArray.atIdx l (o + 3)]
  | 0, a :: b :: c :: d :: _, _ => rfl
  | 0, [], h => by simp at h
  | 0, [_], h => by simp at h
  | 0, [_, _], h => by simp at h
  | 0, [_, _, _], h => by simp at h
  | o + 1, [], h => by simp at h
  | o + 1, x :: l, h => by
    have ih := take_four_drop o l (by simp only [List.length_cons] at h; omega)
    simp only [List.drop_succ_cons, ih, ByteArray.atIdx]
    simp only [Nat.add_right_comm o 1, List.getD_cons_succ]

theorem atIdx_getElem? (l : List Nat) (i : Nat) (h : i < l.length) :
    l[i]? = some (ByteArray.atIdx l i) := by
  unfold ByteArray.atIdx
  rw [List.getD_eq_getElem?_getD, List.getElem?_eq_getElem h]
  rfl

/-- C35. `Hotp::dynamicTruncate` returns exactly 4 bytes for every non-empty
digest and the empty buffer for the empty digest; for every digest of at least
19 bytes under dynamic truncation the start offset `o`, the low four bits of
the last byte, is at most 15, the reads at `o .. o + 3` (and that of the last
byte) are inside the digest, and the result is `digest[o .. o + 3]`. -/
theorem dynamicTruncate_four_bytes_in_range (hmac : List Nat) (truncateOffset : Nat) :
    (hmac ≠ [] → (dynamicTruncate hmac truncateOffset).length = 4) ∧
      dynamicTruncate [] truncateOffset = [] ∧
      (19 ≤ hmac.length → hmac.length < 2 ^ 64 → hmac.length - 4 ≤ truncateOffset →
        hmac[hmac.length - 1]? = some (ByteArray.atIdx hmac (hmac.length - 1)) ∧
          startOffset hmac truncateOffset = ByteArray.atIdx hmac (hmac.length - 1) &&& 0x0f ∧
          startOffset hmac truncateOffset ≤ 15 ∧
          startOffset hmac truncateOffset + 3 < hmac.length ∧
          dynamicTruncate hmac truncateOffset =
            (hmac.drop (startOffset hmac truncateOffset)).take 4 ∧
          ∀ i, i < 4 →
            hmac[startOffset hmac truncateOffset + i]? =
              (dynamicTruncate hmac truncateOffset)[i]?) := by
  refine ⟨?_, rfl, ?_⟩
  · intro hne
    rw [dynamicTruncate_eq hmac truncateOffset hne]
    rfl
  · intro h19 hn ht
    have hne : hmac ≠ [] := by
      intro h; rw [h] at h19; simp at h19
    have e : startOffset hmac truncateOffset =
        ByteArray.atIdx hmac (hmac.length - 1) &&& 0x0f := by
      unfold startOffset
      rw [size_sub_four _ (by omega) hn, if_neg (by omega)]
    have hl := low_nibble_le (ByteArray.atIdx hmac (hmac.length - 1))
    have hr : startOffset hmac truncateOffset + 3 < hmac.length := by rw [e]; omega
    have hd : dynamicTruncate hmac truncateOffset =
        [ByteArray.atIdx hmac (startOffset hmac truncateOffset),
          ByteArray.atIdx hmac (startOffset hmac truncateOffset + 1),
          ByteArray.atIdx hmac (startOffset hmac truncateOffset + 2),
          ByteArray.atIdx hmac (startOffset hmac truncateOffset + 3)] := by
      rw [dynamicTruncate_eq hmac truncateOffset hne, Nat.add_zero,
        Nat.mod_eq_of_lt (by omega : startOffset hmac truncateOffset < 2 ^ 64),
        Nat.mod_eq_of_lt (by omega : startOffset hmac truncateOffset + 1 < 2 ^ 64),
        Nat.mod_eq_of_lt (by omega : startOffset hmac truncateOffset + 2 < 2 ^ 64),
        Nat.mod_eq_of_lt (by omega : startOffset hmac truncateOffset + 3 < 2 ^ 64)]
    refine ⟨atIdx_getElem? _ _ (by omega), e, by rw [e]; exact hl, hr, ?_, ?_⟩
    · rw [hd, take_four_drop _ _ hr]
    · intro i hi
      rw [hd, atIdx_getElem? _ _ (by omega)]
      interval_cases i <;> simp

/-- Witness of C35 on the RFC 2202 digest `b617...be00` (20 bytes, last byte 0x00):
dynamic truncation starts at offset 0 and returns the first four bytes. -/
theorem dynamicTruncate_four_bytes_in_range_witness :
    startOffset
        [0xb6, 0x17, 0x31, 0x86, 0x55, 0x05, 0x72, 0x64, 0xe2, 0x8b, 0xc0, 0xb6, 0xfb, 0x37,
          0x8c, 0x8e, 0xf1, 0x46, 0xbe, 0x00] (2 ^ 64 - 1) ≤ 15 ∧
      (dynamicTruncate
        [0xb6, 0x17, 0x31, 0x86, 0x55, 0x05, 0x72, 0x64, 0xe2, 0x8b, 0xc0, 0xb6, 0xfb, 0x37,
          0x8c, 0x8e, 0xf1, 0x46, 0xbe, 0x00] (2 ^ 64 - 1)).length = 4 :=
  ⟨((dynamicTruncate_four_bytes_in_range
      [0xb6, 0x17, 0x31, 0x86, 0x55, 0x05, 0x72, 0x64, 0xe2, 0x8b, 0xc0, 0xb6, 0xfb, 0x37,
        0x8c, 0x8e, 0xf1, 0x46, 0xbe, 0x00] (2 ^ 64 - 1)).2.2 (by decide) (by decide)
      (by decide)).2.2.1,
    (dynamicTruncate_four_bytes_in_range
      [0xb6, 0x17, 0x31, 0x86, 0x55, 0x05, 0x72, 0x64, 0xe2, 0x8b, 0xc0, 0xb6, 0xfb, 0x37,
        0x8c, 0x8e, 0xf1, 0x46, 0xbe, 0x00] (2 ^ 64 - 1)).1 (by decide)⟩

/-- C36. When a checksum is requested with 6 or 7 digits and the digest is not
empty, `Hotp::calculateHotpFromHmac` returns a code of decimal digits only, of
at least `digits` and at most `digits + 2` characters: the decimal
representation of `v * 10 + check digit`, with `v < 10 ^ (digits + 1)`,
left-padded with zeros up to `digits` characters. -/
theorem calculateHotpFromHmac_checksum_code_length (hmac : List Nat) (digits : Nat) (off : Int)
    (hne : hmac ≠ []) (h6 : 6 ≤ digits) (h7 : digits ≤ 7) :
    ∃ code v, calculateHotpFromHmac hmac digits true off = some code ∧
      v = truncData (dynamicTruncate hmac (off % 2 ^ 64).toNat) % 10 ^ (digits + 1) ∧
      v < 10 ^ (digits + 1) ∧ calcChecksum v (digits + 1) < 10 ∧
      code =
        List.replicate
            (digits - (Nat.toDigits 10 (v * 10 + calcChecksum v (digits + 1))).length) '0' ++
          Nat.toDigits 10 (v * 10 + calcChecksum v (digits + 1)) ∧
      digits ≤ code.length ∧ code.length ≤ digits + 2 ∧
      ∀ c ∈ code, '0' ≤ c ∧ c ≤ '9' := by
  have hv : truncData (dynamicTruncate hmac (off % 2 ^ 64).toNat) % 10 ^ (digits + 1) <
      10 ^ (digits + 1) := Nat.mod_lt _ (Nat.pos_pow_of_pos _ (by decide))
  have hc : calcChecksum
      (truncData (dynamicTruncate hmac (off % 2 ^ 64).toNat) % 10 ^ (digits + 1))
      (digits + 1) < 10 := by
    rw [calcChecksum_eq]
    exact refCheckDigit_lt _ _
  refine ⟨_, _, calculateHotpFromHmac_checksum hmac digits off hne h6 h7, rfl, hv, hc, ?_⟩
  generalize truncData (dynamicTruncate hmac (off % 2 ^ 64).toNat) % 10 ^ (digits + 1) = v
    at hv hc ⊢
  have hn : v * 10 + calcChecksum v (digits + 1) < 10 ^ (digits + 2) := by
    rw [Nat.pow_succ 10 (digits + 1)]
    omega
  obtain ⟨m, hm0, hm, _, e⟩ := toDigits_eq _ (digits + 2) hn (by omega)
  have hlen : (Nat.toDigits 10 (v * 10 + calcChecksum v (digits + 1))).length = m := by
    rw [e, refPaddedDecimal_length]
  have hz := zeroPadLoop_eq digits (Nat.toDigits 10 (v * 10 + calcChecksum v (digits + 1)))
    digits (by omega)
  rw [hz]
  refine ⟨rfl, ?_, ?_, ?_⟩
  · rw [List.length_append, List.length_replicate, hlen]
    omega
  · rw [List.length_append, List.length_replicate, hlen]
    omega
  · intro c hc
    rcases List.mem_append.1 hc with h | h
    · rw [List.eq_of_mem_replicate h]
      decide
    · rw [e] at h
      exact refPaddedDecimal_chars _ _ c h

/-- Witness of C36 on the RFC 2202 digest `b617...be00` with 6 digits. -/
theorem calculateHotpFromHmac_checksum_code_length_witness :
    ∃ code v, calculateHotpFromHmac
        [0xb6, 0x17, 0x31, 0x86, 0x55, 0x05, 0x72, 0x64, 0xe2, 0x8b, 0xc0, 0xb6, 0xfb, 0x37,
          0x8c, 0x8e, 0xf1, 0x46, 0xbe, 0x00] 6 true (-1) = some code ∧
      v = truncData (dynamicTruncate
        [0xb6, 0x17, 0x31, 0x86, 0x55, 0x05, 0x72, 0x64, 0xe2, 0x8b, 0xc0, 0xb6, 0xfb, 0x37,
          0x8c, 0x8e, 0xf1, 0x46, 0xbe, 0x00] ((-1 : Int) % 2 ^ 64).toNat) % 10 ^ (6 + 1) ∧
      v < 10 ^ (6 + 1) ∧ calcChecksum v (6 + 1) < 10 ∧
      code =
        List.replicate (6 - (Nat.toDigits 10 (v * 10 + calcChecksum v (6 + 1))).length) '0' ++
          Nat.toDigits 10 (v * 10 + calcChecksum v (6 + 1)) ∧
      6 ≤ code.length ∧ code.length ≤ 6 + 2 ∧
      ∀ c ∈ code, '0' ≤ c ∧ c ≤ '9' :=
  calculateHotpFromHmac_checksum_code_length
    [0xb6, 0x17, 0x31, 0x86, 0x55, 0x05, 0x72, 0x64, 0xe2, 0x8b, 0xc0, 0xb6, 0xfb, 0x37,
      0x8c, 0x8e, 0xf1, 0x46, 0xbe, 0x00] 6 (-1) (by decide) (by decide) (by decide)

/-- Both ends of the range of C36 occur: with 6 digits the RFC 2202 digest
`b617...be00` gives a code of 8 characters and a digest of zero bytes gives one
of 6 characters. -/
theorem calculateHotpFromHmac_checksum_examples :
    calculateHotpFromHmac
        [0xb6, 0x17, 0x31, 0x86, 0x55, 0x05, 0x72, 0x64, 0xe2, 0x8b, 0xc0, 0xb6, 0xfb, 0x37,
          0x8c, 0x8e, 0xf1, 0x46, 0xbe, 0x00] 6 true (-1) = some "74896705".toList ∧
      calculateHotpFromHmac [0, 0, 0, 0] 6 true (-1) = some "000000".toList := by
  decide

end Hotp

namespace Base32Coder

theorem getElem?_byteAt (l : List Nat) (i : Nat) (h : i < l.length) :
    l[i]? = some (byteAt l i) := by
  unfold byteAt
  rw [List.getD_eq_getElem?_getD, List.getElem?_eq_getElem h]
  rfl

theorem getElem?_base32char (j : Nat) (h : j < 32) : base32chars[j]? = some (base32char j) := by
  unfold base32char
  rw [List.getD_eq_getElem?_getD, List.getElem?_eq_getElem (by simpa [base32chars] using h)]
  rfl

theorem byteAt_lt (l : List Nat) (hb : Bytes l) (i : Nat) : byteAt l i < 256 :=
  Hotp.atIdx_lt l hb i

theorem or_lt_32 (a b : Nat) (ha : a < 32) (hb : b < 32) : a ||| b < 32 :=
  Nat.or_lt_two_pow (n := 5) ha hb

/-- The eight table indices of a block are below 32 when the bytes are below 256. -/
theorem table_indices_lt (x y : Nat) (hx : x < 256) (hy : y < 256) :
    x >>> 3 < 32 ∧ (x &&& 0x07) <<< 2 < 32 ∧ ((x &&& 0x07) <<< 2 ||| y >>> 6) < 32 ∧
      (x &&& 0x3f) >>> 1 < 32 ∧ (x &&& 0x01) <<< 4 < 32 ∧
      ((x &&& 0x01) <<< 4 ||| y >>> 4) < 32 ∧
      (x &&& 0x0f) <<< 1 < 32 ∧ ((x &&& 0x0f) <<< 1 ||| y >>> 7) < 32 ∧
      (x &&& 0x7f) >>> 2 < 32 ∧ (x &&& 0x03) <<< 3 < 32 ∧
      ((x &&& 0x03) <<< 3 ||| y >>> 5) < 32 ∧ x &&& 0x1f < 32 := by
  have e07 := and_07 x
  have e3f := and_3f x
  have e01 := and_01 x
  have e0f := and_0f x
  have e7f := and_7f x
  have e03 := and_03 x
  have e1f := and_1f x
  rw [e07, e3f, e01, e0f, e7f, e03, e1f]
  refine ⟨by omega, by omega, or_lt_32 _ _ (by omega) (by omega), by omega, by omega,
    or_lt_32 _ _ (by omega) (by omega), by omega, or_lt_32 _ _ (by omega) (by omega), by omega,
    by omega, or_lt_32 _ _ (by omega) (by omega), by omega⟩

theorem encodeBlockChecked_eq (toEncode : List Nat) (hb : Bytes toEncode) (offset : Nat)
    (ho : offset < toEncode.length) :
    encodeBlockChecked toEncode toEncode.length offset =
      some (encodeBlock toEncode toEncode.length offset) := by
  have b0 := byteAt_lt toEncode hb offset
  have b1 := byteAt_lt toEncode hb (offset + 1)
  have b2 := byteAt_lt toEncode hb (offset + 2)
  have b3 := byteAt_lt toEncode hb (offset + 3)
  have b4 := byteAt_lt toEncode hb (offset + 4)
  obtain ⟨p1, p2, p3, _, _, _, _, _, _, _, _, _⟩ :=
    table_indices_lt (byteAt toEncode offset) (byteAt toEncode (offset + 1)) b0 b1
  obtain ⟨_, _, _, q4, q5, q6, _, _, _, _, _, _⟩ :=
    table_indices_lt (byteAt toEncode (offset + 1)) (byteAt toEncode (offset + 2)) b1 b2
  obtain ⟨_, _, _, _, _, _, r7, r8, _, _, _, _⟩ :=
    table_indices_lt (byteAt toEncode (offset + 2)) (byteAt toEncode (offset + 3)) b2 b3
  obtain ⟨_, _, _, _, _, _, _, _, s9, s10, s11, _⟩ :=
    table_indices_lt (byteAt toEncode (offset + 3)) (byteAt toEncode (offset + 4)) b3 b4
  obtain ⟨_, _, _, _, _, _, _, _, _, _, _, t12⟩ :=
    table_indices_lt (byteAt toEncode (offset + 4)) 0 b4 (by decide)
  unfold encodeBlockChecked encodeBlock
  rw [getElem?_byteAt _ _ ho]
  simp only [getElem?_base32char _ p1]
  by_cases h1 : offset + 1 < toEncode.length
  · simp only [h1, if_true, getElem?_byteAt _ _ h1, Option.map_some', getElem?_base32char _ p3,
      ge_iff_le, Nat.not_le_of_lt h1, if_false, getElem?_base32char _ q4]
    by_cases h2 : offset + 2 < toEncode.length
    · simp only [h2, if_true, getElem?_byteAt _ _ h2, Option.map_some',
        getElem?_base32char _ q6, Nat.not_le_of_lt h2, if_false]
      by_cases h3 : offset + 3 < toEncode.length
      · simp only [h3, if_true, getElem?_byteAt _ _ h3, Option.map_some',
          getElem?_base32char _ r8, Nat.not_le_of_lt h3, if_false, getElem?_base32char _ s9]
        by_cases h4 : offset + 4 < toEncode.length
        · simp only [h4, if_true, getElem?_byteAt _ _ h4, Option.map_some',
            getElem?_base32char _ s11, Nat.not_le_of_lt h4, if_false,
            getElem?_base32char _ t12]
          rfl
        · simp only [h4, if_false, getElem?_base32char _ s10, Nat.le_of_not_lt h4, if_true]
          rfl
      · simp only [h3, if_false, getElem?_base32char _ r7, Nat.le_of_not_lt h3, if_true]
        rfl
    · simp only [h2, if_false, getElem?_base32char _ q5, Nat.le_of_not_lt h2, if_true]
      rfl
  · simp only [h1, if_false, getElem?_base32char _ p2, ge_iff_le, Nat.le_of_not_lt h1, if_true]
    rfl

theorem encodeBlocks_eq (n : Nat) (hn : 0 < n) :
    encodeBlocks n = (n + 4) / 5 ∧ ∀ i, i < encodeBlocks n → i * 5 < n := by
  unfold encodeBlocks
  simp only
  split_ifs with h1 h2
  · exact ⟨by omega, fun i hi => by omega⟩
  · exact ⟨by omega, fun i hi => by omega⟩
  · exact ⟨by omega, fun i hi => by omega⟩

theorem encodeLoopChecked_eq (toEncode : List Nat) (hb : Bytes toEncode) :
    ∀ (blocks : List Nat) (result : List Char), (∀ i ∈ blocks, i * 5 < toEncode.length) →
      encodeLoopChecked toEncode toEncode.length blocks result =
        some (blocks.foldl
          (fun result i => result ++ encodeBlock toEncode toEncode.length (i * 5)) result)
  | [], _, _ => rfl
  | i :: rest, result, h => by
    rw [encodeLoopChecked, encodeBlockChecked_eq toEncode hb (i * 5) (h i (List.mem_cons_self _ _))]
    exact encodeLoopChecked_eq toEncode hb rest _ (fun j hj => h j (List.mem_cons_of_mem _ hj))

/-- C32. For every non-empty buffer of `n` bytes, every index at which
`Base32Coder::encode` reads `toEncode` is below `n` and every index into the
alphabet table is at most 31: the run with checked accesses does not fail and
returns what `encode` returns; the loop runs `ceil(n/5)` times and the block
offset `5 * i` is below `n` in each of them; a block that started at or beyond
`n` would fail the check. -/
theorem encode_accesses_in_range (toEncode : List Nat) (hne : toEncode ≠ [])
    (hb : Bytes toEncode) :
    encodeChecked toEncode = some (encode toEncode) ∧
      encodeBlocks toEncode.length = (toEncode.length + 4) / 5 ∧
      (∀ i, i < encodeBlocks toEncode.length →
        i * 5 < toEncode.length ∧
          encodeBlockChecked toEncode toEncode.length (i * 5) =
            some (encodeBlock toEncode toEncode.length (i * 5))) ∧
      (∀ offset, toEncode.length ≤ offset →
        encodeBlockChecked toEncode toEncode.length offset = none) := by
  have hpos : 0 < toEncode.length := List.length_pos.2 hne
  obtain ⟨e, hi⟩ := encodeBlocks_eq toEncode.length hpos
  refine ⟨?_, e, fun i h => ⟨hi i h, encodeBlockChecked_eq toEncode hb _ (hi i h)⟩, ?_⟩
  · unfold encodeChecked encode
    simp only [Nat.ne_of_gt hpos, if_false]
    exact encodeLoopChecked_eq toEncode hb _ _ (fun i h => hi i (List.mem_range.1 h))
  · intro offset ho
    unfold encodeBlockChecked
    rw [List.getElem?_eq_none ho]

/-- Witness of C32 on the six bytes of "foobar". -/
theorem encode_accesses_in_range_witness :
    encodeChecked [102, 111, 111, 98, 97, 114] = some (encode [102, 111, 111, 98, 97, 114]) ∧
      encodeBlocks 6 = 2 :=
  ⟨(encode_accesses_in_range [102, 111, 111, 98, 97, 114] (by decide) (by decide)).1,
    (encode_accesses_in_range [102, 111, 111, 98, 97, 114] (by decide) (by decide)).2.1⟩

/-- A value that is not an `unsigned char` would index the table beyond its end. -/
theorem encodeChecked_out_of_table : encodeChecked [256] = none := by decide

end Base32Coder

namespace Base32Coder

theorem strdup_eq (s : List Char) (hnul : ∀ c ∈ s, c ≠ Char.ofNat 0) :
    strdup s = s ++ [Char.ofNat 0] := by
  unfold strdup
  rw [List.takeWhile_eq_self_iff.2 (fun c hc => by simpa using hnul c hc)]

theorem getElem?_charAt (s : List Char) (z : Char) (j : Nat) (h : j < s.length) :
    (s ++ [z])[j]? = some (charAt s j) := by
  unfold charAt
  rw [List.getElem?_append_left h, List.getD_eq_getElem?_getD, List.getElem?_eq_getElem h]
  rfl

theorem store_eq (target : List Nat) (i v : Nat) (h : i < target.length) :
    store target i v = some (target.set i v) := by
  unfold store
  rw [if_pos h]

theorem decode8CharsChecked_eq (s : List Char) (z : Char) (off : Nat) (target : List Nat)
    (ds : Nat) (hs : off + 8 ≤ s.length) (ht : ds + 5 ≤ target.length) :
    decode8CharsChecked (s ++ [z]) off target ds = some (decode8Chars s off target ds) := by
  have r0 := getElem?_charAt s z off (by omega)
  have r1 := getElem?_charAt s z (off + 1) (by omega)
  have r2 := getElem?_charAt s z (off + 2) (by omega)
  have r3 := getElem?_charAt s z (off + 3) (by omega)
  have r4 := getElem?_charAt s z (off + 4) (by omega)
  have r5 := getElem?_charAt s z (off + 5) (by omega)
  have r6 := getElem?_charAt s z (off + 6) (by omega)
  have r7 := getElem?_charAt s z (off + 7) (by omega)
  unfold decode8CharsChecked decode8Chars
  simp only [r0, r1, r2, r3, r4, r5, r6, r7, Option.some_bind, Nat.add_zero,
    store_eq target ds _ (by omega : ds < target.length)]
  by_cases h2 : charAt s (off + 2) = '=' <;> by_cases h4 : charAt s (off + 4) = '=' <;>
    by_cases h5 : charAt s (off + 5) = '=' <;> by_cases h7 : charAt s (off + 7) = '=' <;>
    simp (disch := (simp only [List.length_set]; omega)) only [h2, h4, h5, h7, ne_eq,
      not_true_eq_false, not_false_eq_true, if_true, if_false, Option.some_bind, store_eq]

theorem decodeLoopChecked_eq (s : List Char) (z : Char) :
    ∀ (n i : Nat) (target : List Nat) (ds : Nat), (i + n) * 8 ≤ s.length →
      ds + 5 * n ≤ target.length →
      decodeLoopChecked (s ++ [z]) n i target ds = some (decodeLoop s n i target ds)
  | 0, _, _, _, _, _ => rfl
  | n + 1, i, target, ds, hs, ht => by
    obtain ⟨h1, h2, h3, _⟩ := decode8Chars_spec s (i * 8) target ds (by omega)
    have hle := blockBytes_length_le s (i * 8)
    rw [decodeLoopChecked, decodeLoop, decode8CharsChecked_eq s z (i * 8) target ds (by omega)
      (by omega)]
    rcases hd : decode8Chars s (i * 8) target ds with ⟨b, t, d⟩
    rw [hd] at h1 h2 h3
    simp only at h1 h2 h3
    subst h1
    simp only
    exact decodeLoopChecked_eq s z n (i + 1) t d (by omega) (by omega)

theorem decodedFrom_length_bounds (data : List Char) :
    ∀ (n i : Nat), n ≤ (decodedFrom data n i).length ∧ (decodedFrom data n i).length ≤ 5 * n
  | 0, _ => ⟨Nat.le_refl _, Nat.le_refl _⟩
  | n + 1, i => by
    have h1 := blockBytes_length_le data (i * 8)
    have h2 := blockBytes_length_pos data (i * 8)
    have ih := decodedFrom_length_bounds data n (i + 1)
    rw [decodedFrom, List.length_append]
    omega

/-- For a string without NUL character whose length is a positive multiple of 8,
the copy made by `strdup` holds all of the string, no access of
`Base32Coder::decode` is out of range, and the reported `decodedSize` lies
between the number of blocks and five times that number. -/
theorem decode_accesses_in_range (s : List Char) (hne : s ≠ []) (h8 : s.length % 8 = 0)
    (hnul : ∀ c ∈ s, c ≠ Char.ofNat 0) :
    decodeChecked s = some (decode s) ∧
      s.length / 8 ≤ (decode s).2 ∧ (decode s).2 ≤ 5 * (s.length / 8) ∧
      5 * (s.length / 8) ≤ s.length ∧
      (∀ i k, i < s.length / 8 → k ≤ 7 → i * 8 + k < s.length) := by
  have hb := decodedFrom_length_bounds s (s.length / 8) 0
  obtain ⟨_, e⟩ := decoded_decode s hne h8
  refine ⟨?_, by rw [e]; exact hb.1, by rw [e]; exact hb.2, by omega, fun i k hi hk => by omega⟩
  have hemp : s.isEmpty = false := by
    cases s with
    | nil => exact absurd rfl hne
    | cons _ _ => rfl
  unfold decodeChecked decode
  simp only [hemp, h8, ne_eq, not_true_eq_false, if_false, Bool.false_eq_true]
  rw [strdup_eq s hnul]
  exact decodeLoopChecked_eq s _ _ _ _ _ (by omega) (by rw [List.length_replicate]; omega)

/-- C31. The string of eight characters NUL, "AAAAAAA" has a length that is a
positive multiple of 8, but the buffer `strdup(toDecode.c_str())` that
`decode8Chars` reads holds only its terminating NUL: the read `data[1]` of the
first block is beyond that buffer, and the checked run of `Base32Coder::decode` fails. -/
theorem decode_reads_beyond_strdup_copy :
    (Char.ofNat 0 :: "AAAAAAA".toList).length = 8 ∧
      strdup (Char.ofNat 0 :: "AAAAAAA".toList) = [Char.ofNat 0] ∧
      (strdup (Char.ofNat 0 :: "AAAAAAA".toList))[0 + 1]? = none ∧
      decode8CharsChecked (strdup (Char.ofNat 0 :: "AAAAAAA".toList)) 0
        (List.replicate 8 0) 0 = none ∧
      decodeChecked (Char.ofNat 0 :: "AAAAAAA".toList) = none := by
  decide

end Base32Coder

end Rollin
